import Mathlib

/-!
# BusTub buffer pool core: LRU-K replacer and buffer pool manager

A shallow embedding of `src/buffer/lru_k_replacer.cpp`,
`src/buffer/buffer_pool_manager.cpp` and the worker loop of
`src/storage/disk/disk_scheduler.cpp`.

Modelling conventions.

* A `std::shared_ptr<LRUKNode>` is represented by the frame id of the node it
  points to (`none` is `nullptr`); the nodes themselves live in `node_store_`,
  which is at the same time the `unordered_map` of the replacer.  The replacer
  creates at most one node per frame id, and a node leaves the heap array
  before it leaves the map, so a frame id identifies a live node.
* `frame_id_t` values are natural numbers, so the `frame_id < 0` half of
  `validityOfFrame` cannot be taken; `size_t(-1)` is `SIZE_MAX`.
* A failed `BUSTUB_ASSERT`, a dereference of a null pointer and an access
  outside `arr_ele_` abort the operation: functions that can abort return
  `Except Fault _`.
* The `while` loops of `heapifyUp` / `heapifyDown` are run with a fuel that
  bounds the number of iterations (the child index strictly decreases, the
  parent index strictly increases); running out of fuel is the separate fault
  `Fault.outOfFuel`, which the theorems below show is never produced.
* The wall clock read by `enterCurrentTimeStamp` is an explicit argument `now`.
-/

set_option autoImplicit false

namespace Bustub

/-! ## Faults -/

/-- Ways in which an operation aborts.  The first constructors are the
`BUSTUB_ASSERT` sites of the two source files. -/
inductive Fault where
  /-- Assertion of `push`: "Min Heap size can not be greater than capacity" -/
  | heapOverCapacity
  /-- Assertion of `pop` / `removeEle`: "Min Heap is empty so can't do pop" -/
  | heapEmpty
  /-- Assertion "Min Heap size and replacer size does not match." -/
  | sizeMismatch
  /-- Assertion of `Evict`: "Can not evict is evictable false frame" -/
  | evictNonEvictable
  /-- replacer: "Invalid Frame id" -/
  | invalidFrame
  /-- Assertion of `Remove`: "No removable frame is present" -/
  | noRemovable
  /-- Assertion of `Remove`: "Frame can not be remove as it is non evictable" -/
  | removeNonEvictable
  /-- Assertion of `Remove`: "No frame found" -/
  | noFrameFound
  /-- manager: "Frame id return by EVICT is not valid" -/
  | bpmInvalidFrame
  /-- manager: "Pin count is not 0 so you can not evict this" -/
  | pinCountNotZero
  /-- manager: the completion future of a disk request yields `false` -/
  | diskFailed
  /-- dereference of a null `shared_ptr` -/
  | nullDeref
  /-- access to `arr_ele_` at an index that is not below `heap_capacity_` -/
  | outOfBounds
  /-- the iteration bound of a loop was too small (never produced) -/
  | outOfFuel
  deriving DecidableEq, Repr

/-- The fault of an aborted computation, `none` when it returned. -/
def faultOf {α : Type} : Except Fault α → Option Fault
  | .error e => some e
  | .ok _ => none

/-- Pointwise update of a total map keyed by natural numbers. -/
def upd {α : Type} (m : Nat → α) (i : Nat) (v : α) : Nat → α :=
  fun j => if j = i then v else m j

/-! ## LRUKNode -/

/-- The value of `static_cast<size_t>(-1)`. -/
def SIZE_MAX : Nat := 2 ^ 64 - 1

/-- Embeds `class LRUKNode`: `history_` has the newest timestamp at the front. -/
structure LRUKNode where
  history_ : List Nat
  k_ : Nat
  fid_ : Nat
  is_evictable_ : Bool
  index_in_heap_arr_ : Nat
  deriving DecidableEq, Repr

/-- Embeds `LRUKNode::LRUKNode(k, fid)`: `k` zero timestamps, not evictable, index `-1`. -/
def LRUKNode.new (k fid : Nat) : LRUKNode :=
  { history_ := List.replicate k 0, k_ := k, fid_ := fid,
    is_evictable_ := false, index_in_heap_arr_ := SIZE_MAX }

/-- Embeds `LRUKNode::enterCurrentTimeStamp`, the clock reading being `now`:
`pop_back` then `push_front(now)`.  (`pop_back` on an empty list, which is
undefined in the source, cannot happen when `k ≥ 1`.) -/
def LRUKNode.enterCurrentTimeStamp (n : LRUKNode) (now : Nat) : LRUKNode :=
  { n with history_ := now :: n.history_.dropLast }

/-! ## MinHeap and LRUKReplacer state -/

/-- Embeds `class MinHeap`: `arr_ele_` maps a slot to the node it points to. -/
structure MinHeap where
  arr_ele_ : Nat → Option Nat
  heap_size_ : Nat
  heap_capacity_ : Nat

/-- Embeds `MinHeap::MinHeap(cap)`. -/
def MinHeap.new (cap : Nat) : MinHeap :=
  { arr_ele_ := fun _ => none, heap_size_ := 0, heap_capacity_ := cap }

/-- Embeds `class LRUKReplacer` (the unused members and the latch are left out). -/
structure LRUKReplacer where
  node_store_ : Nat → Option LRUKNode
  replacer_size_ : Nat
  k_ : Nat
  min_heap_obj_ : MinHeap
  total_num_frames : Nat

/-- Embeds `LRUKReplacer::LRUKReplacer(num_frames, k)`. -/
def LRUKReplacer.new (num_frames k : Nat) : LRUKReplacer :=
  { node_store_ := fun _ => none, replacer_size_ := 0, k_ := k,
    min_heap_obj_ := MinHeap.new num_frames, total_num_frames := num_frames }

/-- The heap size, `MinHeap::getHeapSize`. -/
def LRUKReplacer.getHeapSize (r : LRUKReplacer) : Nat := r.min_heap_obj_.heap_size_

/-- Read `arr_ele_[i]`. -/
def LRUKReplacer.slot (r : LRUKReplacer) (i : Nat) : Except Fault (Option Nat) :=
  if i < r.min_heap_obj_.heap_capacity_ then .ok (r.min_heap_obj_.arr_ele_ i)
  else .error .outOfBounds

/-- Write `arr_ele_[i] = v`. -/
def LRUKReplacer.setSlot (r : LRUKReplacer) (i : Nat) (v : Option Nat) :
    Except Fault LRUKReplacer :=
  if i < r.min_heap_obj_.heap_capacity_ then
    .ok { r with min_heap_obj_ :=
            { r.min_heap_obj_ with arr_ele_ := upd r.min_heap_obj_.arr_ele_ i v } }
  else .error .outOfBounds

/-- Dereference a node pointer. -/
def LRUKReplacer.deref (r : LRUKReplacer) : Option Nat → Except Fault LRUKNode
  | none => .error .nullDeref
  | some f =>
    match r.node_store_ f with
    | none => .error .nullDeref
    | some n => .ok n

/-- The statement `p->setIndexInHeapArr(v)`. -/
def LRUKReplacer.setIndexOf (r : LRUKReplacer) (p : Option Nat) (v : Nat) :
    Except Fault LRUKReplacer :=
  match p with
  | none => .error .nullDeref
  | some f =>
    match r.node_store_ f with
    | none => .error .nullDeref
    | some n =>
      .ok { r with node_store_ := upd r.node_store_ f (some { n with index_in_heap_arr_ := v }) }

/-- The statement `arr_ele_[i]->setIndexInHeapArr(v)`. -/
def LRUKReplacer.setIndexAt (r : LRUKReplacer) (i v : Nat) : Except Fault LRUKReplacer :=
  match r.slot i with
  | .error e => .error e
  | .ok p => r.setIndexOf p v

/-- The statement `std::swap(arr_ele_[i], arr_ele_[j])`. -/
def LRUKReplacer.swapSlots (r : LRUKReplacer) (i j : Nat) : Except Fault LRUKReplacer :=
  match r.slot i, r.slot j with
  | .ok a, .ok b =>
    .ok { r with min_heap_obj_ :=
            { r.min_heap_obj_ with
              arr_ele_ := upd (upd r.min_heap_obj_.arr_ele_ i b) j a } }
  | _, _ => .error .outOfBounds

/-- The three statements that every branch of `heapifyUp` / `heapifyDown`
executes: `std::swap(arr_ele_[p], arr_ele_[c]); arr_ele_[p]->setIndexInHeapArr(p);
arr_ele_[c]->setIndexInHeapArr(c);`. -/
def LRUKReplacer.swapAndReindex (r : LRUKReplacer) (p c : Nat) : Except Fault LRUKReplacer :=
  match r.swapSlots p c with
  | .error e => .error e
  | .ok r1 =>
    match r1.setIndexAt p p with
    | .error e => .error e
    | .ok r2 => r2.setIndexAt c c

/-! ## MinHeap::comparator -/

/-- The `while` loop of `MinHeap::comparator` over the two histories read from
the back (`rbegin`), i.e. oldest timestamp first.  Reading past the end of the
second history is an out-of-bounds access. -/
def comparatorLoop (fid1 fid2 : Nat) : List Nat → List Nat → Except Fault Bool
  | [], _ => .ok true
  | _ :: _, [] => .error .outOfBounds
  | x :: xs, y :: ys =>
    if x = 0 ∧ y = 0 then comparatorLoop fid1 fid2 xs ys
    else if x = y then .ok (decide (fid1 < fid2))
    else .ok (decide (x < y))

/-- Embeds `MinHeap::comparator` on two nodes. -/
def comparatorNodes (n1 n2 : LRUKNode) : Except Fault Bool :=
  comparatorLoop n1.fid_ n2.fid_ n1.history_.reverse n2.history_.reverse

/-- Embeds `MinHeap::comparator(ele1, ele2)` on two node pointers. -/
def LRUKReplacer.comparator (r : LRUKReplacer) (ele1 ele2 : Option Nat) : Except Fault Bool :=
  match r.deref ele1 with
  | .error e => .error e
  | .ok n1 =>
    match r.deref ele2 with
    | .error e => .error e
    | .ok n2 => comparatorNodes n1 n2

/-- The expression `comparator(arr_ele_[i], arr_ele_[j])`. -/
def LRUKReplacer.comparatorAt (r : LRUKReplacer) (i j : Nat) : Except Fault Bool :=
  match r.slot i, r.slot j with
  | .ok a, .ok b => r.comparator a b
  | _, _ => .error .outOfBounds

/-! ## MinHeap::heapifyUp / heapifyDown -/

/-- The parent index computed in `heapifyUp`. -/
def parentOf (i : Nat) : Nat := if i = 0 then 0 else (i - 1) / 2

/-- The `while (parentIndex != childIndex)` loop of `MinHeap::heapifyUp`. -/
def heapifyUpLoop : Nat → Nat → Nat → LRUKReplacer → Except Fault LRUKReplacer
  | 0, parentIndex, childIndex, r =>
    if parentIndex ≠ childIndex then .error .outOfFuel else .ok r
  | fuel + 1, parentIndex, childIndex, r =>
    if parentIndex ≠ childIndex then
      match r.comparatorAt parentIndex childIndex with
      | .error e => .error e
      | .ok false =>
        match r.swapAndReindex parentIndex childIndex with
        | .error e => .error e
        | .ok r1 => heapifyUpLoop fuel (parentOf parentIndex) parentIndex r1
      | .ok true => .ok r
    else .ok r

/-- Embeds `MinHeap::heapifyUp(indOfArr)`. -/
def LRUKReplacer.heapifyUp (r : LRUKReplacer) (indOfArr : Nat) : Except Fault LRUKReplacer :=
  heapifyUpLoop indOfArr (parentOf indOfArr) indOfArr r

/-- The `while (parentIndex < heap_size_)` loop of `MinHeap::heapifyDown`. -/
def heapifyDownLoop : Nat → Nat → Nat → Nat → LRUKReplacer → Except Fault LRUKReplacer
  | 0, parentIndex, _, _, r =>
    if parentIndex < r.min_heap_obj_.heap_size_ then .error .outOfFuel else .ok r
  | fuel + 1, parentIndex, childIndexLeft, childIndexRight, r =>
    if parentIndex < r.min_heap_obj_.heap_size_ then
      match (if childIndexLeft < r.min_heap_obj_.heap_size_
              then r.comparatorAt parentIndex childIndexLeft else .ok true) with
      | .error e => .error e
      | .ok left =>
        match (if childIndexRight < r.min_heap_obj_.heap_size_
                then r.comparatorAt parentIndex childIndexRight else .ok true) with
        | .error e => .error e
        | .ok right =>
          if left = false ∧ right = false then
            match r.comparatorAt childIndexLeft childIndexRight with
            | .error e => .error e
            | .ok true =>
              match r.swapAndReindex parentIndex childIndexLeft with
              | .error e => .error e
              | .ok r1 =>
                heapifyDownLoop fuel childIndexLeft (childIndexLeft * 2 + 1)
                  (childIndexLeft * 2 + 2) r1
            | .ok false =>
              match r.swapAndReindex parentIndex childIndexRight with
              | .error e => .error e
              | .ok r1 =>
                heapifyDownLoop fuel childIndexRight (childIndexRight * 2 + 1)
                  (childIndexRight * 2 + 2) r1
          else if left = false then
            match r.swapAndReindex parentIndex childIndexLeft with
            | .error e => .error e
            | .ok r1 =>
              heapifyDownLoop fuel childIndexLeft (childIndexLeft * 2 + 1)
                (childIndexLeft * 2 + 2) r1
          else if right = false then
            match r.swapAndReindex parentIndex childIndexRight with
            | .error e => .error e
            | .ok r1 =>
              heapifyDownLoop fuel childIndexRight (childIndexRight * 2 + 1)
                (childIndexRight * 2 + 2) r1
          else if left = true ∧ right = true then .ok r
          else heapifyDownLoop fuel parentIndex childIndexLeft childIndexRight r
    else .ok r

/-- Embeds `MinHeap::heapifyDown(indOfArr)`. -/
def LRUKReplacer.heapifyDown (r : LRUKReplacer) (indOfArr : Nat) : Except Fault LRUKReplacer :=
  heapifyDownLoop r.min_heap_obj_.heap_size_ indOfArr (indOfArr * 2 + 1) (indOfArr * 2 + 2) r

/-- Embeds `MinHeap::heapifyUpAndDown(indOfArr)`. -/
def LRUKReplacer.heapifyUpAndDown (r : LRUKReplacer) (indOfArr : Nat) :
    Except Fault LRUKReplacer :=
  match r.heapifyUp indOfArr with
  | .error e => .error e
  | .ok r1 => r1.heapifyDown indOfArr

/-- Assign `heap_size_`. -/
def LRUKReplacer.setHeapSize (r : LRUKReplacer) (n : Nat) : LRUKReplacer :=
  { r with min_heap_obj_ := { r.min_heap_obj_ with heap_size_ := n } }

/-- Embeds `MinHeap::push(node)`. -/
def LRUKReplacer.push (r : LRUKReplacer) (node : Nat) : Except Fault LRUKReplacer :=
  if ¬ (r.min_heap_obj_.heap_capacity_ ≥ r.min_heap_obj_.heap_size_) then
    .error .heapOverCapacity
  else
    match r.setSlot r.min_heap_obj_.heap_size_ (some node) with
    | .error e => .error e
    | .ok r1 =>
      match r1.setIndexOf (some node) r1.min_heap_obj_.heap_size_ with
      | .error e => .error e
      | .ok r2 =>
        match r2.heapifyUp r2.min_heap_obj_.heap_size_ with
        | .error e => .error e
        | .ok r3 => .ok (r3.setHeapSize (r3.min_heap_obj_.heap_size_ + 1))

/-- Embeds `MinHeap::removeEle(indOfArr)`. -/
def LRUKReplacer.removeEle (r : LRUKReplacer) (indOfArr : Nat) : Except Fault LRUKReplacer :=
  if r.min_heap_obj_.heap_size_ = 0 then .error .heapEmpty
  else
    let r0 := r.setHeapSize (r.min_heap_obj_.heap_size_ - 1)
    match r0.swapSlots indOfArr r0.min_heap_obj_.heap_size_ with
    | .error e => .error e
    | .ok r1 =>
      match r1.setIndexAt indOfArr indOfArr with
      | .error e => .error e
      | .ok r2 =>
        match r2.setIndexAt r2.min_heap_obj_.heap_size_ r2.min_heap_obj_.heap_size_ with
        | .error e => .error e
        | .ok r3 =>
          match r3.setIndexAt r3.min_heap_obj_.heap_size_ SIZE_MAX with
          | .error e => .error e
          | .ok r4 =>
            match r4.setSlot r4.min_heap_obj_.heap_size_ none with
            | .error e => .error e
            | .ok r5 => r5.heapifyUpAndDown indOfArr

/-! ## LRUKReplacer operations -/

/-- Embeds `LRUKReplacer::validityOfFrame`. -/
def LRUKReplacer.validityOfFrame (r : LRUKReplacer) (frame_id : Nat) : Bool :=
  if frame_id ≥ r.total_num_frames then false else true

/-- Embeds `LRUKReplacer::Size`. -/
def LRUKReplacer.Size (r : LRUKReplacer) : Nat := r.replacer_size_

/-- Embeds `LRUKReplacer::Remove(frame_id)`. -/
def LRUKReplacer.Remove (r : LRUKReplacer) (frame_id : Nat) : Except Fault LRUKReplacer :=
  if r.min_heap_obj_.heap_size_ ≠ r.replacer_size_ then .error .sizeMismatch
  else if r.validityOfFrame frame_id ≠ true then .error .invalidFrame
  else if ¬ (r.replacer_size_ > 0) then .error .noRemovable
  else
    match r.node_store_ frame_id with
    | some node =>
      if node.is_evictable_ ≠ true then .error .removeNonEvictable
      else
        match r.removeEle node.index_in_heap_arr_ with
        | .error e => .error e
        | .ok r1 =>
          .ok { r1 with replacer_size_ := r1.replacer_size_ - 1,
                        node_store_ := upd r1.node_store_ frame_id none }
    | none => .error .noFrameFound

/-- Embeds `LRUKReplacer::Evict`: the result carries the evicted frame id, `none`
when the function returns `false`. -/
def LRUKReplacer.Evict (r : LRUKReplacer) : Except Fault (LRUKReplacer × Option Nat) :=
  if r.min_heap_obj_.heap_size_ ≠ r.replacer_size_ then .error .sizeMismatch
  else if r.replacer_size_ = 0 then .ok (r, none)
  else
    match r.deref (if r.min_heap_obj_.heap_size_ = 0 then none
                   else r.min_heap_obj_.arr_ele_ 0) with
    | .error e => .error e
    | .ok topNode =>
      if topNode.is_evictable_ = false then .error .evictNonEvictable
      else
        match r.Remove topNode.fid_ with
        | .error e => .error e
        | .ok r1 => .ok (r1, some topNode.fid_)

/-- Embeds `LRUKReplacer::RecordAccess(frame_id)` at clock reading `now`. -/
def LRUKReplacer.RecordAccess (r : LRUKReplacer) (frame_id now : Nat) :
    Except Fault LRUKReplacer :=
  if r.validityOfFrame frame_id ≠ true then .error .invalidFrame
  else if r.min_heap_obj_.heap_size_ ≠ r.replacer_size_ then .error .sizeMismatch
  else
    match r.node_store_ frame_id with
    | none =>
      let node1 := (LRUKNode.new r.k_ frame_id).enterCurrentTimeStamp now
      .ok { r with node_store_ := upd r.node_store_ frame_id (some node1) }
    | some node =>
      let node1 := node.enterCurrentTimeStamp now
      let r1 := { r with node_store_ := upd r.node_store_ frame_id (some node1) }
      if node1.is_evictable_ then r1.heapifyUpAndDown node1.index_in_heap_arr_
      else .ok r1

/-- Embeds `LRUKReplacer::SetEvictable(frame_id, set_evictable)`. -/
def LRUKReplacer.SetEvictable (r : LRUKReplacer) (frame_id : Nat) (set_evictable : Bool) :
    Except Fault LRUKReplacer :=
  if r.validityOfFrame frame_id ≠ true then .error .invalidFrame
  else if r.min_heap_obj_.heap_size_ ≠ r.replacer_size_ then .error .sizeMismatch
  else
    match r.node_store_ frame_id with
    | some node =>
      if set_evictable = false then
        if node.is_evictable_ = true then
          let r1 := { r with replacer_size_ := r.replacer_size_ - 1,
                             node_store_ := upd r.node_store_ frame_id
                               (some { node with is_evictable_ := false }) }
          r1.removeEle node.index_in_heap_arr_
        else .ok r
      else
        if node.is_evictable_ = false then
          let r1 := { r with replacer_size_ := r.replacer_size_ + 1,
                             node_store_ := upd r.node_store_ frame_id
                               (some { node with is_evictable_ := true }) }
          r1.push frame_id
        else .ok r
    | none => .ok r

/-! ## Specification vocabulary for the replacer -/

/-- The key by which `MinHeap::comparator` orders well-formed nodes: the number
of recorded (non-zero) timestamps in the window, then the oldest recorded
timestamp, then the frame id; compared lexicographically. -/
def LRUKNode.rank (n : LRUKNode) : Nat ×ₗ Nat ×ₗ Nat :=
  toLex ((n.history_.filter (fun t => decide (t ≠ 0))).length,
    toLex (((n.history_.filter (fun t => decide (t ≠ 0))).getLast?).getD 0, n.fid_))

/-- Everything of a node but its heap index. -/
def LRUKNode.core (n : LRUKNode) : List Nat × Nat × Nat × Bool :=
  (n.history_, n.k_, n.fid_, n.is_evictable_)

/-- A history of a node that has been accessed: `k` entries, the recorded
(non-zero) timestamps newest first, followed by the zero padding. -/
def ValidHist (k : Nat) (h : List Nat) : Prop :=
  ∃ ts z, h = ts ++ List.replicate z 0 ∧ ts ≠ [] ∧ (∀ x ∈ ts, x ≠ 0) ∧ ts.length + z = k

/-- The rank of the node in heap slot `i` (a default value for an empty slot). -/
def LRUKReplacer.slotRank (r : LRUKReplacer) (i : Nat) : Nat ×ₗ Nat ×ₗ Nat :=
  match r.min_heap_obj_.arr_ele_ i with
  | none => toLex (0, toLex (0, 0))
  | some f =>
    match r.node_store_ f with
    | none => toLex (0, toLex (0, 0))
    | some n => n.rank

/-- Frame `f` is tracked by the replacer. -/
def LRUKReplacer.tracked (r : LRUKReplacer) (f : Nat) : Bool :=
  (r.node_store_ f).isSome

/-- Frame `f` is tracked and its node is flagged evictable. -/
def LRUKReplacer.evictable (r : LRUKReplacer) (f : Nat) : Bool :=
  match r.node_store_ f with
  | none => false
  | some n => n.is_evictable_

/-- The recorded history of frame `f`, `none` when it is not tracked. -/
def LRUKReplacer.historyOf (r : LRUKReplacer) (f : Nat) : Option (List Nat) :=
  (r.node_store_ f).map (fun n => n.history_)

/-- Frame `f` occupies one of the first `n` heap slots. -/
def LRUKReplacer.InHeap (r : LRUKReplacer) (n f : Nat) : Prop :=
  ∃ i, i < n ∧ r.min_heap_obj_.arr_ele_ i = some f

/-- Each of the first `n` slots points to a live node that stores the slot's index. -/
def LRUKReplacer.Slots (r : LRUKReplacer) (n : Nat) : Prop :=
  ∀ i, i < n → ∃ f nd, r.min_heap_obj_.arr_ele_ i = some f ∧ r.node_store_ f = some nd ∧
    nd.index_in_heap_arr_ = i

/-- Every tracked node carries its own frame id, a valid one, the replacer's
`k`, and a valid history. -/
def LRUKReplacer.NodesOK (r : LRUKReplacer) : Prop :=
  ∀ f nd, r.node_store_ f = some nd →
    nd.fid_ = f ∧ f < r.total_num_frames ∧ nd.k_ = r.k_ ∧ ValidHist r.k_ nd.history_

/-- The slots from `n` on are null. -/
def LRUKReplacer.Above (r : LRUKReplacer) (n : Nat) : Prop :=
  ∀ i, n ≤ i → r.min_heap_obj_.arr_ele_ i = none

/-- A node is flagged evictable exactly when it is in the heap. -/
def LRUKReplacer.Flags (r : LRUKReplacer) (n : Nat) : Prop :=
  ∀ f nd, r.node_store_ f = some nd → (nd.is_evictable_ = true ↔ r.InHeap n f)

/-- The min-heap order on a slot-indexed family of keys: every non-root slot
below `n` is at least its parent. -/
def HeapOrd {α : Type} [LinearOrder α] (s : Nat → α) (n : Nat) : Prop :=
  ∀ j, 0 < j → j < n → s (parentOf j) ≤ s j

/-- The heap order holds except possibly between `c` and its parent (the state
of the loop of `heapifyUp`). -/
def UpInv {α : Type} [LinearOrder α] (s : Nat → α) (n c : Nat) : Prop :=
  (∀ j, 0 < j → j < n → j ≠ c → s (parentOf j) ≤ s j) ∧
  (0 < c → ∀ j, 0 < j → j < n → parentOf j = c → s (parentOf c) ≤ s j)

/-- The heap order holds except possibly between `p` and its children (the state
of the loop of `heapifyDown`). -/
def DownInv {α : Type} [LinearOrder α] (s : Nat → α) (n p : Nat) : Prop :=
  (∀ j, 0 < j → j < n → parentOf j ≠ p → s (parentOf j) ≤ s j) ∧
  (0 < p → ∀ j, 0 < j → j < n → parentOf j = p → s (parentOf p) ≤ s j)

/-- The heap order holds except possibly at slot `i`, whose key is arbitrary
(the state in which `heapifyUpAndDown(i)` is called). -/
def Hole {α : Type} [LinearOrder α] (s : Nat → α) (n i : Nat) : Prop :=
  (∀ j, 0 < j → j < n → j ≠ i → parentOf j ≠ i → s (parentOf j) ≤ s j) ∧
  (0 < i → ∀ j, 0 < j → j < n → parentOf j = i → s (parentOf i) ≤ s j)

/-- What the heap-internal procedures leave unchanged when they permute the
first `n` slots: the scalars, every node up to its heap index, the set of
frames in the heap, and the slots from `n` on. -/
structure HStep (n : Nat) (r r1 : LRUKReplacer) : Prop where
  k_eq : r1.k_ = r.k_
  total_eq : r1.total_num_frames = r.total_num_frames
  rsize_eq : r1.replacer_size_ = r.replacer_size_
  hsize_eq : r1.min_heap_obj_.heap_size_ = r.min_heap_obj_.heap_size_
  cap_eq : r1.min_heap_obj_.heap_capacity_ = r.min_heap_obj_.heap_capacity_
  core_eq : ∀ f, (r1.node_store_ f).map LRUKNode.core = (r.node_store_ f).map LRUKNode.core
  inheap : ∀ f, r1.InHeap n f ↔ r.InHeap n f
  above : ∀ i, n ≤ i → r1.min_heap_obj_.arr_ele_ i = r.min_heap_obj_.arr_ele_ i

/-- Well-formedness of a replacer state. -/
structure LRUKReplacer.WF (r : LRUKReplacer) : Prop where
  kpos : 0 < r.k_
  cap : r.min_heap_obj_.heap_capacity_ = r.total_num_frames
  rsize : r.replacer_size_ = r.min_heap_obj_.heap_size_
  slots : r.Slots r.min_heap_obj_.heap_size_
  nodes : r.NodesOK
  above : r.Above r.min_heap_obj_.heap_size_
  flags : r.Flags r.min_heap_obj_.heap_size_
  ord : HeapOrd r.slotRank r.min_heap_obj_.heap_size_

/-- The state in which `removeEle(ind)` calls `heapifyUpAndDown(ind)`: the last
heap node `g` sits in slot `ind` and stores that index, the removed node `f`
stores the index `-1`, the last slot is null and the heap is one shorter. -/
def LRUKReplacer.afterUnlink (r : LRUKReplacer) (ind f g : Nat) (nf ng : LRUKNode) :
    LRUKReplacer :=
  { r with
    min_heap_obj_ :=
      { r.min_heap_obj_ with
        arr_ele_ := upd (upd r.min_heap_obj_.arr_ele_ ind (some g))
          (r.min_heap_obj_.heap_size_ - 1) none,
        heap_size_ := r.min_heap_obj_.heap_size_ - 1 },
    node_store_ := upd (upd r.node_store_ g (some { ng with index_in_heap_arr_ := ind }))
      f (some { nf with index_in_heap_arr_ := SIZE_MAX }) }

/-- What `removeEle` achieves on a heap of `n` nodes when it returns: the node
of frame `f` has left the heap, which is again a well-ordered heap of `n - 1`
nodes; nothing else changes (up to the heap indices stored in the nodes). -/
structure RemPost (r r1 : LRUKReplacer) (n f : Nat) : Prop where
  hsize : r1.min_heap_obj_.heap_size_ = n - 1
  k_eq : r1.k_ = r.k_
  total_eq : r1.total_num_frames = r.total_num_frames
  rsize_eq : r1.replacer_size_ = r.replacer_size_
  cap_eq : r1.min_heap_obj_.heap_capacity_ = r.min_heap_obj_.heap_capacity_
  core_eq : ∀ h, (r1.node_store_ h).map LRUKNode.core = (r.node_store_ h).map LRUKNode.core
  inheap : ∀ h, r1.InHeap (n - 1) h ↔ (r.InHeap n h ∧ h ≠ f)
  slots : r1.Slots (n - 1)
  above : r1.Above (n - 1)
  ord : HeapOrd r1.slotRank (n - 1)

/-- What `push` achieves on a heap of `n` nodes: the node of frame `f` has
joined the heap, which is again a well-ordered heap, now of `n + 1` nodes. -/
structure PushPost (r r1 : LRUKReplacer) (n f : Nat) : Prop where
  hsize : r1.min_heap_obj_.heap_size_ = n + 1
  k_eq : r1.k_ = r.k_
  total_eq : r1.total_num_frames = r.total_num_frames
  rsize_eq : r1.replacer_size_ = r.replacer_size_
  cap_eq : r1.min_heap_obj_.heap_capacity_ = r.min_heap_obj_.heap_capacity_
  core_eq : ∀ h, (r1.node_store_ h).map LRUKNode.core = (r.node_store_ h).map LRUKNode.core
  inheap : ∀ h, r1.InHeap (n + 1) h ↔ (r.InHeap n h ∨ h = f)
  slots : r1.Slots (n + 1)
  above : r1.Above (n + 1)
  ord : HeapOrd r1.slotRank (n + 1)

/-- The part of the contract shared by the replacer operations on frame `f`:
the result is well formed, `k` and the number of frames are unchanged, and so
is every node of another frame (up to its heap index). -/
structure OpPost (r r1 : LRUKReplacer) (f : Nat) : Prop where
  wf : r1.WF
  k_eq : r1.k_ = r.k_
  total_eq : r1.total_num_frames = r.total_num_frames
  others : ∀ g, g ≠ f →
    (r1.node_store_ g).map LRUKNode.core = (r.node_store_ g).map LRUKNode.core

/-- The state in which `SetEvictable` calls `removeEle` / `push`: the flag of
the node of frame `f` and `replacer_size_` have already been updated. -/
def LRUKReplacer.flagged (r : LRUKReplacer) (f : Nat) (nd : LRUKNode) (b : Bool) (size : Nat) :
    LRUKReplacer :=
  { r with replacer_size_ := size,
           node_store_ := upd r.node_store_ f (some { nd with is_evictable_ := b }) }

/-! ## Reachable replacer states -/

/-- The history window that a node shows after the accesses `log` (newest
first): the `k` most recent timestamps, padded with zeros at the back. -/
def padHist (k : Nat) (log : List Nat) : List Nat :=
  log.take k ++ List.replicate (k - log.length) 0

/-- Relation `ReplacerReach r log last`: the replacer state `r` is reached from
construction (with `k ≥ 1`) by calls of `RecordAccess`, `SetEvictable`, `Remove`
and `Evict` that returned, with valid frame ids and non-zero, non-decreasing
clock readings.  `log f` lists the timestamps of the accesses recorded for
frame `f` since it was last (re)tracked, newest first, and `last` is the latest
clock reading. -/
inductive ReplacerReach : LRUKReplacer → (Nat → List Nat) → Nat → Prop where
  | init (num_frames k : Nat) (hk : 0 < k) :
      ReplacerReach (LRUKReplacer.new num_frames k) (fun _ => []) 0
  | recordAccess {r : LRUKReplacer} {log : Nat → List Nat} {last : Nat} (f t : Nat)
      (r1 : LRUKReplacer) (h : ReplacerReach r log last) (hf : f < r.total_num_frames)
      (ht : t ≠ 0) (hmono : last ≤ t) (hrun : r.RecordAccess f t = .ok r1) :
      ReplacerReach r1 (upd log f (t :: log f)) t
  | setEvictable {r : LRUKReplacer} {log : Nat → List Nat} {last : Nat} (f : Nat) (b : Bool)
      (r1 : LRUKReplacer) (h : ReplacerReach r log last) (hf : f < r.total_num_frames)
      (hrun : r.SetEvictable f b = .ok r1) :
      ReplacerReach r1 log last
  | remove {r : LRUKReplacer} {log : Nat → List Nat} {last : Nat} (f : Nat)
      (r1 : LRUKReplacer) (h : ReplacerReach r log last) (hf : f < r.total_num_frames)
      (hrun : r.Remove f = .ok r1) :
      ReplacerReach r1 (upd log f []) last
  | evictSome {r : LRUKReplacer} {log : Nat → List Nat} {last : Nat} (f : Nat)
      (r1 : LRUKReplacer) (h : ReplacerReach r log last)
      (hrun : r.Evict = .ok (r1, some f)) :
      ReplacerReach r1 (upd log f []) last
  | evictNone {r : LRUKReplacer} {log : Nat → List Nat} {last : Nat}
      (r1 : LRUKReplacer) (h : ReplacerReach r log last)
      (hrun : r.Evict = .ok (r1, none)) :
      ReplacerReach r1 log last

/-- The nodes show exactly the recorded accesses: an untracked frame has an
empty log, a tracked one a non-empty log of non-zero timestamps whose padded
window is the node's history. -/
def LogInv (r : LRUKReplacer) (log : Nat → List Nat) : Prop :=
  ∀ f, match r.node_store_ f with
    | none => log f = []
    | some nd => log f ≠ [] ∧ (∀ x ∈ log f, x ≠ 0) ∧ nd.history_ = padHist r.k_ (log f)

/-! ## Pages, the disk and the disk scheduler -/

/-- Modelled from the spec: `INVALID_PAGE_ID`, the reserved page id that denotes
"no page" (declared in `common/config.h`, which is not part of the sources). -/
def INVALID_PAGE_ID : Int := -1

/-- Modelled from the spec: a frame (`class Page`, declared in
`storage/page/page.h`, which is not part of the sources): the page-sized byte
buffer, the id of the resident page or `INVALID_PAGE_ID`, a non-negative pin
count and the dirty flag. -/
structure Page where
  data_ : List Nat
  page_id_ : Int
  pin_count_ : Nat
  is_dirty_ : Bool
  deriving DecidableEq, Repr

/-- Modelled from the spec: `Page::ResetMemoryData`, "memory reset to zeros". -/
def Page.ResetMemoryData (p : Page) : Page :=
  { p with data_ := List.replicate p.data_.length 0 }

/-- One operation performed on the storage device. -/
inductive DiskEvent where
  | write (page_id : Int) (data : List Nat)
  | read (page_id : Int)
  deriving DecidableEq, Repr

/-- Modelled from the spec: the storage device (`DiskManager`, not part of the
sources): the bytes it holds for every page id, and the operations performed on
it so far, oldest first. -/
structure Disk where
  contents : Int → List Nat
  log : List DiskEvent

/-- Modelled from the spec: `write_page(page_id, buffer)` persists `buffer` as
the given page. -/
def Disk.WritePage (d : Disk) (page_id : Int) (data : List Nat) : Disk :=
  { contents := fun q => if q = page_id then data else d.contents q,
    log := d.log ++ [DiskEvent.write page_id data] }

/-- Modelled from the spec: `read_page(page_id, buffer)` fills `buffer` with the
page contents; the result is the device afterwards and the filled buffer. -/
def Disk.ReadPage (d : Disk) (page_id : Int) : Disk × List Nat :=
  ({ d with log := d.log ++ [DiskEvent.read page_id] }, d.contents page_id)

/-- Embeds `struct DiskRequest` (without the promise, whose value is the `Bool` that
`DiskScheduler.process` returns). -/
structure DiskRequest where
  is_write_ : Bool
  data_ : List Nat
  page_id_ : Int

/-- What the worker of `DiskScheduler::StartWorkerThread` does with one request,
as seen by the caller that waits on the request's future: the device operation,
the request's buffer afterwards, and the value `true` set on the promise. -/
def DiskScheduler.process (d : Disk) (r : DiskRequest) : Disk × List Nat × Bool :=
  if r.is_write_ = true then (d.WritePage r.page_id_ r.data_, r.data_, true)
  else ((d.ReadPage r.page_id_).1, (d.ReadPage r.page_id_).2, true)

/-! ## The page table (`std::unordered_map<page_id_t, frame_id_t>`) -/

/-- Embeds `page_table_.find(page_id)`, `none` for `end()`. -/
def ptFind : List (Int × Nat) → Int → Option Nat
  | [], _ => none
  | (q, f) :: rest, p => if q = p then some f else ptFind rest p

/-- Embeds `page_table_.erase(page_id)`. -/
def ptErase (pt : List (Int × Nat)) (page_id : Int) : List (Int × Nat) :=
  pt.filter (fun e => decide (e.1 ≠ page_id))

/-- Embeds `page_table_[page_id] = frame_id` (the iteration order of an
`unordered_map` is unspecified; the new entry is put first). -/
def ptAssign (pt : List (Int × Nat)) (page_id : Int) (frame_id : Nat) : List (Int × Nat) :=
  (page_id, frame_id) :: ptErase pt page_id

/-! ## BufferPoolManager -/

/-- Embeds `class BufferPoolManager` (declared in `buffer/buffer_pool_manager.h`): the
frames `pages_`, the replacer, the free list, the page table and the page-id
counter; `disk_` is the device behind the disk scheduler.  Every operation
holds `latch_` from entry to exit, so operations are atomic steps. -/
structure BufferPoolManager where
  pool_size_ : Nat
  pages_ : Nat → Page
  replacer_ : LRUKReplacer
  free_list_ : List Nat
  page_table_ : List (Int × Nat)
  next_page_id_ : Int
  disk_ : Disk

/-- Embeds `BufferPoolManager::BufferPoolManager(pool_size, disk_manager, replacer_k)`;
`page_size` is the constant `BUSTUB_PAGE_SIZE` of `common/config.h`. -/
def BufferPoolManager.new (pool_size : Nat) (disk : Disk) (replacer_k : Nat) (page_size : Nat) :
    BufferPoolManager :=
  { pool_size_ := pool_size,
    pages_ := fun _ =>
      { data_ := List.replicate page_size 0, page_id_ := INVALID_PAGE_ID, pin_count_ := 0,
        is_dirty_ := false },
    replacer_ := LRUKReplacer.new pool_size replacer_k,
    free_list_ := List.range pool_size,
    page_table_ := [],
    next_page_id_ := 0,
    disk_ := disk }

/-- Embeds `BufferPoolManager::validityOfFrame`. -/
def BufferPoolManager.validityOfFrame (s : BufferPoolManager) (frame_id : Nat) : Bool :=
  if frame_id ≥ s.pool_size_ then false else true

/-- Replace the frame `frame_id` of `pages_`. -/
def BufferPoolManager.setPage (s : BufferPoolManager) (frame_id : Nat) (p : Page) :
    BufferPoolManager :=
  { s with pages_ := upd s.pages_ frame_id p }

/-- Embeds `BufferPoolManager::ActOnDirtyBit(frame_id)`. -/
def BufferPoolManager.ActOnDirtyBit (s : BufferPoolManager) (frame_id : Nat) :
    Except Fault BufferPoolManager :=
  if (s.pages_ frame_id).page_id_ = INVALID_PAGE_ID then .ok s
  else if (s.pages_ frame_id).is_dirty_ = true then
    match DiskScheduler.process s.disk_
        { is_write_ := true, page_id_ := (s.pages_ frame_id).page_id_,
          data_ := (s.pages_ frame_id).data_ } with
    | (_, _, false) => .error .diskFailed
    | (d, _, true) =>
      .ok ({ s with disk_ := d }.setPage frame_id { s.pages_ frame_id with is_dirty_ := false })
  else .ok s

/-- Embeds `BufferPoolManager::ProceesOfNewPage(frame_id)` at clock reading `now`. -/
def BufferPoolManager.ProceesOfNewPage (s : BufferPoolManager) (frame_id now : Nat) :
    Except Fault (BufferPoolManager × Int) :=
  if s.validityOfFrame frame_id ≠ true then .error .bpmInvalidFrame
  else if (s.pages_ frame_id).pin_count_ ≠ 0 then .error .pinCountNotZero
  else
    match s.ActOnDirtyBit frame_id with
    | .error e => .error e
    | .ok s1 =>
      let new_page_id := s1.next_page_id_
      let s2 := { s1 with next_page_id_ := s1.next_page_id_ + 1 }
      let s3 := { s2 with page_table_ := ptErase s2.page_table_ (s2.pages_ frame_id).page_id_ }
      let s4 := { s3 with page_table_ := ptAssign s3.page_table_ new_page_id frame_id }
      let s5 := s4.setPage frame_id
        { ({ s4.pages_ frame_id with pin_count_ := 0, page_id_ := new_page_id } :
            Page).ResetMemoryData with pin_count_ := 0 + 1, is_dirty_ := false }
      match s5.replacer_.RecordAccess frame_id now with
      | .error e => .error e
      | .ok r1 =>
        match r1.SetEvictable frame_id false with
        | .error e => .error e
        | .ok r2 => .ok ({ s5 with replacer_ := r2 }, new_page_id)

/-- Embeds `BufferPoolManager::ProceesOfFetchPage(frame_id, page_id)` at clock reading `now`. -/
def BufferPoolManager.ProceesOfFetchPage (s : BufferPoolManager) (frame_id : Nat)
    (page_id : Int) (now : Nat) : Except Fault BufferPoolManager :=
  if s.validityOfFrame frame_id ≠ true then .error .bpmInvalidFrame
  else if (s.pages_ frame_id).pin_count_ ≠ 0 then .error .pinCountNotZero
  else
    match s.ActOnDirtyBit frame_id with
    | .error e => .error e
    | .ok s1 =>
      match DiskScheduler.process s1.disk_
          { is_write_ := false, page_id_ := page_id, data_ := (s1.pages_ frame_id).data_ } with
      | (_, _, false) => .error .diskFailed
      | (d, buf, true) =>
        let s2 := { s1 with disk_ := d }.setPage frame_id { s1.pages_ frame_id with data_ := buf }
        let s3 := { s2 with page_table_ := ptErase s2.page_table_ (s2.pages_ frame_id).page_id_ }
        let s4 := { s3 with page_table_ := ptAssign s3.page_table_ page_id frame_id }
        let s5 := s4.setPage frame_id
          { s4.pages_ frame_id with pin_count_ := 0 + 1, page_id_ := page_id, is_dirty_ := false }
        match s5.replacer_.RecordAccess frame_id now with
        | .error e => .error e
        | .ok r1 =>
          match r1.SetEvictable frame_id false with
          | .error e => .error e
          | .ok r2 => .ok { s5 with replacer_ := r2 }

/-- Embeds `BufferPoolManager::NewPage` at clock reading `now`.  The result carries the
id written to `*page_id` and the index of the returned frame, `none` for
`nullptr`. -/
def BufferPoolManager.NewPage (s : BufferPoolManager) (now : Nat) :
    Except Fault (BufferPoolManager × Option (Int × Nat)) :=
  match s.free_list_ with
  | [] =>
    match s.replacer_.Evict with
    | .error e => .error e
    | .ok (r1, none) => .ok ({ s with replacer_ := r1 }, none)
    | .ok (r1, some frame_id) =>
      match ({ s with replacer_ := r1 } : BufferPoolManager).ProceesOfNewPage frame_id now with
      | .error e => .error e
      | .ok (s1, new_page_id) => .ok (s1, some (new_page_id, frame_id))
  | frame_id :: rest =>
    match ({ s with free_list_ := rest } : BufferPoolManager).ProceesOfNewPage frame_id now with
    | .error e => .error e
    | .ok (s1, new_page_id) => .ok (s1, some (new_page_id, frame_id))

/-- Embeds `BufferPoolManager::FetchPage(page_id)` at clock reading `now`; the result
carries the index of the returned frame, `none` for `nullptr`. -/
def BufferPoolManager.FetchPage (s : BufferPoolManager) (page_id : Int) (now : Nat) :
    Except Fault (BufferPoolManager × Option Nat) :=
  match ptFind s.page_table_ page_id with
  | some frame_id =>
    if s.validityOfFrame frame_id ≠ true then .error .bpmInvalidFrame
    else
      let s1 := s.setPage frame_id
        { s.pages_ frame_id with pin_count_ := (s.pages_ frame_id).pin_count_ + 1 }
      match s1.replacer_.RecordAccess frame_id now with
      | .error e => .error e
      | .ok r1 =>
        match r1.SetEvictable frame_id false with
        | .error e => .error e
        | .ok r2 => .ok ({ s1 with replacer_ := r2 }, some frame_id)
  | none =>
    match s.free_list_ with
    | [] =>
      match s.replacer_.Evict with
      | .error e => .error e
      | .ok (r1, none) => .ok ({ s with replacer_ := r1 }, none)
      | .ok (r1, some frame_id) =>
        match ({ s with replacer_ := r1 } : BufferPoolManager).ProceesOfFetchPage frame_id
            page_id now with
        | .error e => .error e
        | .ok s1 => .ok (s1, some frame_id)
    | frame_id :: rest =>
      match ({ s with free_list_ := rest } : BufferPoolManager).ProceesOfFetchPage frame_id
          page_id now with
      | .error e => .error e
      | .ok s1 => .ok (s1, some frame_id)

/-- Embeds `BufferPoolManager::UnpinPage(page_id, is_dirty)`. -/
def BufferPoolManager.UnpinPage (s : BufferPoolManager) (page_id : Int) (is_dirty : Bool) :
    Except Fault (BufferPoolManager × Bool) :=
  match ptFind s.page_table_ page_id with
  | none => .ok (s, false)
  | some frame_id =>
    if (s.pages_ frame_id).pin_count_ ≤ 0 then .ok (s, false)
    else
      let s1 := s.setPage frame_id
        { s.pages_ frame_id with pin_count_ := (s.pages_ frame_id).pin_count_ - 1 }
      match (if (s1.pages_ frame_id).pin_count_ = 0
              then s1.replacer_.SetEvictable frame_id true else .ok s1.replacer_) with
      | .error e => .error e
      | .ok r1 =>
        let s2 := { s1 with replacer_ := r1 }
        .ok (s2.setPage frame_id { s2.pages_ frame_id with is_dirty_ := is_dirty }, true)

/-- Embeds `BufferPoolManager::FlushPage(page_id)`. -/
def BufferPoolManager.FlushPage (s : BufferPoolManager) (page_id : Int) :
    Except Fault (BufferPoolManager × Bool) :=
  if page_id = INVALID_PAGE_ID then .ok (s, false)
  else
    match ptFind s.page_table_ page_id with
    | none => .ok (s, false)
    | some frame_id =>
      match (s.setPage frame_id { s.pages_ frame_id with is_dirty_ := true }).ActOnDirtyBit
          frame_id with
      | .error e => .error e
      | .ok s1 => .ok (s1, true)

/-- The loop of `BufferPoolManager::FlushAllPages` over the entries of the page
table. -/
def flushAllLoop : List (Int × Nat) → BufferPoolManager → Except Fault BufferPoolManager
  | [], s => .ok s
  | (page_id, frame_id) :: rest, s =>
    if s.validityOfFrame frame_id ≠ true then .error .bpmInvalidFrame
    else if page_id = INVALID_PAGE_ID then flushAllLoop rest s
    else
      match (s.setPage frame_id { s.pages_ frame_id with is_dirty_ := true }).ActOnDirtyBit
          frame_id with
      | .error e => .error e
      | .ok s1 => flushAllLoop rest s1

/-- Embeds `BufferPoolManager::FlushAllPages`. -/
def BufferPoolManager.FlushAllPages (s : BufferPoolManager) : Except Fault BufferPoolManager :=
  flushAllLoop s.page_table_ s

/-- Embeds `BufferPoolManager::DeletePage(page_id)` (`DeallocatePage` does nothing). -/
def BufferPoolManager.DeletePage (s : BufferPoolManager) (page_id : Int) :
    Except Fault (BufferPoolManager × Bool) :=
  if page_id = INVALID_PAGE_ID then .ok (s, false)
  else
    match ptFind s.page_table_ page_id with
    | none => .ok (s, false)
    | some frame_id =>
      if (s.pages_ frame_id).pin_count_ > 0 then .ok (s, false)
      else
        match s.ActOnDirtyBit frame_id with
        | .error e => .error e
        | .ok s1 =>
          let s2 := { s1 with page_table_ := ptErase s1.page_table_ page_id }
          match s2.replacer_.Remove frame_id with
          | .error e => .error e
          | .ok r1 =>
            let s3 := { s2 with replacer_ := r1, free_list_ := s2.free_list_ ++ [frame_id] }
            .ok (s3.setPage frame_id
                  { (s3.pages_ frame_id).ResetMemoryData with
                    page_id_ := INVALID_PAGE_ID, pin_count_ := 0, is_dirty_ := false }, false)

/-! ## Specification vocabulary for the buffer pool manager -/

/-- The device after the write-back that `ActOnDirtyBit(f)` performs: one
`WritePage` of the frame's page id and contents when the frame holds a page and
is dirty, nothing otherwise. -/
def BufferPoolManager.writeBack (s : BufferPoolManager) (f : Nat) : Disk :=
  if (s.pages_ f).page_id_ ≠ INVALID_PAGE_ID ∧ (s.pages_ f).is_dirty_ = true then
    s.disk_.WritePage (s.pages_ f).page_id_ (s.pages_ f).data_
  else s.disk_

/-- The replacer after `RecordAccess(f)` at time `now` on a frame `f` that it
did not track: a fresh, non-evictable node with the single access `now`. -/
def LRUKReplacer.tracking (r : LRUKReplacer) (f now : Nat) : LRUKReplacer :=
  let node := (LRUKNode.new r.k_ f).enterCurrentTimeStamp now
  { r with node_store_ := upd r.node_store_ f (some node) }

/-- The manager after frame `f` (pin count zero, not tracked by the replacer)
has been given the page `page_id` with contents `data`: the old page of the
frame is written back if dirty, its page-table entry is erased, the new entry
is added, and the frame is pinned once, clean and non-evictable. -/
def BufferPoolManager.installed (s : BufferPoolManager) (f : Nat) (page_id : Int)
    (data : List Nat) (disk : Disk) (next : Int) (now : Nat) : BufferPoolManager :=
  { pool_size_ := s.pool_size_,
    pages_ := upd s.pages_ f
      { data_ := data, page_id_ := page_id, pin_count_ := 1, is_dirty_ := false },
    replacer_ := s.replacer_.tracking f now,
    free_list_ := s.free_list_,
    page_table_ := ptAssign (ptErase s.page_table_ (s.pages_ f).page_id_) page_id f,
    next_page_id_ := next,
    disk_ := disk }

/-- The consistency of the manager's state between two operations. -/
structure BufferPoolManager.Inv (s : BufferPoolManager) : Prop where
  wf : s.replacer_.WF
  total : s.replacer_.total_num_frames = s.pool_size_
  free_nodup : s.free_list_.Nodup
  free : ∀ f, f ∈ s.free_list_ →
    f < s.pool_size_ ∧ s.replacer_.node_store_ f = none ∧ (s.pages_ f).pin_count_ = 0 ∧
      (s.pages_ f).page_id_ = INVALID_PAGE_ID
  evictable_iff : ∀ f nd, s.replacer_.node_store_ f = some nd →
    (nd.is_evictable_ = true ↔ (s.pages_ f).pin_count_ = 0)
  table : ∀ p f, (p, f) ∈ s.page_table_ →
    f < s.pool_size_ ∧ s.replacer_.node_store_ f ≠ none ∧ (s.pages_ f).page_id_ = p

/-- The state in which `ProceesOfNewPage(f)` / `ProceesOfFetchPage(f, _)` is
entered: frame `f` has been taken off the free list or evicted from the
replacer, so it is valid, unpinned, untracked and not in the free list; the
page-table entry of its old page may still be there. -/
structure BufferPoolManager.PreInstall (s : BufferPoolManager) (f : Nat) : Prop where
  wf : s.replacer_.WF
  total : s.replacer_.total_num_frames = s.pool_size_
  free_nodup : s.free_list_.Nodup
  free : ∀ g, g ∈ s.free_list_ →
    g < s.pool_size_ ∧ s.replacer_.node_store_ g = none ∧ (s.pages_ g).pin_count_ = 0 ∧
      (s.pages_ g).page_id_ = INVALID_PAGE_ID
  evictable_iff : ∀ g nd, s.replacer_.node_store_ g = some nd →
    (nd.is_evictable_ = true ↔ (s.pages_ g).pin_count_ = 0)
  table : ∀ p g, (p, g) ∈ s.page_table_ →
    g < s.pool_size_ ∧ (g ≠ f → s.replacer_.node_store_ g ≠ none) ∧ (s.pages_ g).page_id_ = p
  valid : f < s.pool_size_
  unpinned : (s.pages_ f).pin_count_ = 0
  untracked : s.replacer_.node_store_ f = none
  not_free : f ∉ s.free_list_

/-- Relation `BPMReach s`: the manager state `s` is reached from a freshly constructed
manager (with `replacer_k ≥ 1`) by calls of `NewPage`, `FetchPage`, `UnpinPage`,
`FlushPage`, `FlushAllPages` and `DeletePage` that returned; the clock readings
(milliseconds since the epoch) are non-zero. -/
inductive BPMReach : BufferPoolManager → Prop where
  | init (pool_size : Nat) (disk : Disk) (replacer_k page_size : Nat) (hk : 0 < replacer_k) :
      BPMReach (BufferPoolManager.new pool_size disk replacer_k page_size)
  | newPage {s : BufferPoolManager} (now : Nat) (s1 : BufferPoolManager)
      (res : Option (Int × Nat)) (h : BPMReach s) (hnow : now ≠ 0)
      (hrun : s.NewPage now = .ok (s1, res)) : BPMReach s1
  | fetchPage {s : BufferPoolManager} (page_id : Int) (now : Nat) (s1 : BufferPoolManager)
      (res : Option Nat) (h : BPMReach s) (hnow : now ≠ 0)
      (hrun : s.FetchPage page_id now = .ok (s1, res)) : BPMReach s1
  | unpinPage {s : BufferPoolManager} (page_id : Int) (is_dirty : Bool)
      (s1 : BufferPoolManager) (res : Bool) (h : BPMReach s)
      (hrun : s.UnpinPage page_id is_dirty = .ok (s1, res)) : BPMReach s1
  | flushPage {s : BufferPoolManager} (page_id : Int) (s1 : BufferPoolManager) (res : Bool)
      (h : BPMReach s) (hrun : s.FlushPage page_id = .ok (s1, res)) : BPMReach s1
  | flushAllPages {s : BufferPoolManager} (s1 : BufferPoolManager) (h : BPMReach s)
      (hrun : s.FlushAllPages = .ok s1) : BPMReach s1
  | deletePage {s : BufferPoolManager} (page_id : Int) (s1 : BufferPoolManager) (res : Bool)
      (h : BPMReach s) (hrun : s.DeletePage page_id = .ok (s1, res)) : BPMReach s1

/-- Relation `Picked s f s0`: `NewPage` / `FetchPage` (on a miss) choose frame `f` in
state `s`, leaving the state `s0`: the front frame of the free list when the
free list is not empty, and otherwise the frame that `Evict` returns. -/
def Picked (s : BufferPoolManager) (f : Nat) (s0 : BufferPoolManager) : Prop :=
  (∃ rest, s.free_list_ = f :: rest ∧ s0 = { s with free_list_ := rest }) ∨
  (s.free_list_ = [] ∧ ∃ r1, s.replacer_.Evict = .ok (r1, some f) ∧
    s0 = { s with replacer_ := r1 })

/-- Relation `DirtyOnly s s1`: the states differ at most in dirty flags and in the device. -/
def DirtyOnly (s s1 : BufferPoolManager) : Prop :=
  s1.pool_size_ = s.pool_size_ ∧ s1.replacer_ = s.replacer_ ∧ s1.free_list_ = s.free_list_ ∧
  s1.page_table_ = s.page_table_ ∧ s1.next_page_id_ = s.next_page_id_ ∧
  ∀ g, (s1.pages_ g).pin_count_ = (s.pages_ g).pin_count_ ∧
    (s1.pages_ g).page_id_ = (s.pages_ g).page_id_ ∧ (s1.pages_ g).data_ = (s.pages_ g).data_

/-- The manager after `DeletePage(page_id)` has reclaimed frame `f`, the
replacer having become `r1`: the page is written back if dirty, its page-table
entry is erased, `f` is appended to the free list and reset to the free state. -/
def BufferPoolManager.deleted (s : BufferPoolManager) (f : Nat) (page_id : Int)
    (r1 : LRUKReplacer) : BufferPoolManager :=
  { pool_size_ := s.pool_size_,
    pages_ := upd s.pages_ f
      { data_ := List.replicate (s.pages_ f).data_.length 0, page_id_ := INVALID_PAGE_ID,
        pin_count_ := 0, is_dirty_ := false },
    replacer_ := r1,
    free_list_ := s.free_list_ ++ [f],
    page_table_ := ptErase s.page_table_ page_id,
    next_page_id_ := s.next_page_id_,
    disk_ := s.writeBack f }

/-! ## Concrete scenarios -/

/-- The state in which a call returned (`dflt` if it aborted). -/
def stateOf {α : Type} (x : Except Fault (BufferPoolManager × α)) (dflt : BufferPoolManager) :
    BufferPoolManager :=
  match x with
  | .ok (s, _) => s
  | .error _ => dflt

/-- The value that a call returned, `none` if it aborted. -/
def valueOf {α : Type} (x : Except Fault (BufferPoolManager × α)) : Option α :=
  match x with
  | .ok (_, a) => some a
  | .error _ => none

/-- A device on which every page holds the two bytes `7, 7`. -/
def exampleDisk : Disk := { contents := fun _ => [7, 7], log := [] }

/-- A pool of one frame (`k = 2`, pages of two bytes) after `FetchPage(0)` at
time 1 and `UnpinPage(0, false)`: frame 0 holds page 0, unpinned. -/
def scenarioFetched : BufferPoolManager :=
  let a := BufferPoolManager.new 1 exampleDisk 2 2
  let b := stateOf (a.FetchPage 0 1) a
  stateOf (b.UnpinPage 0 false) b

/-- A pool of three frames (`k = 2`) after three `NewPage` calls at times 1, 2, 3. -/
def scenarioFull : BufferPoolManager :=
  let a := BufferPoolManager.new 3 exampleDisk 2 2
  let b := stateOf (a.NewPage 1) a
  let c := stateOf (b.NewPage 2) b
  stateOf (c.NewPage 3) c

/-- State `scenarioFull` after `UnpinPage(0, false)` and `UnpinPage(1, false)`: pages 0
and 1 are resident, unpinned and evictable, page 2 is pinned. -/
def scenarioTwoEvictable : BufferPoolManager :=
  let b := stateOf (scenarioFull.UnpinPage 0 false) scenarioFull
  stateOf (b.UnpinPage 1 false) b

/-- A pool of three frames after `NewPage` (page 0), `FetchPage(0)` and
`UnpinPage(0, true)`: page 0 is resident, pinned once and dirty. -/
def scenarioDirty : BufferPoolManager :=
  let a := BufferPoolManager.new 3 exampleDisk 2 2
  let b := stateOf (a.NewPage 1) a
  let c := stateOf (b.FetchPage 0 2) b
  stateOf (c.UnpinPage 0 true) c

/-- A pool of one frame after `NewPage` (page 0) at time 1 and
`UnpinPage(0, true)`: frame 0 holds page 0, dirty, unpinned and evictable. -/
def scenarioDirtyVictim : BufferPoolManager :=
  let a := BufferPoolManager.new 1 exampleDisk 2 2
  let b := stateOf (a.NewPage 1) a
  stateOf (b.UnpinPage 0 true) b

/-- The replacer that `Evict` leaves (`r` itself if it aborted). -/
def replacerAfterEvict (r : LRUKReplacer) : LRUKReplacer :=
  match r.Evict with
  | .ok (r1, _) => r1
  | .error _ => r

/-- A replacer for three frames with `k = 2` after `RecordAccess(0)` at time 1,
`RecordAccess(1)` at time 2, `RecordAccess(0)` at time 3 and
`SetEvictable(_, true)` for both frames. -/
def exampleReplacer : LRUKReplacer :=
  let get := fun (x : Except Fault LRUKReplacer) (d : LRUKReplacer) =>
    match x with
    | .ok r => r
    | .error _ => d
  let a := LRUKReplacer.new 3 2
  let b := get (a.RecordAccess 0 1) a
  let c := get (b.RecordAccess 1 2) b
  let d := get (c.RecordAccess 0 3) c
  let e := get (d.SetEvictable 0 true) d
  get (e.SetEvictable 1 true) e

/-- The access log of `exampleReplacer`. -/
def exampleLog : Nat → List Nat :=
  upd (upd (upd (fun _ => []) 0 [1]) 1 [2]) 0 [3, 1]

/-- Successive `FetchPage(page_id)` calls, one per clock reading of the list,
each of which returns a frame; `none` if a call aborts or returns `nullptr`. -/
def fetchMany (page_id : Int) : List Nat → BufferPoolManager → Option BufferPoolManager
  | [], s => some s
  | now :: rest, s =>
    match s.FetchPage page_id now with
    | .ok (s1, some _) => fetchMany page_id rest s1
    | _ => none

/-- Performs `count` successive `UnpinPage(page_id, is_dirty)` calls each of which returns
`true`; `none` if a call aborts or returns `false`. -/
def unpinMany (page_id : Int) (is_dirty : Bool) : Nat → BufferPoolManager →
    Option BufferPoolManager
  | 0, s => some s
  | count + 1, s =>
    match s.UnpinPage page_id is_dirty with
    | .ok (s1, true) => unpinMany page_id is_dirty count s1
    | _ => none

/-- Relation `TableStep s s1`: what one operation does to the page table: nothing,
the erasure of one key, or the replacement of the entry of the page held by a
frame `f` with a new entry for `f`. -/
def TableStep (s s1 : BufferPoolManager) : Prop :=
  s1.page_table_ = s.page_table_ ∨ (∃ p, s1.page_table_ = ptErase s.page_table_ p) ∨
  ∃ f p, s1.page_table_ = ptAssign (ptErase s.page_table_ (s.pages_ f).page_id_) p f

/-- A pool of one frame (`k = 2`) after `FetchPage(INVALID_PAGE_ID)` at time 1. -/
def scenarioInvalidFetched : BufferPoolManager :=
  let a := BufferPoolManager.new 1 exampleDisk 2 2
  stateOf (a.FetchPage INVALID_PAGE_ID 1) a

/-- State `scenarioInvalidFetched` after `UnpinPage(INVALID_PAGE_ID, false)`. -/
def scenarioInvalidUnpinned : BufferPoolManager :=
  stateOf (scenarioInvalidFetched.UnpinPage INVALID_PAGE_ID false) scenarioInvalidFetched

/-- The number of frames that are resident (not in the free list: a page has
been installed in them and not been deleted since) and have pin count zero. -/
def BufferPoolManager.unpinnedResidentFrames (s : BufferPoolManager) : Nat :=
  ((List.range s.pool_size_).filter (fun f =>
    decide (f ∉ s.free_list_ ∧ (s.pages_ f).pin_count_ = 0))).length

/-- The number of frames whose metadata names a page (their page id is not
`INVALID_PAGE_ID`) and that have pin count zero. -/
def BufferPoolManager.unpinnedFramesWithPageId (s : BufferPoolManager) : Nat :=
  ((List.range s.pool_size_).filter (fun f =>
    decide ((s.pages_ f).page_id_ ≠ INVALID_PAGE_ID ∧ (s.pages_ f).pin_count_ = 0))).length

/-- Every frame of the pool is in the free list or tracked by the replacer. -/
def BufferPoolManager.Cover (s : BufferPoolManager) : Prop :=
  ∀ f, f < s.pool_size_ → f ∈ s.free_list_ ∨ s.replacer_.tracked f = true

/-- The replacer that a returning call leaves (`d` if it aborted). -/
def replacerOf (x : Except Fault LRUKReplacer) (d : LRUKReplacer) : LRUKReplacer :=
  match x with
  | .ok r => r
  | .error _ => d

/-- A replacer for two frames with `k = 3` after `RecordAccess(0)` at times 1 and
2, `RecordAccess(1)` at time 3 and `SetEvictable(_, true)` for both frames:
both frames have fewer than `k` recorded accesses. -/
def replacerUnequalCounts : LRUKReplacer :=
  let a := LRUKReplacer.new 2 3
  let b := replacerOf (a.RecordAccess 0 1) a
  let c := replacerOf (b.RecordAccess 0 2) b
  let d := replacerOf (c.RecordAccess 1 3) c
  let e := replacerOf (d.SetEvictable 0 true) d
  replacerOf (e.SetEvictable 1 true) e

/-- The access log of `replacerUnequalCounts`. -/
def logUnequalCounts : Nat → List Nat :=
  upd (upd (upd (fun _ => []) 0 [1]) 0 [2, 1]) 1 [3]

/-- Successive `NewPage` calls, one per clock reading of the list, each of which
returns a frame: the state after the last call and the (page id, frame) pairs
that the calls returned, in call order; `none` if a call aborts or returns
`nullptr`. -/
def newPages : List Nat → BufferPoolManager → Option (BufferPoolManager × List (Int × Nat))
  | [], s => some (s, [])
  | now :: rest, s =>
    match s.NewPage now with
    | .ok (s1, some res) =>
      match newPages rest s1 with
      | some (s2, out) => some (s2, res :: out)
      | none => none
    | _ => none

/-- One `UnpinPage(p, is_dirty)` call for each page id `p` of the list, in list order,
each of which returns `true`; `none` if a call aborts or returns `false`. -/
def unpinEach (is_dirty : Bool) : List Int → BufferPoolManager → Option BufferPoolManager
  | [], s => some s
  | p :: rest, s =>
    match s.UnpinPage p is_dirty with
    | .ok (s1, true) => unpinEach is_dirty rest s1
    | _ => none

/-- The manager of `n` frames after the first `i` of them have been filled by
`NewPage` calls at the clock readings `ts` and the pages in `unpinned` have been
unpinned with `is_dirty = false`: frame `j < i` holds page `j`, clean, pinned
once unless unpinned, and was accessed once, at time `ts[j]`; the frames from
`i` on are free. -/
structure Filled (n i : Nat) (ts : List Nat) (unpinned : List Nat) (s : BufferPoolManager) :
    Prop where
  inv : s.Inv
  pool : s.pool_size_ = n
  free : s.free_list_ = List.range' i (n - i)
  next : s.next_page_id_ = (i : Int)
  len : ts.length = i
  frames : ∀ j, j < i →
    (s.pages_ j).page_id_ = (j : Int) ∧ (s.pages_ j).is_dirty_ = false ∧
      (s.pages_ j).pin_count_ = (if j ∈ unpinned then 0 else 1) ∧
      ptFind s.page_table_ (j : Int) = some j
  keys : ∀ p, ptFind s.page_table_ p ≠ none → 0 ≤ p ∧ p < (i : Int)
  hist : ∀ j, j < i → ∃ nd, s.replacer_.node_store_ j = some nd ∧
    nd.history_ = ts.getD j 0 :: List.replicate (s.replacer_.k_ - 1) 0

/-- The number of frames that some page-table entry maps to and that have pin
count zero. -/
def BufferPoolManager.unpinnedFramesInPageTable (s : BufferPoolManager) : Nat :=
  ((List.range s.pool_size_).filter (fun f =>
    decide ((∃ e ∈ s.page_table_, e.2 = f) ∧ (s.pages_ f).pin_count_ = 0))).length

/-- Relation `BPMReachIssued s`: as `BPMReach s`, with every `FetchPage` called on a
page id that `NewPage` has issued before (`0 ≤ page_id < next_page_id_`). -/
inductive BPMReachIssued : BufferPoolManager → Prop where
  | init (pool_size : Nat) (disk : Disk) (replacer_k page_size : Nat) (hk : 0 < replacer_k) :
      BPMReachIssued (BufferPoolManager.new pool_size disk replacer_k page_size)
  | newPage {s : BufferPoolManager} (now : Nat) (s1 : BufferPoolManager)
      (res : Option (Int × Nat)) (h : BPMReachIssued s) (hnow : now ≠ 0)
      (hrun : s.NewPage now = .ok (s1, res)) : BPMReachIssued s1
  | fetchPage {s : BufferPoolManager} (page_id : Int) (now : Nat) (s1 : BufferPoolManager)
      (res : Option Nat) (h : BPMReachIssued s) (hnow : now ≠ 0)
      (hid : 0 ≤ page_id ∧ page_id < s.next_page_id_)
      (hrun : s.FetchPage page_id now = .ok (s1, res)) : BPMReachIssued s1
  | unpinPage {s : BufferPoolManager} (page_id : Int) (is_dirty : Bool)
      (s1 : BufferPoolManager) (res : Bool) (h : BPMReachIssued s)
      (hrun : s.UnpinPage page_id is_dirty = .ok (s1, res)) : BPMReachIssued s1
  | flushPage {s : BufferPoolManager} (page_id : Int) (s1 : BufferPoolManager) (res : Bool)
      (h : BPMReachIssued s) (hrun : s.FlushPage page_id = .ok (s1, res)) : BPMReachIssued s1
  | flushAllPages {s : BufferPoolManager} (s1 : BufferPoolManager) (h : BPMReachIssued s)
      (hrun : s.FlushAllPages = .ok s1) : BPMReachIssued s1
  | deletePage {s : BufferPoolManager} (page_id : Int) (s1 : BufferPoolManager) (res : Bool)
      (h : BPMReachIssued s) (hrun : s.DeletePage page_id = .ok (s1, res)) :
      BPMReachIssued s1

/-- Every key of the page table is an issued page id, and every resident frame
is the frame of the page-table entry of the page it holds. -/
structure BufferPoolManager.Issued (s : BufferPoolManager) : Prop where
  next_nonneg : 0 ≤ s.next_page_id_
  keys : ∀ p f, (p, f) ∈ s.page_table_ → 0 ≤ p ∧ p < s.next_page_id_
  entry : ∀ f, f < s.pool_size_ → f ∉ s.free_list_ →
    ((s.pages_ f).page_id_, f) ∈ s.page_table_

/-- A pool of two frames (`k = 2`) after `FetchPage(0)` at time 1,
`UnpinPage(0, false)` and `NewPage` at time 2: the id 0 had not been issued
when it was fetched, so `NewPage` issues it, for frame 1, and the page-table
entry of frame 0 is overwritten. -/
def scenarioReissuedId : BufferPoolManager :=
  let a := BufferPoolManager.new 2 exampleDisk 2 2
  let b := stateOf (a.FetchPage 0 1) a
  let c := stateOf (b.UnpinPage 0 false) b
  stateOf (c.NewPage 2) c

/-- The number of tracked nodes (every tracked frame id is below
`total_num_frames` in a well-formed replacer). -/
def LRUKReplacer.trackedCount (r : LRUKReplacer) : Nat :=
  ((List.range r.total_num_frames).filter (fun f => r.tracked f)).length

/-- The nodes that C27 speaks of: the history has length `K` and holds at least
one non-zero timestamp. -/
def LRUKNode.Recorded (K : Nat) (a : LRUKNode) : Prop :=
  a.history_.length = K ∧ ∃ t ∈ a.history_, t ≠ 0

/-- The key that orders a history read from the oldest end, for frame `fid`:
the number of positions from the first non-zero timestamp on, then that
timestamp, then the frame id (compared lexicographically). -/
def walkKey (oldestFirst : List Nat) (fid : Nat) : Nat ×ₗ Nat ×ₗ Nat :=
  toLex ((oldestFirst.dropWhile (fun t => t == 0)).length,
    toLex ((oldestFirst.dropWhile (fun t => t == 0)).headD 0, fid))

/-- Three nodes with `K = 2`; the timestamps of `nodeA` and `nodeB` coincide. -/
def nodeA : LRUKNode :=
  { history_ := [3, 0], k_ := 2, fid_ := 0, is_evictable_ := true, index_in_heap_arr_ := 0 }

/-- See `nodeA`. -/
def nodeB : LRUKNode :=
  { history_ := [3, 0], k_ := 2, fid_ := 1, is_evictable_ := true, index_in_heap_arr_ := 1 }

/-- See `nodeA`. -/
def nodeC : LRUKNode :=
  { history_ := [4, 3], k_ := 2, fid_ := 2, is_evictable_ := true, index_in_heap_arr_ := 2 }

/-- Follows the words of C25: the walk over two histories read from the oldest
position to the newest; a position is skipped when both timestamps are zero and
also when they are equal; at the first position where the timestamps differ the
node with the smaller timestamp wins; when the walk ends with no decision the
node with the smaller frame id wins.  The result tells whether the first node
wins. -/
def specWalk (fid1 fid2 : Nat) (oldestFirst1 oldestFirst2 : List Nat) : Bool :=
  match (oldestFirst1.zip oldestFirst2).find? (fun p => decide (p.1 ≠ p.2)) with
  | some p => decide (p.1 < p.2)
  | none => decide (fid1 < fid2)

/-- The walk of `specWalk` on two nodes. -/
def specWalkWins (a b : LRUKNode) : Bool :=
  specWalk a.fid_ b.fid_ a.history_.reverse b.history_.reverse

/-- The walk with the one change that the comparator makes: a position is
skipped only when both timestamps are zero; at the first other position the
node with the smaller timestamp wins, and if the two timestamps are equal the
node with the smaller frame id wins there (the walk does not go on). -/
def recordedWalk (fid1 fid2 : Nat) (oldestFirst1 oldestFirst2 : List Nat) : Bool :=
  match (oldestFirst1.zip oldestFirst2).find? (fun p => decide (¬ (p.1 = 0 ∧ p.2 = 0))) with
  | some p => if p.1 = p.2 then decide (fid1 < fid2) else decide (p.1 < p.2)
  | none => decide (fid1 < fid2)

/-- The walk of `recordedWalk` on two nodes. -/
def recordedWalkWins (a b : LRUKNode) : Bool :=
  recordedWalk a.fid_ b.fid_ a.history_.reverse b.history_.reverse

/-- The node of frame `f` (a node without history if `f` is not tracked). -/
def LRUKReplacer.nodeOf (r : LRUKReplacer) (f : Nat) : LRUKNode :=
  (r.node_store_ f).getD (LRUKNode.new 0 f)

/-- A replacer for two frames with `k = 2` after `RecordAccess(0)` and
`RecordAccess(1)` in the same millisecond 3, `RecordAccess(1)` at time 4 and
`RecordAccess(0)` at time 5. -/
def replacerSameMillisecond : LRUKReplacer :=
  let a := LRUKReplacer.new 2 2
  let b := replacerOf (a.RecordAccess 0 3) a
  let c := replacerOf (b.RecordAccess 1 3) b
  let d := replacerOf (c.RecordAccess 1 4) c
  replacerOf (d.RecordAccess 0 5) d

/-- The access log of `replacerSameMillisecond`. -/
def logSameMillisecond : Nat → List Nat :=
  upd (upd (upd (upd (fun _ => []) 0 [3]) 1 [3]) 1 [4, 3]) 0 [5, 3]

/-- What a run of the worker thread has done when it exits or blocks: the
device afterwards, the requests it completed, in order of completion (page id,
the request's buffer after the operation, the value set on the request's
promise), and whether the loop was left (`false`: `Get` is waiting on the empty
queue). -/
structure WorkerRun where
  disk : Disk
  completed : List (Int × List Nat × Bool)
  exited : Bool

/-- The `while (true)` loop of `DiskScheduler::StartWorkerThread` over the items
that `request_queue_.Get()` hands out, in queue order (`none` is
`std::nullopt`); `done` collects the completed requests. -/
def workerLoop : List (Option DiskRequest) → Disk → List (Int × List Nat × Bool) → WorkerRun
  | [], d, done => { disk := d, completed := done, exited := false }
  | none :: _, d, done => { disk := d, completed := done, exited := true }
  | some request :: rest, d, done =>
    workerLoop rest (DiskScheduler.process d request).1
      (done ++ [(request.page_id_, (DiskScheduler.process d request).2.1,
        (DiskScheduler.process d request).2.2)])

/-- Embeds `DiskScheduler::StartWorkerThread` on the items put in the request
queue. -/
def DiskScheduler.StartWorkerThread (queue : List (Option DiskRequest)) (d : Disk) : WorkerRun :=
  workerLoop queue d []

/-- The device operation that a request asks for. -/
def DiskRequest.event (r : DiskRequest) : DiskEvent :=
  if r.is_write_ = true then DiskEvent.write r.page_id_ r.data_ else DiskEvent.read r.page_id_

/-- The device after the requests have been served one after the other. -/
def servedDisk (reqs : List DiskRequest) (d : Disk) : Disk :=
  reqs.foldl (fun d1 r => (DiskScheduler.process d1 r).1) d

/-- The completions of the requests served one after the other from device
state `d`. -/
def servedCompletions : List DiskRequest → Disk → List (Int × List Nat × Bool)
  | [], _ => []
  | r :: rest, d =>
    (r.page_id_, (DiskScheduler.process d r).2.1, (DiskScheduler.process d r).2.2) ::
      servedCompletions rest (DiskScheduler.process d r).1

/-- A queue of three requests, the shutdown sentinel, and one more request. -/
def exampleQueue : List (Option DiskRequest) :=
  [some { is_write_ := true, data_ := [1, 2], page_id_ := 4 },
   some { is_write_ := false, data_ := [0, 0], page_id_ := 4 },
   some { is_write_ := false, data_ := [0, 0], page_id_ := 9 },
   none,
   some { is_write_ := true, data_ := [5, 5], page_id_ := 9 }]

/-! # Theorems -/

/-! ## Basic facts -/

@[simp] theorem upd_same {α : Type} (m : Nat → α) (i : Nat) (v : α) : upd m i v i = v := by
  simp [upd]

theorem upd_other {α : Type} (m : Nat → α) (i j : Nat) (v : α) (h : j ≠ i) :
    upd m i v j = m j := by
  simp [upd, h]

theorem parentOf_lt {i : Nat} (h : 0 < i) : parentOf i < i := by
  unfold parentOf
  split <;> omega

theorem parentOf_eq_iff {i p : Nat} (h : 0 < i) :
    parentOf i = p ↔ (i = p * 2 + 1 ∨ i = p * 2 + 2) := by
  unfold parentOf
  split <;> omega

/-! ## The comparator decides the rank order -/

theorem filter_valid (ts : List Nat) (z : Nat) (h : ∀ x ∈ ts, x ≠ 0) :
    (ts ++ List.replicate z 0).filter (fun t => decide (t ≠ 0)) = ts := by
  rw [List.filter_append]
  have h1 : ts.filter (fun t => decide (t ≠ 0)) = ts := by
    apply List.filter_eq_self.mpr
    intro a ha
    simpa using h a ha
  have h2 : (List.replicate z 0).filter (fun t => decide (t ≠ 0)) = [] := by
    apply List.filter_eq_nil_iff.mpr
    intro a ha
    have := List.eq_of_mem_replicate ha
    simp [this]
  rw [h1, h2, List.append_nil]

theorem comparatorLoop_valid (f1 f2 : Nat) :
    ∀ (za zb : Nat) (x y : Nat) (xs ys : List Nat), x ≠ 0 → y ≠ 0 →
      za + xs.length = zb + ys.length →
      comparatorLoop f1 f2 (List.replicate za 0 ++ x :: xs) (List.replicate zb 0 ++ y :: ys)
        = .ok (decide (zb < za ∨ (za = zb ∧ (x < y ∨ (x = y ∧ f1 < f2))))) := by
  intro za
  induction za with
  | zero =>
    intro zb x y xs ys hx hy hlen
    cases zb with
    | zero =>
      simp only [List.replicate_zero, List.nil_append, comparatorLoop]
      by_cases hxy : x = y
      · subst hxy; simp [hx]
      · simp [hx, hxy]
    | succ zb =>
      simp only [List.replicate_zero, List.nil_append, List.replicate_succ, List.cons_append,
        comparatorLoop]
      simp [hx]
  | succ za ih =>
    intro zb x y xs ys hx hy hlen
    cases zb with
    | zero =>
      simp only [List.replicate_zero, List.nil_append, List.replicate_succ, List.cons_append,
        comparatorLoop]
      have : ¬ (0 = y) := fun h => hy h.symm
      simp [hy, this, Nat.pos_of_ne_zero hy]
    | succ zb =>
      simp only [List.replicate_succ, List.cons_append, comparatorLoop]
      simp only [and_self, if_true]
      have h := ih zb x y xs ys hx hy (by omega)
      simp only [List.append_eq] at h ⊢
      rw [h]
      congr 1
      simp

theorem valid_reverse {k : Nat} {h : List Nat} (hv : ValidHist k h) :
    ∃ z x xs, h.reverse = List.replicate z 0 ++ x :: xs ∧ x ≠ 0 ∧ z + (xs.length + 1) = k ∧
      (h.filter (fun t => decide (t ≠ 0))).length = xs.length + 1 ∧
      ((h.filter (fun t => decide (t ≠ 0))).getLast?).getD 0 = x := by
  obtain ⟨ts, z, hh, hne, hnz, hlen⟩ := hv
  have hrev : ∃ x xs, ts.reverse = x :: xs := by
    cases hr : ts.reverse with
    | nil => exact absurd (List.reverse_eq_nil_iff.mp hr) hne
    | cons x xs => exact ⟨x, xs, rfl⟩
  obtain ⟨x, xs, hr⟩ := hrev
  have hts : ts = xs.reverse ++ [x] := by
    have := congrArg List.reverse hr
    simpa using this
  refine ⟨z, x, xs, ?_, ?_, ?_, ?_, ?_⟩
  · rw [hh, List.reverse_append, List.reverse_replicate, hr]
  · apply hnz
    rw [hts]
    simp
  · rw [hts] at hlen
    simp at hlen
    omega
  · rw [hh, filter_valid ts z hnz, hts]
    simp
  · rw [hh, filter_valid ts z hnz, hts]
    simp

theorem comparatorNodes_valid {k : Nat} (a b : LRUKNode) (ha : ValidHist k a.history_)
    (hb : ValidHist k b.history_) :
    comparatorNodes a b = .ok (decide (a.rank < b.rank)) := by
  obtain ⟨za, x, xs, hra, hx, hla, hca, hoa⟩ := valid_reverse ha
  obtain ⟨zb, y, ys, hrb, hy, hlb, hcb, hob⟩ := valid_reverse hb
  unfold comparatorNodes
  rw [hra, hrb, comparatorLoop_valid a.fid_ b.fid_ za zb x y xs ys hx hy (by omega)]
  congr 1
  apply decide_eq_decide.mpr
  unfold LRUKNode.rank
  rw [Prod.Lex.lt_iff, hca, hcb, hoa, hob]
  simp only [Prod.Lex.lt_iff]
  constructor
  · rintro (h | ⟨h1, h2⟩)
    · left; omega
    · right
      refine ⟨by omega, ?_⟩
      rcases h2 with h2 | ⟨h2, h3⟩
      · left; exact h2
      · right; exact ⟨h2, h3⟩
  · rintro (h | ⟨h1, h2⟩)
    · left; omega
    · right
      refine ⟨by omega, ?_⟩
      rcases h2 with h2 | ⟨h2, h3⟩
      · left; exact h2
      · right; exact ⟨h2, h3⟩


/-! ## Heap order under swaps (independent of the replacer) -/

theorem upInv_swap {α : Type} [LinearOrder α] (s s1 : Nat → α) (n p c : Nat)
    (hc : 0 < c) (hcn : c < n) (hp : parentOf c = p)
    (h1p : s1 p = s c) (h1c : s1 c = s p) (h1o : ∀ i, i ≠ p → i ≠ c → s1 i = s i)
    (hle : s c ≤ s p) (hinv : UpInv s n c) : UpInv s1 n p := by
  obtain ⟨hA, hB⟩ := hinv
  have hpc : p < c := hp ▸ parentOf_lt hc
  constructor
  · intro j hj hjn hjp
    by_cases hjc : j = c
    · subst hjc
      rw [hp, h1p, h1c]
      exact hle
    · rw [h1o j hjp hjc]
      by_cases hq : parentOf j = p
      · rw [hq, h1p]
        have := hA j hj hjn hjc
        rw [hq] at this
        exact le_trans hle this
      · by_cases hq2 : parentOf j = c
        · rw [hq2, h1c]
          have := hB hc j hj hjn hq2
          rw [hp] at this
          exact this
        · rw [h1o _ hq hq2]
          exact hA j hj hjn hjc
  · intro hp0 j hj hjn hjq
    have hpp : parentOf p < p := parentOf_lt hp0
    have e1 : s1 (parentOf p) = s (parentOf p) := h1o _ (by omega) (by omega)
    rw [e1]
    have hpn : p < n := by omega
    have hgp : s (parentOf p) ≤ s p := hA p hp0 hpn (by omega)
    by_cases hjc : j = c
    · subst hjc
      rw [h1c]
      exact hgp
    · have hjp : j ≠ p := by
        intro h
        subst h
        have := parentOf_lt hj
        omega
      rw [h1o j hjp hjc]
      have := hA j hj hjn hjc
      rw [hjq] at this
      exact le_trans hgp this

theorem downInv_swap {α : Type} [LinearOrder α] (s s1 : Nat → α) (n p c : Nat)
    (hc : 0 < c) (hcn : c < n) (hp : parentOf c = p)
    (h1p : s1 p = s c) (h1c : s1 c = s p) (h1o : ∀ i, i ≠ p → i ≠ c → s1 i = s i)
    (hle : s c ≤ s p) (hsib : ∀ j, 0 < j → j < n → parentOf j = p → s c ≤ s j)
    (hinv : DownInv s n p) : DownInv s1 n c := by
  obtain ⟨hA, hB⟩ := hinv
  have hpc : p < c := hp ▸ parentOf_lt hc
  constructor
  · intro j hj hjn hjq
    by_cases hjc : j = c
    · subst hjc
      rw [hp, h1p, h1c]
      exact hle
    · by_cases hjp : j = p
      · subst hjp
        have hpp : parentOf j < j := parentOf_lt hj
        rw [h1o _ (by omega) (by omega), h1p]
        exact hB hj c hc hcn hp
      · rw [h1o j hjp hjc]
        by_cases hq : parentOf j = p
        · rw [hq, h1p]
          exact hsib j hj hjn hq
        · rw [h1o _ hq hjq]
          exact hA j hj hjn hq
  · intro _ j hj hjn hjq
    rw [hp, h1p]
    have hjc : c < j := hjq ▸ parentOf_lt hj
    rw [h1o j (by omega) (by omega)]
    have := hA j hj hjn (by omega)
    rw [hjq] at this
    exact this

theorem heapOrd_of_upInv {α : Type} [LinearOrder α] (s : Nat → α) (n c : Nat)
    (hinv : UpInv s n c) (h : c = 0 ∨ s (parentOf c) ≤ s c) : HeapOrd s n := by
  intro j hj hjn
  by_cases hjc : j = c
  · subst hjc
    rcases h with h | h
    · omega
    · exact h
  · exact hinv.1 j hj hjn hjc

theorem heapOrd_of_downInv {α : Type} [LinearOrder α] (s : Nat → α) (n p : Nat)
    (hinv : DownInv s n p) (h : ∀ j, 0 < j → j < n → parentOf j = p → s p ≤ s j) :
    HeapOrd s n := by
  intro j hj hjn
  by_cases hq : parentOf j = p
  · rw [hq]
    exact h j hj hjn hq
  · exact hinv.1 j hj hjn hq

theorem downInv_of_heapOrd {α : Type} [LinearOrder α] (s : Nat → α) (n p : Nat)
    (h : HeapOrd s n) (hp : p < n) : DownInv s n p := by
  constructor
  · intro j hj hjn _
    exact h j hj hjn
  · intro hp0 j hj hjn hq
    have h1 := h p hp0 hp
    have h2 := h j hj hjn
    rw [hq] at h2
    exact le_trans h1 h2

theorem downInv_of_hole {α : Type} [LinearOrder α] (s : Nat → α) (n i : Nat)
    (h : Hole s n i) (hi : i = 0 ∨ s (parentOf i) ≤ s i) : DownInv s n i := by
  constructor
  · intro j hj hjn hq
    by_cases hji : j = i
    · subst hji
      rcases hi with hi | hi
      · omega
      · exact hi
    · exact h.1 j hj hjn hji hq
  · exact h.2

theorem upInv_of_hole_swap {α : Type} [LinearOrder α] (s s1 : Nat → α) (n p c : Nat)
    (hc : 0 < c) (hcn : c < n) (hp : parentOf c = p)
    (h1p : s1 p = s c) (h1c : s1 c = s p) (h1o : ∀ i, i ≠ p → i ≠ c → s1 i = s i)
    (hle : s c ≤ s p) (hinv : Hole s n c) : UpInv s1 n p := by
  obtain ⟨hA, hB⟩ := hinv
  have hpc : p < c := hp ▸ parentOf_lt hc
  have hpn : p < n := by omega
  constructor
  · intro j hj hjn hjp
    by_cases hjc : j = c
    · subst hjc
      rw [hp, h1p, h1c]
      exact hle
    · rw [h1o j hjp hjc]
      by_cases hq : parentOf j = p
      · rw [hq, h1p]
        have := hA j hj hjn hjc (by omega)
        rw [hq] at this
        exact le_trans hle this
      · by_cases hq2 : parentOf j = c
        · rw [hq2, h1c]
          have := hB hc j hj hjn hq2
          rw [hp] at this
          exact this
        · rw [h1o _ hq hq2]
          exact hA j hj hjn hjc hq2
  · intro hp0 j hj hjn hjq
    have hpp : parentOf p < p := parentOf_lt hp0
    have e1 : s1 (parentOf p) = s (parentOf p) := h1o _ (by omega) (by omega)
    rw [e1]
    have hgp : s (parentOf p) ≤ s p := hA p hp0 hpn (by omega) (by omega)
    by_cases hjc : j = c
    · subst hjc
      rw [h1c]
      exact hgp
    · have hjp : j ≠ p := by
        intro h
        subst h
        have := parentOf_lt hj
        omega
      rw [h1o j hjp hjc]
      have := hA j hj hjn hjc (by omega)
      rw [hjq] at this
      exact le_trans hgp this

/-! ## The swap step of the heap loops -/

theorem HStep.same (n : Nat) (r : LRUKReplacer) : HStep n r r :=
  ⟨rfl, rfl, rfl, rfl, rfl, fun _ => rfl, fun _ => Iff.rfl, fun _ _ => rfl⟩

theorem HStep.andThen {n : Nat} {r r1 r2 : LRUKReplacer} (h1 : HStep n r r1) (h2 : HStep n r1 r2) :
    HStep n r r2 :=
  ⟨h2.k_eq.trans h1.k_eq, h2.total_eq.trans h1.total_eq, h2.rsize_eq.trans h1.rsize_eq,
    h2.hsize_eq.trans h1.hsize_eq, h2.cap_eq.trans h1.cap_eq,
    fun f => (h2.core_eq f).trans (h1.core_eq f),
    fun f => (h2.inheap f).trans (h1.inheap f),
    fun i hi => (h2.above i hi).trans (h1.above i hi)⟩

theorem rank_eq_of_core {a b : LRUKNode} (h : a.core = b.core) : a.rank = b.rank := by
  unfold LRUKNode.core at h
  unfold LRUKNode.rank
  simp only [Prod.mk.injEq] at h
  rw [h.1, h.2.2.1]

theorem HStep.nodesOK {n : Nat} {r r1 : LRUKReplacer} (h : HStep n r r1) (hn : r.NodesOK) :
    r1.NodesOK := by
  intro f nd hf
  have hc := h.core_eq f
  rw [hf] at hc
  cases hr : r.node_store_ f with
  | none => rw [hr] at hc; simp at hc
  | some nd0 =>
    rw [hr] at hc
    simp only [Option.map_some', Option.some.injEq, LRUKNode.core, Prod.mk.injEq] at hc
    obtain ⟨h1, h2, h3, h4⟩ := hn f nd0 hr
    rw [h.total_eq, h.k_eq, hc.1, hc.2.1, hc.2.2.1]
    exact ⟨h1, h2, h3, h4⟩

theorem HStep.flags {n : Nat} {r r1 : LRUKReplacer} (h : HStep n r r1) (hf : r.Flags n) :
    r1.Flags n := by
  intro f nd hnd
  have hc := h.core_eq f
  rw [hnd] at hc
  cases hr : r.node_store_ f with
  | none => rw [hr] at hc; simp at hc
  | some nd0 =>
    rw [hr] at hc
    simp only [Option.map_some', Option.some.injEq, LRUKNode.core, Prod.mk.injEq] at hc
    rw [hc.2.2.2, h.inheap f]
    exact hf f nd0 hr

theorem HStep.above_of {n : Nat} {r r1 : LRUKReplacer} (h : HStep n r r1) (ha : r.Above n) :
    r1.Above n := by
  intro i hi
  rw [h.above i hi]
  exact ha i hi

theorem Slots.inj {r : LRUKReplacer} {n i j f : Nat} (hs : r.Slots n) (hi : i < n) (hj : j < n)
    (h1 : r.min_heap_obj_.arr_ele_ i = some f) (h2 : r.min_heap_obj_.arr_ele_ j = some f) :
    i = j := by
  obtain ⟨f1, n1, a1, b1, c1⟩ := hs i hi
  obtain ⟨f2, n2, a2, b2, c2⟩ := hs j hj
  rw [h1] at a1
  rw [h2] at a2
  cases a1
  cases a2
  rw [b1] at b2
  cases b2
  omega

theorem swapAndReindex_spec (r : LRUKReplacer) (n p c : Nat)
    (hn : n ≤ r.min_heap_obj_.heap_capacity_) (hs : r.Slots n)
    (hp : p < n) (hc : c < n) (hpc : p ≠ c) :
    ∃ r1, r.swapAndReindex p c = .ok r1 ∧ HStep n r r1 ∧ r1.Slots n ∧
      r1.slotRank p = r.slotRank c ∧ r1.slotRank c = r.slotRank p ∧
      ∀ i, i ≠ p → i ≠ c → r1.slotRank i = r.slotRank i := by
  obtain ⟨fp, np, hap, hsp, hip⟩ := hs p hp
  obtain ⟨fc, nc, hac, hsc, hic⟩ := hs c hc
  have hne : fp ≠ fc := by
    intro h
    subst h
    exact hpc (Slots.inj hs hp hc hap hac)
  have hpcap : p < r.min_heap_obj_.heap_capacity_ := by omega
  have hccap : c < r.min_heap_obj_.heap_capacity_ := by omega
  refine ⟨{ r with
      min_heap_obj_ := { r.min_heap_obj_ with
        arr_ele_ := upd (upd r.min_heap_obj_.arr_ele_ p (some fc)) c (some fp) },
      node_store_ := upd (upd r.node_store_ fc (some { nc with index_in_heap_arr_ := p }))
        fp (some { np with index_in_heap_arr_ := c }) }, ?_, ?_, ?_, ?_, ?_, ?_⟩
  · simp [LRUKReplacer.swapAndReindex, LRUKReplacer.swapSlots, LRUKReplacer.slot,
      LRUKReplacer.setIndexAt, LRUKReplacer.setIndexOf, hpcap, hccap, hap, hac, hsp, hsc,
      upd, hpc, hne, Ne.symm hne, Ne.symm hpc]
  · refine ⟨rfl, rfl, rfl, rfl, rfl, ?_, ?_, ?_⟩
    · intro f
      simp only [upd]
      by_cases h1 : f = fp
      · subst h1; simp [hsp, LRUKNode.core]
      · by_cases h2 : f = fc
        · subst h2; simp [h1, hsc, LRUKNode.core]
        · simp [h1, h2]
    · intro f
      simp only [LRUKReplacer.InHeap, upd]
      constructor
      · rintro ⟨i, hi, h⟩
        by_cases h1 : i = c
        · subst h1
          simp at h
          exact ⟨p, hp, h ▸ hap⟩
        · by_cases h2 : i = p
          · subst h2
            simp [h1] at h
            exact ⟨c, hc, h ▸ hac⟩
          · simp [h1, h2] at h
            exact ⟨i, hi, h⟩
      · rintro ⟨i, hi, h⟩
        by_cases h1 : i = c
        · subst h1
          refine ⟨p, hp, ?_⟩
          simp [hpc]
          rw [hac] at h
          exact Option.some.inj h
        · by_cases h2 : i = p
          · subst h2
            refine ⟨c, hc, ?_⟩
            simp
            rw [hap] at h
            exact Option.some.inj h
          · exact ⟨i, hi, by simp [h1, h2, h]⟩
    · intro i hi
      simp [upd, show i ≠ c by omega, show i ≠ p by omega]
  · intro i hi
    by_cases h1 : i = c
    · subst h1
      exact ⟨fp, { np with index_in_heap_arr_ := i }, by simp [upd], by simp [upd], rfl⟩
    · by_cases h2 : i = p
      · subst h2
        exact ⟨fc, { nc with index_in_heap_arr_ := i }, by simp [upd, h1],
          by simp [upd, Ne.symm hne], rfl⟩
      · obtain ⟨f, nd, ha, hb, hcc⟩ := hs i hi
        have hfp : f ≠ fp := by
          intro h; subst h
          exact h2 (Slots.inj hs hi hp ha hap)
        have hfc : f ≠ fc := by
          intro h; subst h
          exact h1 (Slots.inj hs hi hc ha hac)
        exact ⟨f, nd, by simp [upd, h1, h2, ha], by simp [upd, hfp, hfc, hb], hcc⟩
  · simp [LRUKReplacer.slotRank, upd, hpc, hac, hsc, Ne.symm hne, LRUKNode.rank]
  · simp [LRUKReplacer.slotRank, upd, hap, hsp, LRUKNode.rank]
  · intro i hip hic2
    simp only [LRUKReplacer.slotRank, upd, hip, hic2, if_false]
    cases ha : r.min_heap_obj_.arr_ele_ i with
    | none => rfl
    | some f =>
      simp only
      by_cases h1 : f = fp
      · subst h1
        simp [hsp, LRUKNode.rank]
      · by_cases h2 : f = fc
        · subst h2
          simp [h1, hsc, LRUKNode.rank]
        · simp [h1, h2]

/-! ## heapifyUp and heapifyDown restore the heap order -/

theorem comparatorAt_spec (r : LRUKReplacer) (n i j : Nat)
    (hn : n ≤ r.min_heap_obj_.heap_capacity_) (hs : r.Slots n) (hnd : r.NodesOK)
    (hi : i < n) (hj : j < n) :
    r.comparatorAt i j = .ok (decide (r.slotRank i < r.slotRank j)) := by
  obtain ⟨fi, ni, hai, hsi, _⟩ := hs i hi
  obtain ⟨fj, nj, haj, hsj, _⟩ := hs j hj
  have hvi := (hnd fi ni hsi).2.2.2
  have hvj := (hnd fj nj hsj).2.2.2
  have hicap : i < r.min_heap_obj_.heap_capacity_ := by omega
  have hjcap : j < r.min_heap_obj_.heap_capacity_ := by omega
  simp only [LRUKReplacer.comparatorAt, LRUKReplacer.slot, hicap, hjcap, if_true, hai, haj,
    LRUKReplacer.comparator, LRUKReplacer.deref, hsi, hsj, LRUKReplacer.slotRank]
  exact comparatorNodes_valid ni nj hvi hvj

theorem heapifyUpLoop_spec (n : Nat) :
    ∀ (fuel c : Nat) (r : LRUKReplacer), c ≤ fuel → c < n →
      n ≤ r.min_heap_obj_.heap_capacity_ → r.Slots n → r.NodesOK → UpInv r.slotRank n c →
      ∃ r1, heapifyUpLoop fuel (parentOf c) c r = .ok r1 ∧ HStep n r r1 ∧ r1.Slots n ∧
        HeapOrd r1.slotRank n := by
  intro fuel
  induction fuel with
  | zero =>
    intro c r hcf hcn hn hs hnd hinv
    have hc0 : c = 0 := by omega
    subst hc0
    refine ⟨r, ?_, HStep.same n r, hs, heapOrd_of_upInv _ n 0 hinv (Or.inl rfl)⟩
    simp [heapifyUpLoop, parentOf]
  | succ fuel ih =>
    intro c r hcf hcn hn hs hnd hinv
    by_cases hc0 : c = 0
    · subst hc0
      refine ⟨r, ?_, HStep.same n r, hs, heapOrd_of_upInv _ n 0 hinv (Or.inl rfl)⟩
      simp [heapifyUpLoop, parentOf]
    · have hcpos : 0 < c := Nat.pos_of_ne_zero hc0
      have hpc : parentOf c < c := parentOf_lt hcpos
      have hpn : parentOf c < n := by omega
      have hcmp := comparatorAt_spec r n (parentOf c) c hn hs hnd hpn hcn
      have hne : parentOf c ≠ c := by omega
      by_cases hlt : r.slotRank (parentOf c) < r.slotRank c
      · refine ⟨r, ?_, HStep.same n r, hs, heapOrd_of_upInv _ n c hinv (Or.inr (le_of_lt hlt))⟩
        simp [heapifyUpLoop, hne, hcmp, hlt]
      · have hle : r.slotRank c ≤ r.slotRank (parentOf c) := not_lt.mp hlt
        obtain ⟨r1, hsw, hst, hs1, e1, e2, e3⟩ :=
          swapAndReindex_spec r n (parentOf c) c hn hs hpn hcn hne
        have hinv1 : UpInv r1.slotRank n (parentOf c) :=
          upInv_swap r.slotRank r1.slotRank n (parentOf c) c hcpos hcn rfl e1 e2 e3 hle hinv
        obtain ⟨r2, hrun, hst2, hs2, hord⟩ :=
          ih (parentOf c) r1 (by omega) hpn (by rw [hst.cap_eq]; exact hn) hs1
            (hst.nodesOK hnd) hinv1
        refine ⟨r2, ?_, hst.andThen hst2, hs2, hord⟩
        simp [heapifyUpLoop, hne, hcmp, hlt, hsw, hrun]

theorem heapifyDownLoop_spec (n : Nat) :
    ∀ (fuel p : Nat) (r : LRUKReplacer), n - p ≤ fuel → r.min_heap_obj_.heap_size_ = n →
      n ≤ r.min_heap_obj_.heap_capacity_ → r.Slots n → r.NodesOK → DownInv r.slotRank n p →
      ∃ r1, heapifyDownLoop fuel p (p * 2 + 1) (p * 2 + 2) r = .ok r1 ∧ HStep n r r1 ∧
        r1.Slots n ∧ HeapOrd r1.slotRank n := by
  intro fuel
  induction fuel with
  | zero =>
    intro p r hf hsz hn hs hnd hinv
    have hpn : ¬ p < n := by omega
    refine ⟨r, ?_, HStep.same n r, hs, heapOrd_of_downInv _ n p hinv ?_⟩
    · simp [heapifyDownLoop, hsz, hpn]
    · intro j hj hjn hq
      have := parentOf_lt hj
      omega
  | succ fuel ih =>
    intro p r hf hsz hn hs hnd hinv
    by_cases hpn : p < n
    · -- the two comparisons with the children
      have hL : ∀ (hl : p * 2 + 1 < n), r.comparatorAt p (p * 2 + 1)
          = .ok (decide (r.slotRank p < r.slotRank (p * 2 + 1))) :=
        fun hl => comparatorAt_spec r n p _ hn hs hnd hpn hl
      have hR : ∀ (hr : p * 2 + 2 < n), r.comparatorAt p (p * 2 + 2)
          = .ok (decide (r.slotRank p < r.slotRank (p * 2 + 2))) :=
        fun hr => comparatorAt_spec r n p _ hn hs hnd hpn hr
      have hparL : parentOf (p * 2 + 1) = p := (parentOf_eq_iff (by omega)).mpr (Or.inl rfl)
      have hparR : parentOf (p * 2 + 2) = p := (parentOf_eq_iff (by omega)).mpr (Or.inr rfl)
      -- descending into child `c`
      have descend : ∀ c, 0 < c → c < n → parentOf c = p → r.slotRank c ≤ r.slotRank p →
          (∀ j, 0 < j → j < n → parentOf j = p → r.slotRank c ≤ r.slotRank j) →
          ∃ r2, (match r.swapAndReindex p c with
                  | .error e => Except.error e
                  | .ok r1 => heapifyDownLoop fuel c (c * 2 + 1) (c * 2 + 2) r1) = .ok r2 ∧
            HStep n r r2 ∧ r2.Slots n ∧ HeapOrd r2.slotRank n := by
        intro c hc hcn hpar hle hsib
        have hpc : p < c := hpar ▸ parentOf_lt hc
        obtain ⟨r1, hsw, hst, hs1, e1, e2, e3⟩ :=
          swapAndReindex_spec r n p c hn hs hpn hcn (by omega)
        have hinv1 : DownInv r1.slotRank n c :=
          downInv_swap r.slotRank r1.slotRank n p c hc hcn hpar e1 e2 e3 hle hsib hinv
        obtain ⟨r2, hrun, hst2, hs2, hord⟩ :=
          ih c r1 (by omega) (by rw [hst.hsize_eq]; exact hsz) (by rw [hst.cap_eq]; exact hn)
            hs1 (hst.nodesOK hnd) hinv1
        exact ⟨r2, by rw [hsw]; exact hrun, hst.andThen hst2, hs2, hord⟩
      by_cases hl : p * 2 + 1 < n
      · by_cases hr : p * 2 + 2 < n
        · have hcLR := comparatorAt_spec r n (p * 2 + 1) (p * 2 + 2) hn hs hnd hl hr
          by_cases cl : r.slotRank p < r.slotRank (p * 2 + 1)
          · by_cases cr : r.slotRank p < r.slotRank (p * 2 + 2)
            · -- both children larger: stop
              refine ⟨r, ?_, HStep.same n r, hs, heapOrd_of_downInv _ n p hinv ?_⟩
              · simp [heapifyDownLoop, hsz, hpn, hl, hr, hL hl, hR hr, cl, cr]
              · intro j hj hjn hq
                rcases (parentOf_eq_iff hj).mp hq with h | h
                · subst h; exact le_of_lt cl
                · subst h; exact le_of_lt cr
            · -- only the right child is smaller
              have hle : r.slotRank (p * 2 + 2) ≤ r.slotRank p := not_lt.mp cr
              obtain ⟨r2, hrun, hst, hs2, hord⟩ := descend (p * 2 + 2) (by omega) hr hparR hle
                (by
                  intro j hj hjn hq
                  rcases (parentOf_eq_iff hj).mp hq with h | h
                  · subst h; exact le_trans hle (le_of_lt cl)
                  · subst h; exact le_refl _)
              refine ⟨r2, ?_, hst, hs2, hord⟩
              simp only [heapifyDownLoop, hsz, hpn, hl, hr, hL hl, hR hr, cl, cr, if_true,
                decide_True, decide_False]
              simpa using hrun
          · have hleL : r.slotRank (p * 2 + 1) ≤ r.slotRank p := not_lt.mp cl
            by_cases cr : r.slotRank p < r.slotRank (p * 2 + 2)
            · -- only the left child is smaller
              obtain ⟨r2, hrun, hst, hs2, hord⟩ := descend (p * 2 + 1) (by omega) hl hparL hleL
                (by
                  intro j hj hjn hq
                  rcases (parentOf_eq_iff hj).mp hq with h | h
                  · subst h; exact le_refl _
                  · subst h; exact le_trans hleL (le_of_lt cr))
              refine ⟨r2, ?_, hst, hs2, hord⟩
              simp only [heapifyDownLoop, hsz, hpn, hl, hr, hL hl, hR hr, cl, cr, if_true,
                decide_True, decide_False]
              simpa using hrun
            · have hleR : r.slotRank (p * 2 + 2) ≤ r.slotRank p := not_lt.mp cr
              by_cases clr : r.slotRank (p * 2 + 1) < r.slotRank (p * 2 + 2)
              · obtain ⟨r2, hrun, hst, hs2, hord⟩ :=
                  descend (p * 2 + 1) (by omega) hl hparL hleL
                  (by
                    intro j hj hjn hq
                    rcases (parentOf_eq_iff hj).mp hq with h | h
                    · subst h; exact le_refl _
                    · subst h; exact le_of_lt clr)
                refine ⟨r2, ?_, hst, hs2, hord⟩
                simp only [heapifyDownLoop, hsz, hpn, hl, hr, hL hl, hR hr, cl, cr, if_true,
                  decide_True, decide_False, hcLR, clr]
                simpa using hrun
              · obtain ⟨r2, hrun, hst, hs2, hord⟩ :=
                  descend (p * 2 + 2) (by omega) hr hparR hleR
                  (by
                    intro j hj hjn hq
                    rcases (parentOf_eq_iff hj).mp hq with h | h
                    · subst h; exact not_lt.mp clr
                    · subst h; exact le_refl _)
                refine ⟨r2, ?_, hst, hs2, hord⟩
                simp only [heapifyDownLoop, hsz, hpn, hl, hr, hL hl, hR hr, cl, cr, if_true,
                  decide_True, decide_False, hcLR, clr]
                simpa using hrun
        · -- only a left child exists
          by_cases cl : r.slotRank p < r.slotRank (p * 2 + 1)
          · refine ⟨r, ?_, HStep.same n r, hs, heapOrd_of_downInv _ n p hinv ?_⟩
            · simp [heapifyDownLoop, hsz, hpn, hl, hr, hL hl, cl]
            · intro j hj hjn hq
              rcases (parentOf_eq_iff hj).mp hq with h | h
              · subst h; exact le_of_lt cl
              · omega
          · have hleL : r.slotRank (p * 2 + 1) ≤ r.slotRank p := not_lt.mp cl
            obtain ⟨r2, hrun, hst, hs2, hord⟩ := descend (p * 2 + 1) (by omega) hl hparL hleL
              (by
                intro j hj hjn hq
                rcases (parentOf_eq_iff hj).mp hq with h | h
                · subst h; exact le_refl _
                · omega)
            refine ⟨r2, ?_, hst, hs2, hord⟩
            simp only [heapifyDownLoop, hsz, hpn, hl, hr, hL hl, cl, if_true, if_false,
              decide_True, decide_False]
            simpa using hrun
      · -- no child
        have hr : ¬ p * 2 + 2 < n := by omega
        refine ⟨r, ?_, HStep.same n r, hs, heapOrd_of_downInv _ n p hinv ?_⟩
        · simp [heapifyDownLoop, hsz, hpn, hl, hr]
        · intro j hj hjn hq
          rcases (parentOf_eq_iff hj).mp hq with h | h <;> omega
    · refine ⟨r, ?_, HStep.same n r, hs, heapOrd_of_downInv _ n p hinv ?_⟩
      · simp [heapifyDownLoop, hsz, hpn]
      · intro j hj hjn hq
        have := parentOf_lt hj
        omega

theorem heapifyDown_spec (r : LRUKReplacer) (n p : Nat) (hsz : r.min_heap_obj_.heap_size_ = n)
    (hn : n ≤ r.min_heap_obj_.heap_capacity_) (hs : r.Slots n) (hnd : r.NodesOK)
    (hinv : DownInv r.slotRank n p) :
    ∃ r1, r.heapifyDown p = .ok r1 ∧ HStep n r r1 ∧ r1.Slots n ∧ HeapOrd r1.slotRank n := by
  unfold LRUKReplacer.heapifyDown
  rw [hsz]
  exact heapifyDownLoop_spec n n p r (by omega) hsz hn hs hnd hinv

theorem heapifyUp_spec (r : LRUKReplacer) (n c : Nat) (hc : c < n)
    (hn : n ≤ r.min_heap_obj_.heap_capacity_) (hs : r.Slots n) (hnd : r.NodesOK)
    (hinv : UpInv r.slotRank n c) :
    ∃ r1, r.heapifyUp c = .ok r1 ∧ HStep n r r1 ∧ r1.Slots n ∧ HeapOrd r1.slotRank n := by
  unfold LRUKReplacer.heapifyUp
  exact heapifyUpLoop_spec n c c r (le_refl _) hc hn hs hnd hinv

theorem heapifyUpAndDown_spec (r : LRUKReplacer) (n i : Nat)
    (hsz : r.min_heap_obj_.heap_size_ = n) (hn : n ≤ r.min_heap_obj_.heap_capacity_)
    (hs : r.Slots n) (hnd : r.NodesOK) (hi : i < n) (hh : Hole r.slotRank n i) :
    ∃ r1, r.heapifyUpAndDown i = .ok r1 ∧ HStep n r r1 ∧ r1.Slots n ∧
      HeapOrd r1.slotRank n := by
  -- it is enough to show that `heapifyUp` returns a state from which `heapifyDown` works
  have key : ∃ r1, r.heapifyUp i = .ok r1 ∧ HStep n r r1 ∧ r1.Slots n ∧
      DownInv r1.slotRank n i := by
    unfold LRUKReplacer.heapifyUp
    cases i with
    | zero =>
      exact ⟨r, by simp [heapifyUpLoop, parentOf], HStep.same n r, hs,
        downInv_of_hole _ n 0 hh (Or.inl rfl)⟩
    | succ m =>
      have hcpos : 0 < m + 1 := by omega
      have hpc : parentOf (m + 1) < m + 1 := parentOf_lt hcpos
      have hpn : parentOf (m + 1) < n := by omega
      have hne : parentOf (m + 1) ≠ m + 1 := by omega
      have hcmp := comparatorAt_spec r n (parentOf (m + 1)) (m + 1) hn hs hnd hpn hi
      by_cases hlt : r.slotRank (parentOf (m + 1)) < r.slotRank (m + 1)
      · refine ⟨r, ?_, HStep.same n r, hs, downInv_of_hole _ n _ hh (Or.inr (le_of_lt hlt))⟩
        simp [heapifyUpLoop, hne, hcmp, hlt]
      · have hle : r.slotRank (m + 1) ≤ r.slotRank (parentOf (m + 1)) := not_lt.mp hlt
        obtain ⟨r1, hsw, hst, hs1, e1, e2, e3⟩ :=
          swapAndReindex_spec r n (parentOf (m + 1)) (m + 1) hn hs hpn hi hne
        have hinv1 : UpInv r1.slotRank n (parentOf (m + 1)) :=
          upInv_of_hole_swap r.slotRank r1.slotRank n (parentOf (m + 1)) (m + 1) hcpos hi rfl
            e1 e2 e3 hle hh
        obtain ⟨r2, hrun, hst2, hs2, hord⟩ :=
          heapifyUpLoop_spec n m (parentOf (m + 1)) r1 (by omega) hpn
            (by rw [hst.cap_eq]; exact hn) hs1 (hst.nodesOK hnd) hinv1
        refine ⟨r2, ?_, hst.andThen hst2, hs2, downInv_of_heapOrd _ n _ hord hi⟩
        simp [heapifyUpLoop, hne, hcmp, hlt, hsw, hrun]
  obtain ⟨r1, hup, hst, hs1, hinv⟩ := key
  obtain ⟨r2, hdown, hst2, hs2, hord⟩ :=
    heapifyDown_spec r1 n i (by rw [hst.hsize_eq]; exact hsz) (by rw [hst.cap_eq]; exact hn)
      hs1 (hst.nodesOK hnd) hinv
  refine ⟨r2, ?_, hst.andThen hst2, hs2, hord⟩
  simp [LRUKReplacer.heapifyUpAndDown, hup, hdown]

/-! ## removeEle -/

theorem removeEle_eq (r : LRUKReplacer) (n ind f g : Nat) (nf ng : LRUKNode)
    (hsz : r.min_heap_obj_.heap_size_ = n) (hn : n ≤ r.min_heap_obj_.heap_capacity_)
    (hs : r.Slots n) (hind : ind < n)
    (haf : r.min_heap_obj_.arr_ele_ ind = some f) (hsf : r.node_store_ f = some nf)
    (hag : r.min_heap_obj_.arr_ele_ (n - 1) = some g) (hsg : r.node_store_ g = some ng) :
    r.removeEle ind = (r.afterUnlink ind f g nf ng).heapifyUpAndDown ind := by
  have hn0 : n ≠ 0 := by omega
  have hm : n - 1 < r.min_heap_obj_.heap_capacity_ := by omega
  have hi : ind < r.min_heap_obj_.heap_capacity_ := by omega
  have hfg : f = g ↔ ind = n - 1 := by
    constructor
    · intro h
      subst h
      exact Slots.inj hs hind (by omega) haf hag
    · intro h
      subst h
      rw [haf] at hag
      exact Option.some.inj hag
  unfold LRUKReplacer.removeEle
  rw [hsz]
  simp only [hn0, if_false]
  by_cases hcase : ind = n - 1
  · have hfg2 : f = g := hfg.mpr hcase
    subst hfg2
    subst hcase
    rw [hsf] at hsg
    cases hsg
    simp only [LRUKReplacer.setHeapSize, LRUKReplacer.swapSlots, LRUKReplacer.slot, hm, if_true,
      LRUKReplacer.setIndexAt, LRUKReplacer.setIndexOf, upd_same, haf, hsf,
      LRUKReplacer.setSlot]
    congr 1
    unfold LRUKReplacer.afterUnlink
    rw [hsz]
    congr 1
    · funext j
      simp only [upd]
      split_ifs <;> rfl
    · congr 1
      funext j
      simp only [upd]
      split_ifs <;> rfl
  · have hfg2 : f ≠ g := fun h => hcase (hfg.mp h)
    have hgf : g ≠ f := Ne.symm hfg2
    simp only [LRUKReplacer.setHeapSize, LRUKReplacer.swapSlots, LRUKReplacer.slot, hm, hi,
      if_true, LRUKReplacer.setIndexAt, LRUKReplacer.setIndexOf, upd_same, haf, hag, hsf, hsg,
      LRUKReplacer.setSlot, upd, hcase, if_false, hfg2, hgf]
    congr 1
    unfold LRUKReplacer.afterUnlink
    rw [hsz]
    congr 1
    · funext j
      simp only [upd]
      split_ifs <;> rfl
    · congr 1
      funext j
      simp only [upd]
      split_ifs <;> rfl

theorem slotRank_congr (r r1 : LRUKReplacer) (i : Nat)
    (ha : r1.min_heap_obj_.arr_ele_ i = r.min_heap_obj_.arr_ele_ i)
    (hs : ∀ f, r.min_heap_obj_.arr_ele_ i = some f →
      (r1.node_store_ f).map LRUKNode.core = (r.node_store_ f).map LRUKNode.core) :
    r1.slotRank i = r.slotRank i := by
  unfold LRUKReplacer.slotRank
  rw [ha]
  cases h : r.min_heap_obj_.arr_ele_ i with
  | none => rfl
  | some f =>
    have := hs f h
    simp only
    cases h1 : r1.node_store_ f with
    | none =>
      cases h2 : r.node_store_ f with
      | none => rfl
      | some b => rw [h1, h2] at this; simp at this
    | some a =>
      cases h2 : r.node_store_ f with
      | none => rw [h1, h2] at this; simp at this
      | some b =>
        rw [h1, h2] at this
        simp only [Option.map_some', Option.some.injEq] at this
        exact rank_eq_of_core this

theorem afterUnlink_core (r : LRUKReplacer) (ind f g : Nat) (nf ng : LRUKNode)
    (hsf : r.node_store_ f = some nf) (hsg : r.node_store_ g = some ng) (h : Nat) :
    ((r.afterUnlink ind f g nf ng).node_store_ h).map LRUKNode.core
      = (r.node_store_ h).map LRUKNode.core := by
  simp only [LRUKReplacer.afterUnlink, upd]
  by_cases h1 : h = f
  · subst h1; simp [hsf, LRUKNode.core]
  · by_cases h2 : h = g
    · subst h2; simp [h1, hsg, LRUKNode.core]
    · simp [h1, h2]

theorem afterUnlink_facts (r : LRUKReplacer) (n ind f g : Nat) (nf ng : LRUKNode)
    (hsz : r.min_heap_obj_.heap_size_ = n)
    (hs : r.Slots n) (hab : r.Above n) (hind : ind < n)
    (haf : r.min_heap_obj_.arr_ele_ ind = some f) (hsf : r.node_store_ f = some nf)
    (hag : r.min_heap_obj_.arr_ele_ (n - 1) = some g) (hsg : r.node_store_ g = some ng) :
    (r.afterUnlink ind f g nf ng).Slots (n - 1) ∧
    (r.afterUnlink ind f g nf ng).Above (n - 1) ∧
    (∀ h, (r.afterUnlink ind f g nf ng).InHeap (n - 1) h ↔ (r.InHeap n h ∧ h ≠ f)) ∧
    (∀ j, j < n - 1 → j ≠ ind → (r.afterUnlink ind f g nf ng).slotRank j = r.slotRank j) ∧
    (ind < n - 1 → (r.afterUnlink ind f g nf ng).slotRank ind = r.slotRank (n - 1)) := by
  have hfg : f = g ↔ ind = n - 1 := by
    constructor
    · intro h
      subst h
      exact Slots.inj hs hind (by omega) haf hag
    · intro h
      subst h
      rw [haf] at hag
      exact Option.some.inj hag
  have harr : ∀ j, j < n - 1 → j ≠ ind →
      (r.afterUnlink ind f g nf ng).min_heap_obj_.arr_ele_ j = r.min_heap_obj_.arr_ele_ j := by
    intro j hj hji
    simp [LRUKReplacer.afterUnlink, upd, hsz, Nat.ne_of_lt hj, hji]
  have harr_ind : ind < n - 1 →
      (r.afterUnlink ind f g nf ng).min_heap_obj_.arr_ele_ ind = some g := by
    intro h
    simp [LRUKReplacer.afterUnlink, upd, hsz, Nat.ne_of_lt h]
  refine ⟨?_, ?_, ?_, ?_, ?_⟩
  · intro j hj
    by_cases hji : j = ind
    · subst hji
      have hne : f ≠ g := fun h => by have := hfg.mp h; omega
      refine ⟨g, { ng with index_in_heap_arr_ := j }, harr_ind hj, ?_, rfl⟩
      simp [LRUKReplacer.afterUnlink, upd, Ne.symm hne]
    · obtain ⟨h, nd, ha, hb, hc⟩ := hs j (by omega)
      have hhf : h ≠ f := by
        intro e; subst e
        exact hji (Slots.inj hs (by omega) hind ha haf)
      have hhg : h ≠ g := by
        intro e; subst e
        have := Slots.inj hs (show j < n by omega) (show n - 1 < n by omega) ha hag
        omega
      refine ⟨h, nd, by rw [harr j hj hji]; exact ha, ?_, hc⟩
      simp [LRUKReplacer.afterUnlink, upd, hhf, hhg, hb]
  · intro j hj
    simp only [LRUKReplacer.afterUnlink, upd, hsz]
    by_cases h1 : j = n - 1
    · simp [h1]
    · have h2 : j ≠ ind := by omega
      simp only [h1, h2, if_false]
      exact hab j (by omega)
  · intro h
    constructor
    · rintro ⟨j, hj, hjh⟩
      by_cases hji : j = ind
      · subst hji
        rw [harr_ind hj] at hjh
        cases hjh
        refine ⟨⟨n - 1, by omega, hag⟩, ?_⟩
        intro e
        have := hfg.mp e.symm
        omega
      · rw [harr j hj hji] at hjh
        refine ⟨⟨j, by omega, hjh⟩, ?_⟩
        intro e; subst e
        exact hji (Slots.inj hs (by omega) hind hjh haf)
    · rintro ⟨⟨j, hj, hjh⟩, hne⟩
      by_cases hji : j = ind
      · subst hji
        rw [haf] at hjh
        exact absurd (Option.some.inj hjh).symm hne
      · by_cases hjl : j = n - 1
        · subst hjl
          rw [hag] at hjh
          cases hjh
          have hne2 : ind ≠ n - 1 := fun e => hne (hfg.mpr e).symm
          exact ⟨ind, by omega, harr_ind (by omega)⟩
        · exact ⟨j, by omega, by rw [harr j (by omega) hji]; exact hjh⟩
  · intro j hj hji
    apply slotRank_congr
    · exact harr j hj hji
    · intro h _
      exact afterUnlink_core r ind f g nf ng hsf hsg h
  · intro hlt
    unfold LRUKReplacer.slotRank
    rw [harr_ind hlt, hag]
    have hne : f ≠ g := fun h => by have := hfg.mp h; omega
    simp [LRUKReplacer.afterUnlink, upd, Ne.symm hne, hsg, LRUKNode.rank]

theorem removeEle_spec (r : LRUKReplacer) (n ind f : Nat)
    (hsz : r.min_heap_obj_.heap_size_ = n) (hn : n ≤ r.min_heap_obj_.heap_capacity_)
    (hs : r.Slots n) (hnd : r.NodesOK) (hab : r.Above n) (hord : HeapOrd r.slotRank n)
    (hind : ind < n) (haf : r.min_heap_obj_.arr_ele_ ind = some f)
    (hcase : ind < n - 1 ∨ n = 1) :
    ∃ r1, r.removeEle ind = .ok r1 ∧ RemPost r r1 n f := by
  obtain ⟨f1, nf, haf1, hsf, _⟩ := hs ind hind
  rw [haf] at haf1
  cases haf1
  obtain ⟨g, ng, hag, hsg, _⟩ := hs (n - 1) (by omega)
  rw [removeEle_eq r n ind f g nf ng hsz hn hs hind haf hsf hag hsg]
  obtain ⟨hs5, hab5, hin5, hrk5, hrkind⟩ :=
    afterUnlink_facts r n ind f g nf ng hsz hs hab hind haf hsf hag hsg
  have hcore := afterUnlink_core r ind f g nf ng hsf hsg
  have hsz5 : (r.afterUnlink ind f g nf ng).min_heap_obj_.heap_size_ = n - 1 := by
    simp [LRUKReplacer.afterUnlink, hsz]
  have hnd5 : (r.afterUnlink ind f g nf ng).NodesOK := by
    intro h nd hh
    have hc := hcore h
    rw [hh] at hc
    cases hr : r.node_store_ h with
    | none => rw [hr] at hc; simp at hc
    | some nd0 =>
      rw [hr] at hc
      simp only [Option.map_some', Option.some.injEq, LRUKNode.core, Prod.mk.injEq] at hc
      obtain ⟨h1, h2, h3, h4⟩ := hnd h nd0 hr
      rw [hc.1, hc.2.1, hc.2.2.1]
      exact ⟨h1, h2, h3, h4⟩
  rcases hcase with hlt | h1
  · -- the last node moved into slot `ind`
    have hhole : Hole (r.afterUnlink ind f g nf ng).slotRank (n - 1) ind := by
      constructor
      · intro j hj hjn hji hpar
        have hp := parentOf_lt hj
        rw [hrk5 j hjn hji, hrk5 (parentOf j) (by omega) hpar]
        exact hord j hj (by omega)
      · intro hi0 j hj hjn hpar
        have hp := parentOf_lt hj
        have hpi := parentOf_lt hi0
        rw [hrk5 j hjn (by omega), hrk5 (parentOf ind) (by omega) (by omega)]
        have h1 := hord ind hi0 hind
        have h2 := hord j hj (by omega)
        rw [hpar] at h2
        exact le_trans h1 h2
    obtain ⟨r1, hrun, hst, hs1, hord1⟩ :=
      heapifyUpAndDown_spec (r.afterUnlink ind f g nf ng) (n - 1) ind hsz5
        (by simp only [LRUKReplacer.afterUnlink]; omega) hs5 hnd5 hlt hhole
    refine ⟨r1, hrun, ?_⟩
    exact
      { hsize := by rw [hst.hsize_eq]; exact hsz5
        k_eq := hst.k_eq
        total_eq := hst.total_eq
        rsize_eq := hst.rsize_eq
        cap_eq := hst.cap_eq
        core_eq := fun h => (hst.core_eq h).trans (hcore h)
        inheap := fun h => (hst.inheap h).trans (hin5 h)
        slots := hs1
        above := hst.above_of hab5
        ord := hord1 }
  · -- the heap had a single node
    subst h1
    have hind0 : ind = 0 := by omega
    subst hind0
    refine ⟨r.afterUnlink 0 f g nf ng, ?_, ?_⟩
    · simp [LRUKReplacer.heapifyUpAndDown, LRUKReplacer.heapifyUp, LRUKReplacer.heapifyDown,
        heapifyUpLoop, heapifyDownLoop, parentOf, hsz5]
    · exact
        { hsize := hsz5
          k_eq := rfl
          total_eq := rfl
          rsize_eq := rfl
          cap_eq := rfl
          core_eq := hcore
          inheap := hin5
          slots := hs5
          above := hab5
          ord := fun j hj hjn => by omega }

theorem removeEle_last_fault (r : LRUKReplacer) (n : Nat)
    (hsz : r.min_heap_obj_.heap_size_ = n) (hn : n ≤ r.min_heap_obj_.heap_capacity_)
    (hs : r.Slots n) (hn2 : 2 ≤ n) :
    r.removeEle (n - 1) = .error .nullDeref := by
  obtain ⟨f, nf, haf, hsf, _⟩ := hs (n - 1) (by omega)
  rw [removeEle_eq r n (n - 1) f f nf nf hsz hn hs (by omega) haf hsf haf hsf]
  obtain ⟨k, hk⟩ : ∃ k, n - 1 = k + 1 := ⟨n - 2, by omega⟩
  have hpar : parentOf (k + 1) < k + 1 := parentOf_lt (by omega)
  obtain ⟨p, np, hap, hsp, _⟩ := hs (parentOf (k + 1)) (by omega)
  have hpf : p ≠ f := by
    intro e; subst e
    have := Slots.inj hs (show parentOf (k + 1) < n by omega) (show n - 1 < n by omega) hap haf
    omega
  have hne : parentOf (k + 1) ≠ k + 1 := by omega
  have hc1 : parentOf (k + 1) < r.min_heap_obj_.heap_capacity_ := by omega
  have hc2 : k + 1 < r.min_heap_obj_.heap_capacity_ := by omega
  simp [LRUKReplacer.heapifyUpAndDown, LRUKReplacer.heapifyUp, hk, heapifyUpLoop, hne,
    LRUKReplacer.comparatorAt, LRUKReplacer.slot, LRUKReplacer.afterUnlink, hsz, hc1, hc2, upd,
    hap, LRUKReplacer.comparator, LRUKReplacer.deref, hpf, hsp]

/-! ## push -/

theorem nodesOK_of_core {r r1 : LRUKReplacer} (hk : r1.k_ = r.k_)
    (ht : r1.total_num_frames = r.total_num_frames)
    (hcore : ∀ h, (r1.node_store_ h).map LRUKNode.core = (r.node_store_ h).map LRUKNode.core)
    (hnd : r.NodesOK) : r1.NodesOK := by
  intro h nd hh
  have hc := hcore h
  rw [hh] at hc
  cases hr : r.node_store_ h with
  | none => rw [hr] at hc; simp at hc
  | some nd0 =>
    rw [hr] at hc
    simp only [Option.map_some', Option.some.injEq, LRUKNode.core, Prod.mk.injEq] at hc
    obtain ⟨h1, h2, h3, h4⟩ := hnd h nd0 hr
    rw [hk, ht, hc.1, hc.2.1, hc.2.2.1]
    exact ⟨h1, h2, h3, h4⟩

theorem push_spec (r : LRUKReplacer) (n f : Nat) (nf : LRUKNode)
    (hsz : r.min_heap_obj_.heap_size_ = n) (hn : n < r.min_heap_obj_.heap_capacity_)
    (hs : r.Slots n) (hnd : r.NodesOK) (hab : r.Above n) (hord : HeapOrd r.slotRank n)
    (hsf : r.node_store_ f = some nf) (hnot : ¬ r.InHeap n f) :
    ∃ r1, r.push f = .ok r1 ∧ PushPost r r1 n f := by
  let r2 : LRUKReplacer :=
    { r with
      min_heap_obj_ :=
        { arr_ele_ := upd r.min_heap_obj_.arr_ele_ n (some f), heap_size_ := n,
          heap_capacity_ := r.min_heap_obj_.heap_capacity_ },
      node_store_ := upd r.node_store_ f (some { nf with index_in_heap_arr_ := n }) }
  have hpush : r.push f = (match r2.heapifyUp n with
      | .error e => Except.error e
      | .ok r3 => .ok (r3.setHeapSize (r3.min_heap_obj_.heap_size_ + 1))) := by
    unfold LRUKReplacer.push
    have : r.min_heap_obj_.heap_capacity_ ≥ n := by omega
    simp only [hsz, this, not_true_eq_false, if_false, LRUKReplacer.setSlot, hn, if_true,
      LRUKReplacer.setIndexOf, hsf]
  have hcore2 : ∀ h, (r2.node_store_ h).map LRUKNode.core
      = (r.node_store_ h).map LRUKNode.core := by
    intro h
    simp only [r2, upd]
    by_cases h1 : h = f
    · subst h1; simp [hsf, LRUKNode.core]
    · simp [h1]
  have hnd2 : r2.NodesOK :=
    @nodesOK_of_core r r2 rfl rfl hcore2 hnd
  have hnotf : ∀ j, j < n → r.min_heap_obj_.arr_ele_ j ≠ some f :=
    fun j hj e => hnot ⟨j, hj, e⟩
  have hs2 : r2.Slots (n + 1) := by
    intro j hj
    by_cases hjn : j = n
    · subst hjn
      exact ⟨f, { nf with index_in_heap_arr_ := j }, by simp [r2, upd], by simp [r2, upd], rfl⟩
    · obtain ⟨h, nd, ha, hb, hc⟩ := hs j (by omega)
      have hhf : h ≠ f := by
        intro e; subst e
        exact hnotf j (by omega) ha
      exact ⟨h, nd, by simp [r2, upd, hjn, ha], by simp [r2, upd, hhf, hb], hc⟩
  have hrk2 : ∀ j, j < n → r2.slotRank j = r.slotRank j := by
    intro j hj
    apply slotRank_congr
    · simp [r2, upd, Nat.ne_of_lt hj]
    · intro h _
      exact hcore2 h
  have hinv2 : UpInv r2.slotRank (n + 1) n := by
    constructor
    · intro j hj hjn hne
      have := parentOf_lt hj
      rw [hrk2 j (by omega), hrk2 (parentOf j) (by omega)]
      exact hord j hj (by omega)
    · intro _ j hj hjn hpar
      have := parentOf_lt hj
      omega
  obtain ⟨r3, hrun, hst, hs3, hord3⟩ :=
    heapifyUp_spec r2 (n + 1) n (by omega) (show n + 1 ≤ r.min_heap_obj_.heap_capacity_ by omega)
      hs2 hnd2 hinv2
  refine ⟨r3.setHeapSize (r3.min_heap_obj_.heap_size_ + 1), ?_, ?_⟩
  · rw [hpush, hrun]
  · have hsz3 : r3.min_heap_obj_.heap_size_ = n := by rw [hst.hsize_eq]
    have hin2 : ∀ h, r2.InHeap (n + 1) h ↔ (r.InHeap n h ∨ h = f) := by
      intro h
      constructor
      · rintro ⟨j, hj, hjh⟩
        by_cases hjn : j = n
        · subst hjn
          simp [r2, upd] at hjh
          exact Or.inr hjh.symm
        · simp [r2, upd, hjn] at hjh
          exact Or.inl ⟨j, by omega, hjh⟩
      · rintro (⟨j, hj, hjh⟩ | e)
        · exact ⟨j, by omega, by simp [r2, upd, Nat.ne_of_lt hj, hjh]⟩
        · subst e
          exact ⟨n, by omega, by simp [r2, upd]⟩
    have hab2 : r2.Above (n + 1) := by
      intro j hj
      simp only [r2, upd, show j ≠ n by omega, if_false]
      exact hab j (by omega)
    exact
      { hsize := by simp [LRUKReplacer.setHeapSize, hsz3]
        k_eq := hst.k_eq
        total_eq := hst.total_eq
        rsize_eq := hst.rsize_eq
        cap_eq := hst.cap_eq
        core_eq := fun h => (hst.core_eq h).trans (hcore2 h)
        inheap := fun h => (hst.inheap h).trans (hin2 h)
        slots := hs3
        above := hst.above_of hab2
        ord := hord3 }

/-! ## Auxiliary facts for the replacer operations -/

theorem validHist_enter {k : Nat} {h : List Nat} (hv : ValidHist k h) (t : Nat) (ht : t ≠ 0) :
    ValidHist k (t :: h.dropLast) := by
  obtain ⟨ts, z, hh, hne, hnz, hlen⟩ := hv
  cases z with
  | zero =>
    refine ⟨t :: ts.dropLast, 0, ?_, by simp, ?_, ?_⟩
    · simp [hh]
    · intro x hx
      rcases List.mem_cons.mp hx with e | e
      · rw [e]; exact ht
      · exact hnz x (List.dropLast_subset ts e)
    · have : 0 < ts.length := List.length_pos.mpr hne
      simp [List.length_dropLast]
      omega
  | succ z =>
    refine ⟨t :: ts, z, ?_, by simp, ?_, ?_⟩
    · rw [hh, List.replicate_succ', ← List.append_assoc, List.dropLast_concat]
      rfl
    · intro x hx
      rcases List.mem_cons.mp hx with e | e
      · rw [e]; exact ht
      · exact hnz x e
    · simp
      omega

theorem validHist_new {k : Nat} (hk : 0 < k) (t : Nat) (ht : t ≠ 0) :
    ValidHist k (t :: (List.replicate k 0).dropLast) := by
  obtain ⟨m, rfl⟩ : ∃ m, k = m + 1 := ⟨k - 1, by omega⟩
  refine ⟨[t], m, ?_, by simp, ?_, by simp; omega⟩
  · rw [List.replicate_succ', List.dropLast_concat]
    rfl
  · intro x hx
    simp at hx
    rw [hx]; exact ht

theorem heapOrd_min {α : Type} [LinearOrder α] (s : Nat → α) (n : Nat) (h : HeapOrd s n) :
    ∀ j, j < n → s 0 ≤ s j := by
  intro j
  induction j using Nat.strong_induction_on with
  | _ j ih =>
    intro hj
    by_cases h0 : j = 0
    · subst h0; exact le_refl _
    · have hpos : 0 < j := Nat.pos_of_ne_zero h0
      have hp := parentOf_lt hpos
      exact le_trans (ih (parentOf j) hp (by omega)) (h j hpos hj)

theorem heap_frames_card (r : LRUKReplacer) (n : Nat) (hs : r.Slots n) (hnd : r.NodesOK) :
    ∃ S : Finset Nat, S.card = n ∧ (∀ f, f ∈ S ↔ r.InHeap n f) ∧
      S ⊆ Finset.range r.total_num_frames := by
  refine ⟨(Finset.range n).image (fun i => (r.min_heap_obj_.arr_ele_ i).getD 0), ?_, ?_, ?_⟩
  · rw [Finset.card_image_of_injOn, Finset.card_range]
    intro i hi j hj hij
    simp only [Finset.coe_range, Set.mem_Iio] at hi hj
    obtain ⟨fi, ni, hai, _, _⟩ := hs i hi
    obtain ⟨fj, nj, haj, _, _⟩ := hs j hj
    simp only [hai, haj, Option.getD_some] at hij
    subst hij
    exact Slots.inj hs hi hj hai haj
  · intro f
    simp only [Finset.mem_image, Finset.mem_range, LRUKReplacer.InHeap]
    constructor
    · rintro ⟨i, hi, e⟩
      obtain ⟨fi, ni, hai, _, _⟩ := hs i hi
      rw [hai] at e
      simp at e
      exact ⟨i, hi, e ▸ hai⟩
    · rintro ⟨i, hi, e⟩
      exact ⟨i, hi, by simp [e]⟩
  · intro f hf
    simp only [Finset.mem_image, Finset.mem_range] at hf
    obtain ⟨i, hi, e⟩ := hf
    obtain ⟨fi, ni, hai, hsi, _⟩ := hs i hi
    rw [hai] at e
    simp at e
    subst e
    exact Finset.mem_range.mpr (hnd fi ni hsi).2.1

theorem heap_size_le (r : LRUKReplacer) (n : Nat) (hs : r.Slots n) (hnd : r.NodesOK) :
    n ≤ r.total_num_frames := by
  obtain ⟨S, hc, _, hsub⟩ := heap_frames_card r n hs hnd
  have := Finset.card_le_card hsub
  rw [hc, Finset.card_range] at this
  exact this

theorem heap_size_lt (r : LRUKReplacer) (n f : Nat) (hs : r.Slots n) (hnd : r.NodesOK)
    (hf : f < r.total_num_frames) (hnot : ¬ r.InHeap n f) : n < r.total_num_frames := by
  obtain ⟨S, hc, hmem, hsub⟩ := heap_frames_card r n hs hnd
  have hfS : f ∉ S := fun h => hnot ((hmem f).mp h)
  have hsub2 : insert f S ⊆ Finset.range r.total_num_frames := by
    intro x hx
    rcases Finset.mem_insert.mp hx with e | e
    · rw [e]; exact Finset.mem_range.mpr hf
    · exact hsub e
  have := Finset.card_le_card hsub2
  rw [Finset.card_insert_of_not_mem hfS, hc, Finset.card_range] at this
  omega

theorem LRUKReplacer.WF.size_le {r : LRUKReplacer} (h : r.WF) :
    r.min_heap_obj_.heap_size_ ≤ r.min_heap_obj_.heap_capacity_ := by
  rw [h.cap]
  exact heap_size_le r _ h.slots h.nodes

theorem LRUKReplacer.WF.inHeap_tracked {r : LRUKReplacer} (h : r.WF) {f : Nat}
    (hf : r.InHeap r.min_heap_obj_.heap_size_ f) :
    ∃ nd, r.node_store_ f = some nd ∧ nd.is_evictable_ = true ∧
      nd.index_in_heap_arr_ < r.min_heap_obj_.heap_size_ ∧
      r.min_heap_obj_.arr_ele_ nd.index_in_heap_arr_ = some f := by
  obtain ⟨i, hi, hai⟩ := hf
  obtain ⟨f1, nd, ha, hs, hidx⟩ := h.slots i hi
  rw [hai] at ha
  cases ha
  exact ⟨nd, hs, (h.flags f nd hs).mpr ⟨i, hi, hai⟩, by omega, by rw [hidx]; exact hai⟩

theorem LRUKReplacer.WF.evictable_slot {r : LRUKReplacer} (h : r.WF) {f : Nat} {nd : LRUKNode}
    (hs : r.node_store_ f = some nd) (he : nd.is_evictable_ = true) :
    nd.index_in_heap_arr_ < r.min_heap_obj_.heap_size_ ∧
      r.min_heap_obj_.arr_ele_ nd.index_in_heap_arr_ = some f := by
  obtain ⟨nd1, h1, _, h3, h4⟩ := h.inHeap_tracked ((h.flags f nd hs).mp he)
  rw [hs] at h1
  cases h1
  exact ⟨h3, h4⟩

/-! ## RecordAccess -/

theorem wf_upd_nonheap (r : LRUKReplacer) (f : Nat) (nd : LRUKNode) (hwf : r.WF)
    (hnot : ¬ r.InHeap r.min_heap_obj_.heap_size_ f)
    (hfid : nd.fid_ = f) (hf : f < r.total_num_frames) (hk : nd.k_ = r.k_)
    (hv : ValidHist r.k_ nd.history_) (hflag : nd.is_evictable_ = false) :
    ({ r with node_store_ := upd r.node_store_ f (some nd) } : LRUKReplacer).WF := by
  have hnotf : ∀ j, j < r.min_heap_obj_.heap_size_ → r.min_heap_obj_.arr_ele_ j ≠ some f :=
    fun j hj e => hnot ⟨j, hj, e⟩
  refine ⟨hwf.kpos, hwf.cap, hwf.rsize, ?_, ?_, hwf.above, ?_, ?_⟩
  · intro j hj
    obtain ⟨h, n0, ha, hb, hc⟩ := hwf.slots j hj
    have hhf : h ≠ f := by
      intro e; subst e
      exact hnotf j hj ha
    exact ⟨h, n0, ha, by simp [upd, hhf, hb], hc⟩
  · intro h n0 hh
    simp only [upd] at hh
    by_cases e : h = f
    · subst e
      simp at hh
      subst hh
      exact ⟨hfid, hf, hk, hv⟩
    · simp [e] at hh
      exact hwf.nodes h n0 hh
  · intro h n0 hh
    simp only [upd] at hh
    by_cases e : h = f
    · subst e
      simp at hh
      subst hh
      simp only [hflag]
      constructor
      · intro h; cases h
      · intro h; exact absurd h hnot
    · simp [e] at hh
      exact hwf.flags h n0 hh
  · intro j hj hjn0
    have hjn : j < r.min_heap_obj_.heap_size_ := hjn0
    have hp := parentOf_lt hj
    have e1 : ({ r with node_store_ := upd r.node_store_ f (some nd) } : LRUKReplacer).slotRank j
        = r.slotRank j := by
      refine slotRank_congr r _ _ rfl ?_
      intro h hh
      have hhf : h ≠ f := by
        intro e; subst e
        exact hnotf j hjn hh
      simp [upd, hhf]
    have e2 : ({ r with node_store_ := upd r.node_store_ f (some nd) } :
        LRUKReplacer).slotRank (parentOf j) = r.slotRank (parentOf j) := by
      refine slotRank_congr r _ _ rfl ?_
      intro h hh
      have hhf : h ≠ f := by
        intro e; subst e
        exact hnotf (parentOf j) (by omega) hh
      simp [upd, hhf]
    rw [e1, e2]
    exact hwf.ord j hj hjn

theorem RecordAccess_spec (r : LRUKReplacer) (f t : Nat) (hwf : r.WF)
    (hf : f < r.total_num_frames) (ht : t ≠ 0) :
    ∃ r1, r.RecordAccess f t = .ok r1 ∧ OpPost r r1 f ∧
      r1.replacer_size_ = r.replacer_size_ ∧
      (r1.node_store_ f).map LRUKNode.core =
        some (((r.node_store_ f).getD (LRUKNode.new r.k_ f)).enterCurrentTimeStamp t).core := by
  have hvalid : r.validityOfFrame f = true := by
    simp [LRUKReplacer.validityOfFrame]; omega
  have hsz : r.min_heap_obj_.heap_size_ = r.replacer_size_ := hwf.rsize.symm
  unfold LRUKReplacer.RecordAccess
  simp only [hvalid, ne_eq, not_true_eq_false, if_false, hsz]
  cases hst : r.node_store_ f with
  | none =>
    have hnot : ¬ r.InHeap r.min_heap_obj_.heap_size_ f := by
      intro h
      obtain ⟨nd, h1, _⟩ := hwf.inHeap_tracked h
      rw [hst] at h1
      cases h1
    refine ⟨_, rfl, ⟨?_, rfl, rfl, ?_⟩, rfl, ?_⟩
    · exact wf_upd_nonheap r f _ hwf hnot rfl hf rfl
        (validHist_new hwf.kpos t ht) rfl
    · intro g hg
      simp [upd, hg]
    · simp [upd]
  | some nd =>
    obtain ⟨hfid, _, hk, hv⟩ := hwf.nodes f nd hst
    simp only [Option.getD_some]
    by_cases hev : nd.is_evictable_ = true
    · -- the node is in the heap: its key changed, the heap is repaired
      obtain ⟨hidx, hslot⟩ := hwf.evictable_slot hst hev
      let r1 : LRUKReplacer :=
        { r with node_store_ := upd r.node_store_ f (some (nd.enterCurrentTimeStamp t)) }
      have hs1 : r1.Slots r.min_heap_obj_.heap_size_ := by
        intro j hj
        obtain ⟨h, n0, ha, hb, hc⟩ := hwf.slots j hj
        by_cases e : h = f
        · subst e
          rw [hst] at hb
          cases hb
          exact ⟨h, nd.enterCurrentTimeStamp t, ha, by simp [r1, upd], hc⟩
        · exact ⟨h, n0, ha, by simp [r1, upd, e, hb], hc⟩
      have hnd1 : r1.NodesOK := by
        intro h n0 hh
        simp only [r1, upd] at hh
        by_cases e : h = f
        · subst e
          simp at hh
          subst hh
          exact ⟨hfid, hf, hk, validHist_enter hv t ht⟩
        · simp [e] at hh
          exact hwf.nodes h n0 hh
      have hrk : ∀ j, j < r.min_heap_obj_.heap_size_ → j ≠ nd.index_in_heap_arr_ →
          r1.slotRank j = r.slotRank j := by
        intro j hj hne
        refine slotRank_congr r _ _ rfl ?_
        intro h hh
        have hhf : h ≠ f := by
          intro e; subst e
          exact hne (Slots.inj hwf.slots hj hidx hh hslot)
        simp [r1, upd, hhf]
      have hhole : Hole r1.slotRank r.min_heap_obj_.heap_size_ nd.index_in_heap_arr_ := by
        constructor
        · intro j hj hjn hji hpar
          have hp := parentOf_lt hj
          rw [hrk j hjn hji, hrk (parentOf j) (by omega) hpar]
          exact hwf.ord j hj hjn
        · intro hi0 j hj hjn hpar
          have hp := parentOf_lt hj
          have hpi := parentOf_lt hi0
          rw [hrk j hjn (by omega), hrk (parentOf nd.index_in_heap_arr_) (by omega) (by omega)]
          have h1 := hwf.ord _ hi0 hidx
          have h2 := hwf.ord j hj hjn
          rw [hpar] at h2
          exact le_trans h1 h2
      obtain ⟨r2, hrun, hstep, hs2, hord2⟩ :=
        heapifyUpAndDown_spec r1 r.min_heap_obj_.heap_size_ nd.index_in_heap_arr_ rfl
          hwf.size_le hs1 hnd1 hidx hhole
      have hflags1 : r1.Flags r.min_heap_obj_.heap_size_ := by
        intro h n0 hh
        simp only [r1, upd] at hh
        by_cases e : h = f
        · subst e
          simp at hh
          subst hh
          exact hwf.flags h nd hst
        · simp [e] at hh
          exact hwf.flags h n0 hh
      have hev1 : (nd.enterCurrentTimeStamp t).is_evictable_ = true := hev
      refine ⟨r2, ?_, ⟨?_, hstep.k_eq, hstep.total_eq, ?_⟩, ?_, ?_⟩
      · simp only [hev1, if_true]
        exact hrun
      · exact
          { kpos := by rw [hstep.k_eq]; exact hwf.kpos
            cap := by rw [hstep.cap_eq, hstep.total_eq]; exact hwf.cap
            rsize := by rw [hstep.rsize_eq, hstep.hsize_eq]; exact hwf.rsize
            slots := by rw [hstep.hsize_eq]; exact hs2
            nodes := hstep.nodesOK hnd1
            above := by rw [hstep.hsize_eq]; exact hstep.above_of hwf.above
            flags := by rw [hstep.hsize_eq]; exact hstep.flags hflags1
            ord := by rw [hstep.hsize_eq]; exact hord2 }
      · intro g hg
        rw [hstep.core_eq g]
        simp [r1, upd, hg]
      · exact hstep.rsize_eq
      · rw [hstep.core_eq f]
        simp [r1, upd]
    · have hev0 : nd.is_evictable_ = false := by
        cases h : nd.is_evictable_ with
        | true => exact absurd h hev
        | false => rfl
      have hnot : ¬ r.InHeap r.min_heap_obj_.heap_size_ f := by
        intro h
        have := (hwf.flags f nd hst).mpr h
        exact hev this
      have hev1 : (nd.enterCurrentTimeStamp t).is_evictable_ = false := hev0
      refine ⟨{ r with node_store_ := upd r.node_store_ f (some (nd.enterCurrentTimeStamp t)) },
        by simp only [hev1]; rfl, ⟨?_, rfl, rfl, ?_⟩, rfl, ?_⟩
      · exact wf_upd_nonheap r f _ hwf hnot hfid hf hk (validHist_enter hv t ht) hev0
      · intro g hg
        simp [upd, hg]
      · simp [upd]

/-! ## SetEvictable, Remove, Evict -/

theorem core_some {a b : Option LRUKNode} (h : a.map LRUKNode.core = b.map LRUKNode.core)
    {nd : LRUKNode} (ha : a = some nd) : ∃ nd0, b = some nd0 ∧ nd.core = nd0.core := by
  subst ha
  cases b with
  | none => simp at h
  | some nd0 =>
    simp only [Option.map_some', Option.some.injEq] at h
    exact ⟨nd0, rfl, h⟩

theorem core_none {a b : Option LRUKNode} (h : a.map LRUKNode.core = b.map LRUKNode.core)
    (ha : a = none) : b = none := by
  subst ha
  cases b with
  | none => rfl
  | some nd0 => simp at h

theorem core_fields {a b : LRUKNode} (h : a.core = b.core) :
    a.history_ = b.history_ ∧ a.k_ = b.k_ ∧ a.fid_ = b.fid_ ∧
      a.is_evictable_ = b.is_evictable_ := by
  simpa [LRUKNode.core] using h

theorem slotRank_congr_rank (r r1 : LRUKReplacer) (i : Nat)
    (ha : r1.min_heap_obj_.arr_ele_ i = r.min_heap_obj_.arr_ele_ i)
    (hs : ∀ f, r.min_heap_obj_.arr_ele_ i = some f →
      (r1.node_store_ f).map LRUKNode.rank = (r.node_store_ f).map LRUKNode.rank) :
    r1.slotRank i = r.slotRank i := by
  unfold LRUKReplacer.slotRank
  rw [ha]
  cases h : r.min_heap_obj_.arr_ele_ i with
  | none => rfl
  | some f =>
    have := hs f h
    simp only
    cases h1 : r1.node_store_ f with
    | none =>
      cases h2 : r.node_store_ f with
      | none => rfl
      | some b => rw [h1, h2] at this; simp at this
    | some a =>
      cases h2 : r.node_store_ f with
      | none => rw [h1, h2] at this; simp at this
      | some b =>
        rw [h1, h2] at this
        simpa using this

theorem SetEvictable_untracked (r : LRUKReplacer) (f : Nat) (b : Bool) (hwf : r.WF)
    (hf : f < r.total_num_frames) (hst : r.node_store_ f = none) :
    r.SetEvictable f b = .ok r := by
  have hvalid : r.validityOfFrame f = true := by
    simp [LRUKReplacer.validityOfFrame]; omega
  simp [LRUKReplacer.SetEvictable, hvalid, hwf.rsize, hst]

theorem SetEvictable_same (r : LRUKReplacer) (f : Nat) (b : Bool) (nd : LRUKNode) (hwf : r.WF)
    (hf : f < r.total_num_frames) (hst : r.node_store_ f = some nd)
    (hb : nd.is_evictable_ = b) :
    r.SetEvictable f b = .ok r := by
  have hvalid : r.validityOfFrame f = true := by
    simp [LRUKReplacer.validityOfFrame]; omega
  subst hb
  cases h : nd.is_evictable_ <;> simp [LRUKReplacer.SetEvictable, hvalid, hwf.rsize, hst, h]

theorem SetEvictable_true_spec (r : LRUKReplacer) (f : Nat) (nd : LRUKNode) (hwf : r.WF)
    (hf : f < r.total_num_frames) (hst : r.node_store_ f = some nd)
    (hev : nd.is_evictable_ = false) :
    ∃ r1, r.SetEvictable f true = .ok r1 ∧ OpPost r r1 f ∧
      r1.replacer_size_ = r.replacer_size_ + 1 ∧
      (r1.node_store_ f).map LRUKNode.core
        = some ({ nd with is_evictable_ := true } : LRUKNode).core := by
  have hvalid : r.validityOfFrame f = true := by
    simp [LRUKReplacer.validityOfFrame]; omega
  have hnot : ¬ r.InHeap r.min_heap_obj_.heap_size_ f := by
    intro h
    have := (hwf.flags f nd hst).mpr h
    rw [hev] at this
    cases this
  let r1 : LRUKReplacer :=
    { r with replacer_size_ := r.replacer_size_ + 1,
             node_store_ := upd r.node_store_ f (some { nd with is_evictable_ := true }) }
  have hrun : r.SetEvictable f true = r1.push f := by
    simp [LRUKReplacer.SetEvictable, hvalid, hwf.rsize, hst, hev, r1]
  obtain ⟨hfid, _, hk, hv⟩ := hwf.nodes f nd hst
  have hs1 : r1.Slots r.min_heap_obj_.heap_size_ := by
    intro j hj
    obtain ⟨h, n0, ha, hb, hc⟩ := hwf.slots j hj
    have hhf : h ≠ f := by
      intro e; subst e
      exact hnot ⟨j, hj, ha⟩
    exact ⟨h, n0, ha, by simp [r1, upd, hhf, hb], hc⟩
  have hnd1 : r1.NodesOK := by
    intro h n0 hh
    simp only [r1, upd] at hh
    by_cases e : h = f
    · subst e
      simp at hh
      subst hh
      exact ⟨hfid, hf, hk, hv⟩
    · simp [e] at hh
      exact hwf.nodes h n0 hh
  have hrk : ∀ j, r1.slotRank j = r.slotRank j := by
    intro j
    refine slotRank_congr_rank r _ _ rfl ?_
    intro h _
    simp only [r1, upd]
    by_cases e : h = f
    · subst e
      simp [hst, LRUKNode.rank]
    · simp [e]
  have hord1 : HeapOrd r1.slotRank r.min_heap_obj_.heap_size_ := by
    intro j hj hjn
    rw [hrk, hrk]
    exact hwf.ord j hj hjn
  have hlt : r.min_heap_obj_.heap_size_ < r.min_heap_obj_.heap_capacity_ := by
    rw [hwf.cap]
    exact heap_size_lt r _ f hwf.slots hwf.nodes hf hnot
  obtain ⟨r2, hpush, hpost⟩ :=
    push_spec r1 r.min_heap_obj_.heap_size_ f { nd with is_evictable_ := true } rfl hlt hs1 hnd1
      hwf.above hord1 (by simp [r1, upd]) hnot
  have hcore1 : ∀ g, g ≠ f → (r1.node_store_ g).map LRUKNode.core
      = (r.node_store_ g).map LRUKNode.core := by
    intro g hg
    simp [r1, upd, hg]
  refine ⟨r2, by rw [hrun, hpush], ⟨?_, hpost.k_eq, hpost.total_eq, ?_⟩, ?_, ?_⟩
  · exact
      { kpos := by rw [hpost.k_eq]; exact hwf.kpos
        cap := by rw [hpost.cap_eq, hpost.total_eq]; exact hwf.cap
        rsize := by rw [hpost.rsize_eq, hpost.hsize]; simp only [r1]; rw [hwf.rsize]
        slots := by rw [hpost.hsize]; exact hpost.slots
        nodes := @nodesOK_of_core r1 _ hpost.k_eq hpost.total_eq hpost.core_eq hnd1
        above := by rw [hpost.hsize]; exact hpost.above
        flags := by
          rw [hpost.hsize]
          intro g n0 hg
          rw [hpost.inheap g]
          obtain ⟨n1, hg1, hc⟩ := core_some (hpost.core_eq g) hg
          rw [(core_fields hc).2.2.2]
          simp only [r1, upd] at hg1
          by_cases e : g = f
          · subst e
            simp at hg1
            subst hg1
            simp
          · simp [e] at hg1
            rw [hwf.flags g n1 hg1]
            constructor
            · intro h; exact Or.inl h
            · rintro (h | h)
              · exact h
              · exact absurd h e
        ord := by rw [hpost.hsize]; exact hpost.ord }
  · intro g hg
    rw [hpost.core_eq g]
    exact hcore1 g hg
  · rw [hpost.rsize_eq]
  · rw [hpost.core_eq f]
    simp [r1, upd]

theorem SetEvictable_false_run (r : LRUKReplacer) (f : Nat) (nd : LRUKNode) (hwf : r.WF)
    (hf : f < r.total_num_frames) (hst : r.node_store_ f = some nd)
    (hev : nd.is_evictable_ = true) :
    r.SetEvictable f false =
      (r.flagged f nd false (r.replacer_size_ - 1)).removeEle nd.index_in_heap_arr_ := by
  have hvalid : r.validityOfFrame f = true := by
    simp [LRUKReplacer.validityOfFrame]; omega
  simp [LRUKReplacer.SetEvictable, hvalid, hwf.rsize, hst, hev, LRUKReplacer.flagged]

theorem SetEvictable_false_spec (r : LRUKReplacer) (f : Nat) (nd : LRUKNode) (hwf : r.WF)
    (hf : f < r.total_num_frames) (hst : r.node_store_ f = some nd)
    (hev : nd.is_evictable_ = true)
    (hcase : nd.index_in_heap_arr_ < r.min_heap_obj_.heap_size_ - 1 ∨
      r.min_heap_obj_.heap_size_ = 1) :
    ∃ r1, r.SetEvictable f false = .ok r1 ∧ OpPost r r1 f ∧
      r1.replacer_size_ + 1 = r.replacer_size_ ∧
      (r1.node_store_ f).map LRUKNode.core
        = some ({ nd with is_evictable_ := false } : LRUKNode).core := by
  obtain ⟨hidx, hslot⟩ := hwf.evictable_slot hst hev
  obtain ⟨hfid, _, hk, hv⟩ := hwf.nodes f nd hst
  rw [SetEvictable_false_run r f nd hwf hf hst hev]
  generalize hr1 : r.flagged f nd false (r.replacer_size_ - 1) = r1
  have e_arr : r1.min_heap_obj_ = r.min_heap_obj_ := by rw [← hr1]; rfl
  have e_store : r1.node_store_ = upd r.node_store_ f (some { nd with is_evictable_ := false }) := by
    rw [← hr1]; rfl
  have e_k : r1.k_ = r.k_ := by rw [← hr1]; rfl
  have e_t : r1.total_num_frames = r.total_num_frames := by rw [← hr1]; rfl
  have e_rs : r1.replacer_size_ = r.replacer_size_ - 1 := by rw [← hr1]; rfl
  have hs1 : r1.Slots r.min_heap_obj_.heap_size_ := by
    intro j hj
    obtain ⟨h, n0, ha, hb, hc⟩ := hwf.slots j hj
    rw [e_arr, e_store]
    by_cases e : h = f
    · subst e
      rw [hst] at hb
      cases hb
      exact ⟨h, { nd with is_evictable_ := false }, ha, by simp [upd], hc⟩
    · exact ⟨h, n0, ha, by simp [upd, e, hb], hc⟩
  have hnd1 : r1.NodesOK := by
    intro h n0 hh
    rw [e_store] at hh
    rw [e_k, e_t]
    simp only [upd] at hh
    by_cases e : h = f
    · subst e
      simp at hh
      subst hh
      exact ⟨hfid, hf, hk, hv⟩
    · simp [e] at hh
      exact hwf.nodes h n0 hh
  have hrk : ∀ j, r1.slotRank j = r.slotRank j := by
    intro j
    refine slotRank_congr_rank r _ _ (by rw [e_arr]) ?_
    intro h _
    rw [e_store]
    simp only [upd]
    by_cases e : h = f
    · subst e
      simp [hst, LRUKNode.rank]
    · simp [e]
  have hord1 : HeapOrd r1.slotRank r.min_heap_obj_.heap_size_ := by
    intro j hj hjn
    rw [hrk, hrk]
    exact hwf.ord j hj hjn
  have hab1 : r1.Above r.min_heap_obj_.heap_size_ := by
    intro j hj
    rw [e_arr]
    exact hwf.above j hj
  obtain ⟨r2, hrun, hpost⟩ :=
    removeEle_spec r1 r.min_heap_obj_.heap_size_ nd.index_in_heap_arr_ f (by rw [e_arr])
      (by rw [e_arr]; exact hwf.size_le) hs1 hnd1 hab1 hord1 hidx (by rw [e_arr]; exact hslot)
      hcase
  have hin1 : ∀ g, r1.InHeap r.min_heap_obj_.heap_size_ g ↔
      r.InHeap r.min_heap_obj_.heap_size_ g := by
    intro g
    simp only [LRUKReplacer.InHeap, e_arr]
  have hpos : 0 < r.min_heap_obj_.heap_size_ := by omega
  refine ⟨r2, hrun, ⟨?_, hpost.k_eq.trans e_k, hpost.total_eq.trans e_t, ?_⟩, ?_, ?_⟩
  · exact
      { kpos := by rw [hpost.k_eq, e_k]; exact hwf.kpos
        cap := by rw [hpost.cap_eq, hpost.total_eq, e_arr, e_t]; exact hwf.cap
        rsize := by rw [hpost.rsize_eq, hpost.hsize, e_rs, hwf.rsize]
        slots := by rw [hpost.hsize]; exact hpost.slots
        nodes := @nodesOK_of_core r1 _ hpost.k_eq hpost.total_eq hpost.core_eq hnd1
        above := by rw [hpost.hsize]; exact hpost.above
        flags := by
          rw [hpost.hsize]
          intro g n0 hg
          rw [hpost.inheap g, hin1 g]
          obtain ⟨n1, hg1, hc⟩ := core_some (hpost.core_eq g) hg
          rw [(core_fields hc).2.2.2]
          rw [e_store] at hg1
          simp only [upd] at hg1
          by_cases e : g = f
          · subst e
            simp at hg1
            subst hg1
            simp
          · simp [e] at hg1
            rw [hwf.flags g n1 hg1]
            simp [e]
        ord := by rw [hpost.hsize]; exact hpost.ord }
  · intro g hg
    rw [hpost.core_eq g, e_store]
    simp [upd, hg]
  · rw [hpost.rsize_eq, e_rs, hwf.rsize]
    omega
  · rw [hpost.core_eq f, e_store]
    simp [upd]

theorem SetEvictable_false_fault (r : LRUKReplacer) (f : Nat) (nd : LRUKNode) (hwf : r.WF)
    (hf : f < r.total_num_frames) (hst : r.node_store_ f = some nd)
    (hev : nd.is_evictable_ = true)
    (hlast : nd.index_in_heap_arr_ = r.min_heap_obj_.heap_size_ - 1)
    (h2 : 2 ≤ r.min_heap_obj_.heap_size_) :
    r.SetEvictable f false = .error .nullDeref := by
  rw [SetEvictable_false_run r f nd hwf hf hst hev, hlast]
  apply removeEle_last_fault (r.flagged f nd false (r.replacer_size_ - 1))
    r.min_heap_obj_.heap_size_ rfl hwf.size_le _ h2
  intro j hj
  simp only [LRUKReplacer.flagged]
  obtain ⟨h, n0, ha, hb, hc⟩ := hwf.slots j hj
  by_cases e : h = f
  · subst e
    rw [hst] at hb
    cases hb
    exact ⟨h, { nd with is_evictable_ := false }, ha, by simp [upd], hc⟩
  · exact ⟨h, n0, ha, by simp [upd, e, hb], hc⟩

theorem Remove_run (r : LRUKReplacer) (f : Nat) (nd : LRUKNode) (hwf : r.WF)
    (hf : f < r.total_num_frames) (hst : r.node_store_ f = some nd)
    (hev : nd.is_evictable_ = true) :
    r.Remove f = (match r.removeEle nd.index_in_heap_arr_ with
      | .error e => Except.error e
      | .ok r1 => .ok { r1 with replacer_size_ := r1.replacer_size_ - 1,
                                node_store_ := upd r1.node_store_ f none }) := by
  have hvalid : r.validityOfFrame f = true := by
    simp [LRUKReplacer.validityOfFrame]; omega
  obtain ⟨hidx, _⟩ := hwf.evictable_slot hst hev
  have hpos : r.replacer_size_ > 0 := by rw [hwf.rsize]; omega
  simp [LRUKReplacer.Remove, hvalid, hwf.rsize, hst, hev]
  intro h
  omega

theorem Remove_spec (r : LRUKReplacer) (f : Nat) (nd : LRUKNode) (hwf : r.WF)
    (hf : f < r.total_num_frames) (hst : r.node_store_ f = some nd)
    (hev : nd.is_evictable_ = true)
    (hcase : nd.index_in_heap_arr_ < r.min_heap_obj_.heap_size_ - 1 ∨
      r.min_heap_obj_.heap_size_ = 1) :
    ∃ r1, r.Remove f = .ok r1 ∧ OpPost r r1 f ∧
      r1.replacer_size_ + 1 = r.replacer_size_ ∧ r1.node_store_ f = none := by
  obtain ⟨hidx, hslot⟩ := hwf.evictable_slot hst hev
  rw [Remove_run r f nd hwf hf hst hev]
  obtain ⟨r2, hrun, hpost⟩ :=
    removeEle_spec r r.min_heap_obj_.heap_size_ nd.index_in_heap_arr_ f rfl hwf.size_le
      hwf.slots hwf.nodes hwf.above hwf.ord hidx hslot hcase
  rw [hrun]
  have hnd2 : r2.NodesOK := nodesOK_of_core hpost.k_eq hpost.total_eq hpost.core_eq hwf.nodes
  have hnotin : ∀ j, j < r.min_heap_obj_.heap_size_ - 1 →
      r2.min_heap_obj_.arr_ele_ j ≠ some f := by
    intro j hj e
    exact ((hpost.inheap f).mp ⟨j, hj, e⟩).2 rfl
  have hpos : 0 < r.min_heap_obj_.heap_size_ := by omega
  refine ⟨_, rfl, ⟨?_, hpost.k_eq, hpost.total_eq, ?_⟩, ?_, by simp [upd]⟩
  · refine ⟨by simp only; rw [hpost.k_eq]; exact hwf.kpos, ?_, ?_, ?_, ?_, ?_, ?_, ?_⟩
    · simp only
      rw [hpost.cap_eq, hpost.total_eq]; exact hwf.cap
    · simp only
      rw [hpost.rsize_eq, hpost.hsize, hwf.rsize]
    · simp only
      rw [hpost.hsize]
      intro j hj
      obtain ⟨h, n0, ha, hb, hc⟩ := hpost.slots j hj
      have hhf : h ≠ f := by
        intro e; subst e
        exact hnotin j hj ha
      exact ⟨h, n0, ha, by simp [upd, hhf, hb], hc⟩
    · intro h n0 hh
      simp only [upd] at hh
      by_cases e : h = f
      · subst e; simp at hh
      · simp [e] at hh
        exact hnd2 h n0 hh
    · simp only
      rw [hpost.hsize]; exact hpost.above
    · simp only
      rw [hpost.hsize]
      intro g n0 hg
      simp only [upd] at hg
      by_cases e : g = f
      · subst e; simp at hg
      · simp [e] at hg
        have h1 : r2.InHeap (r.min_heap_obj_.heap_size_ - 1) g ↔
            r.InHeap r.min_heap_obj_.heap_size_ g := by
          rw [hpost.inheap g]; simp [e]
        obtain ⟨n1, hg1, hc⟩ := core_some (hpost.core_eq g) hg
        rw [(core_fields hc).2.2.2, hwf.flags g n1 hg1, ← h1]
        rfl
    · simp only
      rw [hpost.hsize]
      intro j hj hjn
      have hp := parentOf_lt hj
      have e1 : ∀ i, i < r.min_heap_obj_.heap_size_ - 1 →
          ({ r2 with replacer_size_ := r2.replacer_size_ - 1,
                     node_store_ := upd r2.node_store_ f none } : LRUKReplacer).slotRank i
            = r2.slotRank i := by
        intro i hi
        refine slotRank_congr r2 _ _ rfl ?_
        intro h hh
        have hhf : h ≠ f := by
          intro e; subst e
          exact hnotin i hi hh
        simp [upd, hhf]
      rw [e1 j hjn, e1 (parentOf j) (by omega)]
      exact hpost.ord j hj hjn
  · intro g hg
    simp only [upd, hg, if_false]
    exact hpost.core_eq g
  · simp only
    rw [hpost.rsize_eq, hwf.rsize]
    omega

theorem Remove_fault (r : LRUKReplacer) (f : Nat) (nd : LRUKNode) (hwf : r.WF)
    (hf : f < r.total_num_frames) (hst : r.node_store_ f = some nd)
    (hev : nd.is_evictable_ = true)
    (hlast : nd.index_in_heap_arr_ = r.min_heap_obj_.heap_size_ - 1)
    (h2 : 2 ≤ r.min_heap_obj_.heap_size_) :
    r.Remove f = .error .nullDeref := by
  rw [Remove_run r f nd hwf hf hst hev, hlast,
    removeEle_last_fault r r.min_heap_obj_.heap_size_ rfl hwf.size_le hwf.slots h2]

theorem OpPost.unchanged (r : LRUKReplacer) (f : Nat) (hwf : r.WF) : OpPost r r f :=
  ⟨hwf, rfl, rfl, fun _ _ => rfl⟩

theorem evictable_eq (r : LRUKReplacer) (f : Nat) (nd : LRUKNode)
    (h : r.node_store_ f = some nd) : r.evictable f = nd.is_evictable_ := by
  simp [LRUKReplacer.evictable, h]

theorem SetEvictable_true_total (r : LRUKReplacer) (f : Nat) (hwf : r.WF)
    (hf : f < r.total_num_frames) :
    ∃ r1, r.SetEvictable f true = .ok r1 ∧ OpPost r r1 f ∧
      (r1.node_store_ f).map LRUKNode.core =
        (r.node_store_ f).map (fun nd => ({ nd with is_evictable_ := true } : LRUKNode).core) ∧
      r1.replacer_size_ =
        r.replacer_size_ + (if r.tracked f = true ∧ r.evictable f = false then 1 else 0) := by
  cases hst : r.node_store_ f with
  | none =>
    refine ⟨r, SetEvictable_untracked r f true hwf hf hst, OpPost.unchanged r f hwf, ?_, ?_⟩
    · simp [hst]
    · simp [LRUKReplacer.tracked, hst]
  | some nd =>
    cases hev : nd.is_evictable_ with
    | true =>
      refine ⟨r, SetEvictable_same r f true nd hwf hf hst hev, OpPost.unchanged r f hwf, ?_, ?_⟩
      · simp only [hst, Option.map_some', Option.some.injEq]
        simp [LRUKNode.core, hev]
      · simp [evictable_eq r f nd hst, hev]
    | false =>
      obtain ⟨r1, hrun, hpost, hsz, hcore⟩ := SetEvictable_true_spec r f nd hwf hf hst hev
      refine ⟨r1, hrun, hpost, ?_, ?_⟩
      · rw [hcore]; simp
      · rw [hsz]
        simp [LRUKReplacer.tracked, hst, evictable_eq r f nd hst, hev]

theorem SetEvictable_false_ok (r r1 : LRUKReplacer) (f : Nat) (hwf : r.WF)
    (hf : f < r.total_num_frames) (hrun : r.SetEvictable f false = .ok r1) :
    OpPost r r1 f ∧
      (r1.node_store_ f).map LRUKNode.core =
        (r.node_store_ f).map (fun nd => ({ nd with is_evictable_ := false } : LRUKNode).core) ∧
      r1.replacer_size_ = r.replacer_size_ - (if r.evictable f = true then 1 else 0) := by
  cases hst : r.node_store_ f with
  | none =>
    rw [SetEvictable_untracked r f false hwf hf hst] at hrun
    cases hrun
    refine ⟨OpPost.unchanged r f hwf, by simp [hst], by simp [LRUKReplacer.evictable, hst]⟩
  | some nd =>
    cases hev : nd.is_evictable_ with
    | false =>
      rw [SetEvictable_same r f false nd hwf hf hst hev] at hrun
      cases hrun
      refine ⟨OpPost.unchanged r f hwf, ?_, by simp [evictable_eq r f nd hst, hev]⟩
      simp only [hst, Option.map_some', Option.some.injEq]
      simp [LRUKNode.core, hev]
    | true =>
      obtain ⟨hidx, _⟩ := hwf.evictable_slot hst hev
      by_cases hcase : nd.index_in_heap_arr_ < r.min_heap_obj_.heap_size_ - 1 ∨
          r.min_heap_obj_.heap_size_ = 1
      · obtain ⟨r2, hrun2, hpost, hsz, hcore⟩ :=
          SetEvictable_false_spec r f nd hwf hf hst hev hcase
        rw [hrun2] at hrun
        cases hrun
        refine ⟨hpost, by rw [hcore]; simp, ?_⟩
        simp only [evictable_eq r f nd hst, hev, if_true]
        omega
      · rw [SetEvictable_false_fault r f nd hwf hf hst hev (by omega) (by omega)] at hrun
        cases hrun

theorem Remove_ok (r r1 : LRUKReplacer) (f : Nat) (hwf : r.WF) (hf : f < r.total_num_frames)
    (hrun : r.Remove f = .ok r1) :
    r.evictable f = true ∧ OpPost r r1 f ∧ r1.replacer_size_ + 1 = r.replacer_size_ ∧
      r1.node_store_ f = none := by
  have hvalid : r.validityOfFrame f = true := by
    simp [LRUKReplacer.validityOfFrame]; omega
  cases hst : r.node_store_ f with
  | none =>
    simp [LRUKReplacer.Remove, hvalid, hwf.rsize, hst] at hrun
    split at hrun <;> cases hrun
  | some nd =>
    cases hev : nd.is_evictable_ with
    | false =>
      simp [LRUKReplacer.Remove, hvalid, hwf.rsize, hst, hev] at hrun
      split at hrun <;> cases hrun
    | true =>
      obtain ⟨hidx, _⟩ := hwf.evictable_slot hst hev
      by_cases hcase : nd.index_in_heap_arr_ < r.min_heap_obj_.heap_size_ - 1 ∨
          r.min_heap_obj_.heap_size_ = 1
      · obtain ⟨r2, hrun2, hpost, hsz, hnone⟩ := Remove_spec r f nd hwf hf hst hev hcase
        rw [hrun2] at hrun
        cases hrun
        exact ⟨by rw [evictable_eq r f nd hst, hev], hpost, hsz, hnone⟩
      · rw [Remove_fault r f nd hwf hf hst hev (by omega) (by omega)] at hrun
        cases hrun

theorem Evict_empty (r : LRUKReplacer) (hwf : r.WF) (h0 : r.replacer_size_ = 0) :
    r.Evict = .ok (r, none) := by
  have h1 : r.min_heap_obj_.heap_size_ = 0 := by rw [← hwf.rsize]; exact h0
  simp [LRUKReplacer.Evict, h0, h1]

theorem Evict_spec (r : LRUKReplacer) (hwf : r.WF) (hpos : 0 < r.replacer_size_) :
    ∃ f nd r1, r.min_heap_obj_.arr_ele_ 0 = some f ∧ r.node_store_ f = some nd ∧
      nd.is_evictable_ = true ∧ r.Evict = .ok (r1, some f) ∧ OpPost r r1 f ∧
      r1.replacer_size_ + 1 = r.replacer_size_ ∧ r1.node_store_ f = none ∧
      ∀ g ng, r.node_store_ g = some ng → ng.is_evictable_ = true → nd.rank ≤ ng.rank := by
  have hn : 0 < r.min_heap_obj_.heap_size_ := by rw [← hwf.rsize]; exact hpos
  obtain ⟨f, nd, ha, hs, hidx⟩ := hwf.slots 0 hn
  have hev : nd.is_evictable_ = true := (hwf.flags f nd hs).mpr ⟨0, hn, ha⟩
  obtain ⟨hfid, hf, _, _⟩ := hwf.nodes f nd hs
  obtain ⟨r1, hrun, hpost, hsz, hnone⟩ :=
    Remove_spec r f nd hwf hf hs hev (by rw [hidx]; omega)
  refine ⟨f, nd, r1, ha, hs, hev, ?_, hpost, hsz, hnone, ?_⟩
  · have h1 : r.min_heap_obj_.heap_size_ ≠ 0 := by omega
    have h2 : r.replacer_size_ ≠ 0 := by omega
    simp [LRUKReplacer.Evict, hwf.rsize, h1, ha, LRUKReplacer.deref, hs, hev, hfid, hrun]
  · intro g ng hg hgev
    obtain ⟨hgi, hgs⟩ := hwf.evictable_slot hg hgev
    have hmin := heapOrd_min r.slotRank _ hwf.ord ng.index_in_heap_arr_ hgi
    simp only [LRUKReplacer.slotRank, ha, hs, hgs, hg] at hmin
    exact hmin

/-! ## Reachable replacer states are well formed and show the recorded accesses -/

theorem WF_new (num_frames k : Nat) (hk : 0 < k) : (LRUKReplacer.new num_frames k).WF := by
  refine ⟨hk, rfl, rfl, ?_, ?_, ?_, ?_, ?_⟩
  · intro i hi
    simp [LRUKReplacer.new, MinHeap.new] at hi
  · intro f nd h
    simp [LRUKReplacer.new] at h
  · intro i _
    rfl
  · intro f nd h
    simp [LRUKReplacer.new] at h
  · intro j _ hj
    simp [LRUKReplacer.new, MinHeap.new] at hj

theorem padHist_cons (k t : Nat) (log : List Nat) (hk : 0 < k) :
    t :: (padHist k log).dropLast = padHist k (t :: log) := by
  obtain ⟨m, rfl⟩ : ∃ m, k = m + 1 := ⟨k - 1, by omega⟩
  unfold padHist
  simp only [List.take_succ_cons, List.cons_append, List.length_cons, List.cons.injEq, true_and]
  by_cases h : m + 1 ≤ log.length
  · have e1 : m + 1 - log.length = 0 := by omega
    have e2 : m + 1 - (log.length + 1) = 0 := by omega
    rw [e1, e2]
    simp only [List.replicate_zero, List.append_nil]
    rw [List.dropLast_eq_take, List.take_take, List.length_take]
    congr 1
    omega
  · obtain ⟨j, hj⟩ : ∃ j, m + 1 - log.length = j + 1 := ⟨m - log.length, by omega⟩
    have e2 : m + 1 - (log.length + 1) = j := by omega
    rw [hj, e2, List.replicate_succ', ← List.append_assoc, List.dropLast_concat]
    rw [List.take_of_length_le (by omega), List.take_of_length_le (by omega)]

theorem padHist_nil (k : Nat) : padHist k [] = List.replicate k 0 := by
  simp [padHist]

theorem reach_inv {r : LRUKReplacer} {log : Nat → List Nat} {last : Nat}
    (h : ReplacerReach r log last) : r.WF ∧ LogInv r log := by
  induction h with
  | init n k hk =>
    refine ⟨WF_new n k hk, ?_⟩
    intro f
    simp [LRUKReplacer.new]
  | @recordAccess r log last f t r1 _ hf ht _ hrun ih =>
    obtain ⟨hwf, hlog⟩ := ih
    obtain ⟨r2, hrun2, hpost, _, hcore⟩ := RecordAccess_spec r f t hwf hf ht
    rw [hrun2] at hrun
    have e_r : r2 = r1 := Except.ok.inj hrun
    subst e_r
    refine ⟨hpost.wf, ?_⟩
    intro g
    by_cases e : g = f
    · subst e
      obtain ⟨nd1, hs1, hc1⟩ : ∃ nd1, r2.node_store_ g = some nd1 ∧
          nd1.core = (((r.node_store_ g).getD (LRUKNode.new r.k_ g)).enterCurrentTimeStamp t).core := by
        cases hs : r2.node_store_ g with
        | none => rw [hs] at hcore; simp at hcore
        | some nd1 =>
          rw [hs] at hcore
          simp only [Option.map_some', Option.some.injEq] at hcore
          exact ⟨nd1, rfl, hcore⟩
      rw [hs1]
      simp only [upd_same]
      refine ⟨by simp, ?_, ?_⟩
      · intro x hx
        rcases List.mem_cons.mp hx with e | e
        · rw [e]; exact ht
        · have := hlog g
          cases hs : r.node_store_ g with
          | none => rw [hs] at this; simp only at this; rw [this] at e; cases e
          | some nd => rw [hs] at this; exact this.2.1 x e
      · rw [(core_fields hc1).1, hpost.k_eq, ← padHist_cons r.k_ t (log g) hwf.kpos]
        have := hlog g
        cases hs : r.node_store_ g with
        | none =>
          rw [hs] at this
          simp only at this
          rw [this, padHist_nil]
          rfl
        | some nd =>
          rw [hs] at this
          simp only [Option.getD_some, LRUKNode.enterCurrentTimeStamp]
          rw [this.2.2]
    · have hc := hpost.others g e
      have := hlog g
      rw [upd_other _ _ _ _ e]
      cases hs : r.node_store_ g with
      | none =>
        rw [hs] at this hc
        rw [core_none hc.symm rfl]
        exact this
      | some nd =>
        rw [hs] at this hc
        obtain ⟨nd1, hs1, hc1⟩ := core_some hc.symm rfl
        rw [hs1]
        simp only
        rw [← (core_fields hc1).1, hpost.k_eq]
        exact this
  | @setEvictable r log last f b r1 _ hf hrun ih =>
    obtain ⟨hwf, hlog⟩ := ih
    have key : OpPost r r1 f ∧ (r1.node_store_ f).map (fun nd => nd.history_)
        = (r.node_store_ f).map (fun nd => nd.history_) := by
      cases b with
      | true =>
        obtain ⟨r2, hrun2, hpost, hcore, _⟩ := SetEvictable_true_total r f hwf hf
        rw [hrun2] at hrun
        cases hrun
        refine ⟨hpost, ?_⟩
        have := congrArg (Option.map (fun c : List Nat × Nat × Nat × Bool => c.1)) hcore
        simpa [Option.map_map, Function.comp, LRUKNode.core] using this
      | false =>
        obtain ⟨hpost, hcore, _⟩ := SetEvictable_false_ok r r1 f hwf hf hrun
        refine ⟨hpost, ?_⟩
        have := congrArg (Option.map (fun c : List Nat × Nat × Nat × Bool => c.1)) hcore
        simpa [Option.map_map, Function.comp, LRUKNode.core] using this
    obtain ⟨hpost, hhist⟩ := key
    refine ⟨hpost.wf, ?_⟩
    intro g
    have hh : (r1.node_store_ g).map (fun nd => nd.history_)
        = (r.node_store_ g).map (fun nd => nd.history_) := by
      by_cases e : g = f
      · subst e; exact hhist
      · have := congrArg (Option.map (fun c : List Nat × Nat × Nat × Bool => c.1))
          (hpost.others g e)
        simpa [Option.map_map, Function.comp, LRUKNode.core] using this
    have := hlog g
    cases hs : r.node_store_ g with
    | none =>
      rw [hs] at this hh
      cases hs1 : r1.node_store_ g with
      | none => exact this
      | some nd1 => rw [hs1] at hh; simp at hh
    | some nd =>
      rw [hs] at this hh
      cases hs1 : r1.node_store_ g with
      | none => rw [hs1] at hh; simp at hh
      | some nd1 =>
        rw [hs1] at hh
        simp only [Option.map_some', Option.some.injEq] at hh
        simp only
        rw [hh, hpost.k_eq]
        exact this
  | @remove r log last f r1 _ hf hrun ih =>
    obtain ⟨hwf, hlog⟩ := ih
    obtain ⟨_, hpost, _, hnone⟩ := Remove_ok r r1 f hwf hf hrun
    refine ⟨hpost.wf, ?_⟩
    intro g
    by_cases e : g = f
    · subst e
      rw [hnone]
      simp
    · have hc := hpost.others g e
      have := hlog g
      rw [upd_other _ _ _ _ e]
      cases hs : r.node_store_ g with
      | none =>
        rw [hs] at this hc
        rw [core_none hc.symm rfl]
        exact this
      | some nd =>
        rw [hs] at this hc
        obtain ⟨nd1, hs1, hc1⟩ := core_some hc.symm rfl
        rw [hs1]
        simp only
        rw [← (core_fields hc1).1, hpost.k_eq]
        exact this
  | @evictSome r log last f r1 _ hrun ih =>
    obtain ⟨hwf, hlog⟩ := ih
    have hpos : 0 < r.replacer_size_ := by
      by_contra h0
      rw [Evict_empty r hwf (by omega)] at hrun
      cases hrun
    obtain ⟨f2, nd, r2, _, _, _, hrun2, hpost, _, hnone, _⟩ := Evict_spec r hwf hpos
    rw [hrun2] at hrun
    cases hrun
    refine ⟨hpost.wf, ?_⟩
    intro g
    by_cases e : g = f
    · subst e
      rw [hnone]
      simp
    · have hc := hpost.others g e
      have := hlog g
      rw [upd_other _ _ _ _ e]
      cases hs : r.node_store_ g with
      | none =>
        rw [hs] at this hc
        rw [core_none hc.symm rfl]
        exact this
      | some nd =>
        rw [hs] at this hc
        obtain ⟨nd1, hs1, hc1⟩ := core_some hc.symm rfl
        rw [hs1]
        simp only
        rw [← (core_fields hc1).1, hpost.k_eq]
        exact this
  | @evictNone r log last r1 _ hrun ih =>
    obtain ⟨hwf, hlog⟩ := ih
    by_cases h0 : r.replacer_size_ = 0
    · rw [Evict_empty r hwf h0] at hrun
      cases hrun
      exact ⟨hwf, hlog⟩
    · obtain ⟨f2, nd, r2, _, _, _, hrun2, _⟩ := Evict_spec r hwf (by omega)
      rw [hrun2] at hrun
      cases hrun

/-! ## C1: Evict returns an evictable frame of maximal backward K-distance -/

theorem rank_of_log (nd : LRUKNode) (k : Nat) (log : List Nat) (hnz : ∀ x ∈ log, x ≠ 0)
    (hh : nd.history_ = padHist k log) :
    nd.rank = toLex (min k log.length, toLex (((log.take k).getLast?).getD 0, nd.fid_)) := by
  unfold LRUKNode.rank
  rw [hh]
  unfold padHist
  rw [filter_valid (log.take k) _ (fun x hx => hnz x (List.mem_of_mem_take hx))]
  rw [List.length_take]

theorem getLast_take_full (k : Nat) (log : List Nat) (hk : 0 < k) (hlen : k ≤ log.length) :
    ((log.take k).getLast?).getD 0 = log.getD (k - 1) 0 := by
  rw [List.getLast?_eq_getElem?, List.length_take, Nat.min_eq_left hlen,
    List.getElem?_take_of_lt (by omega), List.getD_eq_getElem?_getD]

/-- C1. In every replacer state reached from construction by `RecordAccess`,
`SetEvictable`, `Remove` and `Evict` calls with valid frame ids and non-zero,
non-decreasing timestamps, `Evict` returns; it returns `false` (no frame)
exactly when no tracked frame is evictable; and when it returns a frame `w`,
that frame is evictable and has maximal backward K-distance: if some evictable
frame has fewer than `K` recorded accesses then so has `w`, and if every
evictable frame has at least `K` recorded accesses then the `K`-th most recent
access timestamp of `w` is the minimum over all evictable frames. -/
theorem evict_returns_max_backward_k_distance (r : LRUKReplacer) (log : Nat → List Nat)
    (last : Nat) (h : ReplacerReach r log last) :
    ∃ r1 v, r.Evict = .ok (r1, v) ∧
      (v = none ↔ ∀ f, r.evictable f = false) ∧
      ∀ w, v = some w →
        r.evictable w = true ∧
        ((∃ g, r.evictable g = true ∧ (log g).length < r.k_) → (log w).length < r.k_) ∧
        ((∀ g, r.evictable g = true → r.k_ ≤ (log g).length) →
          ∀ g, r.evictable g = true →
            (log w).getD (r.k_ - 1) 0 ≤ (log g).getD (r.k_ - 1) 0) := by
  obtain ⟨hwf, hlog⟩ := reach_inv h
  by_cases h0 : r.replacer_size_ = 0
  · refine ⟨r, none, Evict_empty r hwf h0, ?_, ?_⟩
    · simp only [true_iff]
      intro f
      cases hs : r.node_store_ f with
      | none => simp [LRUKReplacer.evictable, hs]
      | some nd =>
        rw [evictable_eq r f nd hs]
        cases hev : nd.is_evictable_ with
        | false => rfl
        | true =>
          obtain ⟨hidx, _⟩ := hwf.evictable_slot hs hev
          have := hwf.rsize
          omega
    · intro w hw
      cases hw
  · obtain ⟨f, nd, r1, _, hs, hev, hrun, _, _, _, hmin⟩ := Evict_spec r hwf (by omega)
    have hevf : r.evictable f = true := by rw [evictable_eq r f nd hs, hev]
    -- the rank of an evictable frame in terms of its access log
    have rk : ∀ g, r.evictable g = true → ∃ ng, r.node_store_ g = some ng ∧
        ng.is_evictable_ = true ∧
        ng.rank = toLex (min r.k_ (log g).length,
          toLex ((((log g).take r.k_).getLast?).getD 0, ng.fid_)) := by
      intro g hg
      cases hsg : r.node_store_ g with
      | none => simp [LRUKReplacer.evictable, hsg] at hg
      | some ng =>
        rw [evictable_eq r g ng hsg] at hg
        have := hlog g
        rw [hsg] at this
        exact ⟨ng, rfl, hg, rank_of_log ng r.k_ (log g) this.2.1 this.2.2⟩
    obtain ⟨nd1, hs1, _, hrkf⟩ := rk f hevf
    rw [hs] at hs1
    cases hs1
    refine ⟨r1, some f, hrun, ?_, ?_⟩
    · constructor
      · intro h; cases h
      · intro h
        rw [h f] at hevf
        cases hevf
    · intro w hw
      cases hw
      refine ⟨hevf, ?_, ?_⟩
      · rintro ⟨g, hg, hlt⟩
        obtain ⟨ng, hsg, hgev, hrkg⟩ := rk g hg
        have hle := hmin g ng hsg hgev
        rw [hrkf, hrkg, Prod.Lex.le_iff] at hle
        simp only at hle
        rcases hle with hle | ⟨hle, _⟩ <;> omega
      · intro hall g hg
        obtain ⟨ng, hsg, hgev, hrkg⟩ := rk g hg
        have hle := hmin g ng hsg hgev
        have h1 := hall f hevf
        have h2 := hall g hg
        rw [hrkf, hrkg, Prod.Lex.le_iff] at hle
        simp only [Nat.min_eq_left h1, Nat.min_eq_left h2, lt_irrefl, false_or, true_and] at hle
        rw [Prod.Lex.le_iff] at hle
        simp only at hle
        rw [getLast_take_full r.k_ _ hwf.kpos h1, getLast_take_full r.k_ _ hwf.kpos h2] at hle
        rcases hle with hle | ⟨hle, _⟩ <;> omega

/-! ## The page table -/

theorem ptFind_mem {pt : List (Int × Nat)} {p : Int} {f : Nat} (h : ptFind pt p = some f) :
    (p, f) ∈ pt := by
  induction pt with
  | nil => simp [ptFind] at h
  | cons e rest ih =>
    obtain ⟨q, g⟩ := e
    simp only [ptFind] at h
    by_cases hq : q = p
    · simp only [hq, if_true, Option.some.injEq] at h
      subst hq; subst h
      exact List.mem_cons_self _ _
    · simp only [hq, if_false] at h
      exact List.mem_cons_of_mem _ (ih h)

theorem mem_ptErase {pt : List (Int × Nat)} {p q : Int} {g : Nat} :
    (q, g) ∈ ptErase pt p ↔ (q, g) ∈ pt ∧ q ≠ p := by
  simp [ptErase, List.mem_filter]

theorem mem_ptAssign {pt : List (Int × Nat)} {p q : Int} {f g : Nat} :
    (q, g) ∈ ptAssign pt p f ↔ (q = p ∧ g = f) ∨ ((q, g) ∈ pt ∧ q ≠ p) := by
  simp [ptAssign, mem_ptErase]

theorem ptFind_ptErase (pt : List (Int × Nat)) (p q : Int) :
    ptFind (ptErase pt p) q = if q = p then none else ptFind pt q := by
  induction pt with
  | nil => simp [ptErase, ptFind]
  | cons e rest ih =>
    obtain ⟨a, g⟩ := e
    unfold ptErase at ih ⊢
    rw [List.filter_cons]
    by_cases ha : a = p
    · have hd : decide ((a, g).1 ≠ p) = false := by simp [ha]
      rw [hd]
      simp only [Bool.false_eq_true, if_false]
      rw [ih]
      simp only [ptFind]
      by_cases hq : q = p
      · simp [hq]
      · have : a ≠ q := by rw [ha]; exact Ne.symm hq
        simp [hq, this]
    · have hd : decide ((a, g).1 ≠ p) = true := by simp [ha]
      rw [hd]
      simp only [if_true, ptFind]
      rw [ih]
      by_cases hq : q = p
      · have : a ≠ q := by rw [hq]; exact ha
        simp [hq, ha]
      · simp [hq]

theorem ptFind_ptAssign (pt : List (Int × Nat)) (p q : Int) (f : Nat) :
    ptFind (ptAssign pt p f) q = if q = p then some f else ptFind pt q := by
  simp only [ptAssign, ptFind]
  by_cases hq : q = p
  · simp [hq]
  · simp [hq, Ne.symm hq, ptFind_ptErase]

/-! ## ActOnDirtyBit and the frame-install helpers -/

theorem setPage_self (s : BufferPoolManager) (f : Nat) (d : Disk) (b : Bool)
    (hd : d = s.disk_) (hb : b = (s.pages_ f).is_dirty_) :
    ({ s with disk_ := d } : BufferPoolManager).setPage f { s.pages_ f with is_dirty_ := b }
      = s := by
  subst hd
  subst hb
  unfold BufferPoolManager.setPage
  have : upd s.pages_ f (s.pages_ f) = s.pages_ := by
    funext j
    simp only [upd]
    split_ifs with h
    · rw [h]
    · rfl
  show ({ s with pages_ := upd s.pages_ f (s.pages_ f) } : BufferPoolManager) = s
  rw [this]

theorem ActOnDirtyBit_eq (s : BufferPoolManager) (f : Nat) :
    s.ActOnDirtyBit f =
      .ok (({ s with disk_ := s.writeBack f } : BufferPoolManager).setPage f
            { s.pages_ f with
              is_dirty_ := decide ((s.pages_ f).page_id_ = INVALID_PAGE_ID) &&
                (s.pages_ f).is_dirty_ }) := by
  by_cases h1 : (s.pages_ f).page_id_ = INVALID_PAGE_ID
  · rw [setPage_self s f _ _ (by simp [BufferPoolManager.writeBack, h1]) (by simp [h1])]
    simp [BufferPoolManager.ActOnDirtyBit, h1]
  · by_cases h2 : (s.pages_ f).is_dirty_ = true
    · simp [BufferPoolManager.ActOnDirtyBit, BufferPoolManager.writeBack, h1, h2,
        DiskScheduler.process]
    · have h3 : (s.pages_ f).is_dirty_ = false := by
        cases h : (s.pages_ f).is_dirty_ with
        | true => exact absurd h h2
        | false => rfl
      rw [setPage_self s f _ _ (by simp [BufferPoolManager.writeBack, h3]) (by simp [h3])]
      simp [BufferPoolManager.ActOnDirtyBit, h1, h3]

theorem RecordAccess_untracked (r : LRUKReplacer) (f now : Nat) (hwf : r.WF)
    (hf : f < r.total_num_frames) (hst : r.node_store_ f = none) :
    r.RecordAccess f now = .ok (r.tracking f now) := by
  have hvalid : r.validityOfFrame f = true := by
    simp [LRUKReplacer.validityOfFrame]; omega
  simp [LRUKReplacer.RecordAccess, hvalid, hwf.rsize, hst, LRUKReplacer.tracking]

theorem tracking_WF (r : LRUKReplacer) (f now : Nat) (hwf : r.WF)
    (hf : f < r.total_num_frames) (hst : r.node_store_ f = none) (hnow : now ≠ 0) :
    (r.tracking f now).WF := by
  obtain ⟨r1, hrun, hpost, _⟩ := RecordAccess_spec r f now hwf hf hnow
  rw [RecordAccess_untracked r f now hwf hf hst] at hrun
  cases hrun
  exact hpost.wf

theorem tracking_SetEvictable (r : LRUKReplacer) (f now : Nat) (hwf : r.WF)
    (hf : f < r.total_num_frames) (hst : r.node_store_ f = none) (hnow : now ≠ 0) :
    (r.tracking f now).SetEvictable f false = .ok (r.tracking f now) := by
  apply SetEvictable_same (r.tracking f now) f false
    ((LRUKNode.new r.k_ f).enterCurrentTimeStamp now) (tracking_WF r f now hwf hf hst hnow) hf
  · simp [LRUKReplacer.tracking]
  · rfl

theorem ProceesOfNewPage_eq (s : BufferPoolManager) (f now : Nat) (hpre : s.PreInstall f)
    (hnow : now ≠ 0) :
    s.ProceesOfNewPage f now =
      .ok (s.installed f s.next_page_id_ (List.replicate (s.pages_ f).data_.length 0)
            (s.writeBack f) (s.next_page_id_ + 1) now, s.next_page_id_) := by
  have hvalid : s.validityOfFrame f = true := by
    simp [BufferPoolManager.validityOfFrame]; exact hpre.valid
  have hf : f < s.replacer_.total_num_frames := by rw [hpre.total]; exact hpre.valid
  unfold BufferPoolManager.ProceesOfNewPage
  simp only [hvalid, ne_eq, not_true_eq_false, if_false, hpre.unpinned, ActOnDirtyBit_eq,
    BufferPoolManager.setPage, upd_same,
    RecordAccess_untracked s.replacer_ f now hpre.wf hf hpre.untracked,
    tracking_SetEvictable s.replacer_ f now hpre.wf hf hpre.untracked hnow,
    BufferPoolManager.installed, Page.ResetMemoryData]
  congr 3
  funext j
  simp only [upd]
  split_ifs <;> rfl

theorem ProceesOfFetchPage_eq (s : BufferPoolManager) (f : Nat) (page_id : Int) (now : Nat)
    (hpre : s.PreInstall f) (hnow : now ≠ 0) :
    s.ProceesOfFetchPage f page_id now =
      .ok (s.installed f page_id ((s.writeBack f).contents page_id)
            ((s.writeBack f).ReadPage page_id).1 s.next_page_id_ now) := by
  have hvalid : s.validityOfFrame f = true := by
    simp [BufferPoolManager.validityOfFrame]; exact hpre.valid
  have hf : f < s.replacer_.total_num_frames := by rw [hpre.total]; exact hpre.valid
  unfold BufferPoolManager.ProceesOfFetchPage
  simp only [hvalid, ne_eq, not_true_eq_false, if_false, hpre.unpinned, ActOnDirtyBit_eq,
    BufferPoolManager.setPage, upd_same, DiskScheduler.process, Bool.false_eq_true,
    RecordAccess_untracked s.replacer_ f now hpre.wf hf hpre.untracked,
    tracking_SetEvictable s.replacer_ f now hpre.wf hf hpre.untracked hnow,
    BufferPoolManager.installed, Disk.ReadPage]
  congr 2
  funext j
  simp only [upd]
  split_ifs <;> rfl

/-! ## The manager's invariant -/

theorem tracking_store (r : LRUKReplacer) (f now g : Nat) :
    (r.tracking f now).node_store_ g =
      if g = f then some ((LRUKNode.new r.k_ f).enterCurrentTimeStamp now)
      else r.node_store_ g := by
  simp [LRUKReplacer.tracking, upd]

theorem installed_Inv (s : BufferPoolManager) (f : Nat) (page_id : Int) (data : List Nat)
    (disk : Disk) (next : Int) (now : Nat) (hpre : s.PreInstall f) (hnow : now ≠ 0) :
    (s.installed f page_id data disk next now).Inv := by
  have hf : f < s.replacer_.total_num_frames := by rw [hpre.total]; exact hpre.valid
  refine ⟨tracking_WF s.replacer_ f now hpre.wf hf hpre.untracked hnow, hpre.total,
    hpre.free_nodup, ?_, ?_, ?_⟩
  · intro g hg
    have hgf : g ≠ f := fun e => hpre.not_free (e ▸ hg)
    obtain ⟨h1, h2, h3, h4⟩ := hpre.free g hg
    simp only [BufferPoolManager.installed, tracking_store, upd, hgf, if_false]
    exact ⟨h1, h2, h3, h4⟩
  · intro g nd hg
    simp only [BufferPoolManager.installed, tracking_store] at hg
    simp only [BufferPoolManager.installed, upd]
    by_cases hgf : g = f
    · simp only [hgf, if_true, Option.some.injEq] at hg
      subst hg
      simp [hgf, LRUKNode.new, LRUKNode.enterCurrentTimeStamp]
    · simp only [hgf, if_false] at hg ⊢
      exact hpre.evictable_iff g nd hg
  · intro q g hq
    simp only [BufferPoolManager.installed] at hq
    rcases mem_ptAssign.mp hq with ⟨e1, e2⟩ | ⟨hmem, _⟩
    · subst e1; subst e2
      simp [BufferPoolManager.installed, tracking_store, upd, hpre.valid]
    · obtain ⟨hmem2, hne⟩ := mem_ptErase.mp hmem
      obtain ⟨h1, h2, h3⟩ := hpre.table q g hmem2
      have hgf : g ≠ f := by
        intro e
        subst e
        exact hne h3.symm
      simp only [BufferPoolManager.installed, tracking_store, upd, hgf, if_false]
      exact ⟨h1, h2 hgf, h3⟩

theorem Inv_new (pool_size : Nat) (disk : Disk) (k page_size : Nat) (hk : 0 < k) :
    (BufferPoolManager.new pool_size disk k page_size).Inv := by
  refine ⟨WF_new pool_size k hk, rfl, List.nodup_range pool_size, ?_, ?_, ?_⟩
  · intro f hf
    simp only [BufferPoolManager.new, List.mem_range] at hf
    simp [BufferPoolManager.new, LRUKReplacer.new, hf]
  · intro f nd h
    simp [BufferPoolManager.new, LRUKReplacer.new] at h
  · intro p f h
    simp [BufferPoolManager.new] at h

theorem Picked.preInstall {s s0 : BufferPoolManager} {f : Nat} (hinv : s.Inv)
    (h : Picked s f s0) : s0.PreInstall f := by
  rcases h with ⟨rest, hfl, rfl⟩ | ⟨hfl, r1, hev, rfl⟩
  · have hnd := hinv.free_nodup
    rw [hfl] at hnd
    have hmem : ∀ g, g ∈ rest → g ∈ s.free_list_ := by
      intro g hg
      rw [hfl]
      exact List.mem_cons_of_mem _ hg
    obtain ⟨h1, h2, h3, _⟩ := hinv.free f (by rw [hfl]; exact List.mem_cons_self _ _)
    exact
      { wf := hinv.wf
        total := hinv.total
        free_nodup := (List.nodup_cons.mp hnd).2
        free := fun g hg => hinv.free g (hmem g hg)
        evictable_iff := hinv.evictable_iff
        table := fun p g hp =>
          ⟨(hinv.table p g hp).1, fun _ => (hinv.table p g hp).2.1, (hinv.table p g hp).2.2⟩
        valid := h1
        unpinned := h3
        untracked := h2
        not_free := (List.nodup_cons.mp hnd).1 }
  · have hpos : 0 < s.replacer_.replacer_size_ := by
      by_contra h0
      rw [Evict_empty s.replacer_ hinv.wf (by omega)] at hev
      cases hev
    obtain ⟨f2, nd, r2, _, hs, hflag, hrun, hpost, _, hnone, _⟩ :=
      Evict_spec s.replacer_ hinv.wf hpos
    rw [hrun] at hev
    cases hev
    have hfv : f < s.pool_size_ := by
      rw [← hinv.total]
      exact (hinv.wf.nodes f nd hs).2.1
    exact
      { wf := hpost.wf
        total := hpost.total_eq.trans hinv.total
        free_nodup := by simp [hfl]
        free := by
          intro g hg
          simp [hfl] at hg
        evictable_iff := by
          intro g nd1 hg
          have hgf : g ≠ f := by
            intro e
            subst e
            rw [hnone] at hg
            cases hg
          obtain ⟨nd0, hs0, hc⟩ := core_some (hpost.others g hgf) hg
          rw [(core_fields hc).2.2.2]
          exact hinv.evictable_iff g nd0 hs0
        table := by
          intro p g hp
          obtain ⟨h1, h2, h3⟩ := hinv.table p g hp
          refine ⟨h1, ?_, h3⟩
          intro hgf hn
          have := core_none (hpost.others g hgf) hn
          exact h2 this
        valid := hfv
        unpinned := (hinv.evictable_iff f nd hs).mp hflag
        untracked := hnone
        not_free := by simp [hfl] }

theorem Picked.keeps {s s0 : BufferPoolManager} {f : Nat} (h : Picked s f s0) :
    s0.pages_ = s.pages_ ∧ s0.page_table_ = s.page_table_ ∧ s0.disk_ = s.disk_ ∧
      s0.next_page_id_ = s.next_page_id_ ∧ s0.pool_size_ = s.pool_size_ := by
  rcases h with ⟨rest, _, rfl⟩ | ⟨_, r1, _, rfl⟩ <;> exact ⟨rfl, rfl, rfl, rfl, rfl⟩

theorem pick_total (s : BufferPoolManager) (hinv : s.Inv) :
    (∃ f s0, Picked s f s0) ∨
      (s.free_list_ = [] ∧ s.replacer_.replacer_size_ = 0 ∧
        s.replacer_.Evict = .ok (s.replacer_, none)) := by
  cases hfl : s.free_list_ with
  | cons f rest => exact Or.inl ⟨f, _, Or.inl ⟨rest, hfl, rfl⟩⟩
  | nil =>
    by_cases h0 : s.replacer_.replacer_size_ = 0
    · exact Or.inr ⟨rfl, h0, Evict_empty s.replacer_ hinv.wf h0⟩
    · obtain ⟨f, nd, r1, _, _, _, hrun, _⟩ := Evict_spec s.replacer_ hinv.wf (by omega)
      exact Or.inl ⟨f, _, Or.inr ⟨hfl, r1, hrun, rfl⟩⟩

theorem NewPage_of_picked (s s0 : BufferPoolManager) (f now : Nat) (hinv : s.Inv)
    (hp : Picked s f s0) (hnow : now ≠ 0) :
    s.NewPage now =
      .ok (s0.installed f s.next_page_id_ (List.replicate (s.pages_ f).data_.length 0)
            (s0.writeBack f) (s.next_page_id_ + 1) now, some (s.next_page_id_, f)) := by
  have hpre := hp.preInstall hinv
  have heq := ProceesOfNewPage_eq s0 f now hpre hnow
  obtain ⟨e1, _, _, e4, _⟩ := hp.keeps
  rw [e1, e4] at heq
  rcases hp with ⟨rest, hfl, rfl⟩ | ⟨hfl, r1, hev, rfl⟩
  · simp only [BufferPoolManager.NewPage, hfl, heq]
  · simp only [hfl] at heq
    simp only [BufferPoolManager.NewPage, hfl, hev, heq]

theorem NewPage_none (s : BufferPoolManager) (now : Nat) (hfl : s.free_list_ = [])
    (hev : s.replacer_.Evict = .ok (s.replacer_, none)) :
    s.NewPage now = .ok (s, none) := by
  unfold BufferPoolManager.NewPage
  rw [hev]
  split
  · rfl
  · rename_i f rest h
    rw [hfl] at h
    cases h

theorem FetchPage_of_picked (s s0 : BufferPoolManager) (f : Nat) (page_id : Int) (now : Nat)
    (hinv : s.Inv) (hmiss : ptFind s.page_table_ page_id = none) (hp : Picked s f s0)
    (hnow : now ≠ 0) :
    s.FetchPage page_id now =
      .ok (s0.installed f page_id ((s0.writeBack f).contents page_id)
            ((s0.writeBack f).ReadPage page_id).1 s.next_page_id_ now, some f) := by
  have hpre := hp.preInstall hinv
  have heq := ProceesOfFetchPage_eq s0 f page_id now hpre hnow
  obtain ⟨_, _, _, e4, _⟩ := hp.keeps
  rw [e4] at heq
  rcases hp with ⟨rest, hfl, rfl⟩ | ⟨hfl, r1, hev, rfl⟩
  · simp only [BufferPoolManager.FetchPage, hmiss, hfl, heq]
  · simp only [hfl] at heq
    simp only [BufferPoolManager.FetchPage, hmiss, hfl, hev, heq]

theorem FetchPage_none (s : BufferPoolManager) (page_id : Int) (now : Nat)
    (hmiss : ptFind s.page_table_ page_id = none) (hfl : s.free_list_ = [])
    (hev : s.replacer_.Evict = .ok (s.replacer_, none)) :
    s.FetchPage page_id now = .ok (s, none) := by
  unfold BufferPoolManager.FetchPage
  rw [hev, hmiss]
  simp only
  split
  · rfl
  · rename_i f rest h
    rw [hfl] at h
    cases h

theorem DirtyOnly.none (s : BufferPoolManager) : DirtyOnly s s :=
  ⟨rfl, rfl, rfl, rfl, rfl, fun _ => ⟨rfl, rfl, rfl⟩⟩

theorem DirtyOnly.compose {s s1 s2 : BufferPoolManager} (h1 : DirtyOnly s s1)
    (h2 : DirtyOnly s1 s2) : DirtyOnly s s2 := by
  obtain ⟨a1, a2, a3, a4, a5, a6⟩ := h1
  obtain ⟨b1, b2, b3, b4, b5, b6⟩ := h2
  refine ⟨b1.trans a1, b2.trans a2, b3.trans a3, b4.trans a4, b5.trans a5, ?_⟩
  intro g
  exact ⟨(b6 g).1.trans (a6 g).1, (b6 g).2.1.trans (a6 g).2.1, (b6 g).2.2.trans (a6 g).2.2⟩

theorem DirtyOnly.keepsInv {s s1 : BufferPoolManager} (h : DirtyOnly s s1) (hinv : s.Inv) :
    s1.Inv := by
  obtain ⟨a1, a2, a3, a4, a5, a6⟩ := h
  refine ⟨by rw [a2]; exact hinv.wf, by rw [a2, a1]; exact hinv.total,
    by rw [a3]; exact hinv.free_nodup, ?_, ?_, ?_⟩
  · intro f hf
    rw [a3] at hf
    rw [a1, a2, (a6 f).1, (a6 f).2.1]
    exact hinv.free f hf
  · intro f nd hf
    rw [a2] at hf
    rw [(a6 f).1]
    exact hinv.evictable_iff f nd hf
  · intro p f hp
    rw [a4] at hp
    rw [a1, a2, (a6 f).2.1]
    exact hinv.table p f hp

theorem DirtyOnly.setDirty (s : BufferPoolManager) (f : Nat) (b : Bool) :
    DirtyOnly s (s.setPage f { s.pages_ f with is_dirty_ := b }) := by
  refine ⟨rfl, rfl, rfl, rfl, rfl, ?_⟩
  intro g
  simp only [BufferPoolManager.setPage, upd]
  by_cases h : g = f
  · subst h; simp
  · simp [h]

theorem ActOnDirtyBit_dirtyOnly (s s1 : BufferPoolManager) (f : Nat)
    (h : s.ActOnDirtyBit f = .ok s1) : DirtyOnly s s1 := by
  rw [ActOnDirtyBit_eq] at h
  cases h
  refine ⟨rfl, rfl, rfl, rfl, rfl, ?_⟩
  intro g
  simp only [BufferPoolManager.setPage, upd]
  by_cases h : g = f
  · subst h; simp
  · simp [h]

theorem FlushPage_dirtyOnly (s s1 : BufferPoolManager) (p : Int) (res : Bool)
    (h : s.FlushPage p = .ok (s1, res)) : DirtyOnly s s1 := by
  unfold BufferPoolManager.FlushPage at h
  by_cases hp : p = INVALID_PAGE_ID
  · simp only [hp, if_true] at h
    cases h
    exact DirtyOnly.none s
  · simp only [hp, if_false] at h
    cases hf : ptFind s.page_table_ p with
    | none =>
      rw [hf] at h
      cases h
      exact DirtyOnly.none s
    | some f =>
      rw [hf] at h
      simp only [ActOnDirtyBit_eq] at h
      cases h
      exact (DirtyOnly.setDirty s f true).compose
        (ActOnDirtyBit_dirtyOnly _ _ f (ActOnDirtyBit_eq _ f))

theorem flushAllLoop_dirtyOnly (l : List (Int × Nat)) :
    ∀ (s s1 : BufferPoolManager), flushAllLoop l s = .ok s1 → DirtyOnly s s1 := by
  induction l with
  | nil =>
    intro s s1 h
    simp only [flushAllLoop] at h
    cases h
    exact DirtyOnly.none s
  | cons e rest ih =>
    intro s s1 h
    obtain ⟨p, f⟩ := e
    simp only [flushAllLoop] at h
    by_cases hv : s.validityOfFrame f = true
    · simp only [hv, ne_eq, not_true_eq_false, if_false] at h
      by_cases hp : p = INVALID_PAGE_ID
      · simp only [hp, if_true] at h
        exact ih s s1 h
      · simp only [hp, if_false, ActOnDirtyBit_eq] at h
        exact ((DirtyOnly.setDirty s f true).compose
          (ActOnDirtyBit_dirtyOnly _ _ f (ActOnDirtyBit_eq _ f))).compose (ih _ s1 h)
    · simp only [hv, ne_eq, not_false_eq_true, if_true] at h
      cases h

/-! ## FetchPage on a resident page, UnpinPage, DeletePage -/

theorem FetchPage_hit_run (s : BufferPoolManager) (p : Int) (f now : Nat) (hinv : s.Inv)
    (hfind : ptFind s.page_table_ p = some f) (hnow : now ≠ 0) :
    ∃ r1 nd, s.replacer_.node_store_ f = some nd ∧
      s.replacer_.RecordAccess f now = .ok r1 ∧ OpPost s.replacer_ r1 f ∧
      (r1.node_store_ f).map LRUKNode.core = some (nd.enterCurrentTimeStamp now).core ∧
      s.FetchPage p now =
        (match r1.SetEvictable f false with
          | .error e => Except.error e
          | .ok r2 =>
            .ok ({ s with pages_ := upd s.pages_ f
                            { s.pages_ f with pin_count_ := (s.pages_ f).pin_count_ + 1 },
                          replacer_ := r2 }, some f)) := by
  obtain ⟨hfv, htr, _⟩ := hinv.table p f (ptFind_mem hfind)
  have hf : f < s.replacer_.total_num_frames := by rw [hinv.total]; exact hfv
  obtain ⟨nd, hnd⟩ : ∃ nd, s.replacer_.node_store_ f = some nd := by
    cases h : s.replacer_.node_store_ f with
    | none => exact absurd h htr
    | some nd => exact ⟨nd, rfl⟩
  obtain ⟨r1, hrun, hpost, _, hcore⟩ := RecordAccess_spec s.replacer_ f now hinv.wf hf hnow
  rw [hnd] at hcore
  refine ⟨r1, nd, hnd, hrun, hpost, hcore, ?_⟩
  have hvalid : s.validityOfFrame f = true := by
    simp [BufferPoolManager.validityOfFrame]; exact hfv
  simp only [BufferPoolManager.FetchPage, hfind, hvalid, ne_eq, not_true_eq_false, if_false,
    BufferPoolManager.setPage, hrun]

theorem FetchPage_hit_inv (s : BufferPoolManager) (f now : Nat) (r1 r2 : LRUKReplacer)
    (nd : LRUKNode) (hinv : s.Inv) (hfv : f < s.pool_size_)
    (hnd : s.replacer_.node_store_ f = some nd)
    (hpost1 : OpPost s.replacer_ r1 f)
    (hcore1 : (r1.node_store_ f).map LRUKNode.core = some (nd.enterCurrentTimeStamp now).core)
    (hrun2 : r1.SetEvictable f false = .ok r2) :
    ({ s with pages_ := upd s.pages_ f
                { s.pages_ f with pin_count_ := (s.pages_ f).pin_count_ + 1 },
              replacer_ := r2 } : BufferPoolManager).Inv ∧
      r2.evictable f = false := by
  have hf1 : f < r1.total_num_frames := by rw [hpost1.total_eq, hinv.total]; exact hfv
  obtain ⟨hpost2, hcore2, _⟩ := SetEvictable_false_ok r1 r2 f hpost1.wf hf1 hrun2
  obtain ⟨nd1, hs1, hc1⟩ : ∃ nd1, r1.node_store_ f = some nd1 ∧
      nd1.core = (nd.enterCurrentTimeStamp now).core := by
    cases h : r1.node_store_ f with
    | none => rw [h] at hcore1; simp at hcore1
    | some nd1 =>
      rw [h] at hcore1
      simp only [Option.map_some', Option.some.injEq] at hcore1
      exact ⟨nd1, rfl, hcore1⟩
  rw [hs1] at hcore2
  obtain ⟨nd2, hs2, hc2⟩ : ∃ nd2, r2.node_store_ f = some nd2 ∧
      nd2.core = ({ nd1 with is_evictable_ := false } : LRUKNode).core := by
    cases h : r2.node_store_ f with
    | none => rw [h] at hcore2; simp at hcore2
    | some nd2 =>
      rw [h] at hcore2
      simp only [Option.map_some', Option.some.injEq] at hcore2
      exact ⟨nd2, rfl, hcore2⟩
  have hflag2 : nd2.is_evictable_ = false := (core_fields hc2).2.2.2
  have hothers : ∀ g, g ≠ f → (r2.node_store_ g).map LRUKNode.core
      = (s.replacer_.node_store_ g).map LRUKNode.core :=
    fun g hg => (hpost2.others g hg).trans (hpost1.others g hg)
  refine ⟨⟨hpost2.wf, ?_, hinv.free_nodup, ?_, ?_, ?_⟩, by rw [evictable_eq r2 f nd2 hs2, hflag2]⟩
  · show r2.total_num_frames = s.pool_size_
    rw [hpost2.total_eq, hpost1.total_eq, hinv.total]
  · intro g hg
    obtain ⟨h1, h2, h3, h4⟩ := hinv.free g hg
    have hgf : g ≠ f := by
      intro e
      subst e
      rw [hnd] at h2
      cases h2
    refine ⟨h1, core_none (hothers g hgf).symm h2, ?_, ?_⟩
    · simp only [upd, hgf, if_false]; exact h3
    · simp only [upd, hgf, if_false]; exact h4
  · intro g ng hg
    simp only at hg
    by_cases hgf : g = f
    · subst hgf
      rw [hs2] at hg
      cases hg
      simp [upd, hflag2]
    · obtain ⟨n0, hs0, hc0⟩ := core_some (hothers g hgf) hg
      rw [(core_fields hc0).2.2.2]
      simp only [upd, hgf, if_false]
      exact hinv.evictable_iff g n0 hs0
  · intro q g hq
    obtain ⟨h1, h2, h3⟩ := hinv.table q g hq
    refine ⟨h1, ?_, ?_⟩
    · simp only
      by_cases hgf : g = f
      · subst hgf
        rw [hs2]
        simp
      · intro hn
        exact h2 (core_none (hothers g hgf) hn)
    · simp only [upd]
      by_cases hgf : g = f
      · subst hgf; simp [h3]
      · simp [hgf, h3]

theorem FetchPage_hit_pinned (s : BufferPoolManager) (p : Int) (f now : Nat) (hinv : s.Inv)
    (hfind : ptFind s.page_table_ p = some f) (hpin : 0 < (s.pages_ f).pin_count_)
    (hnow : now ≠ 0) :
    ∃ r2, s.FetchPage p now =
        .ok ({ s with pages_ := upd s.pages_ f
                        { s.pages_ f with pin_count_ := (s.pages_ f).pin_count_ + 1 },
                      replacer_ := r2 }, some f) ∧
      ({ s with pages_ := upd s.pages_ f
                  { s.pages_ f with pin_count_ := (s.pages_ f).pin_count_ + 1 },
                replacer_ := r2 } : BufferPoolManager).Inv ∧
      r2.evictable f = false := by
  obtain ⟨hfv, _, _⟩ := hinv.table p f (ptFind_mem hfind)
  obtain ⟨r1, nd, hnd, hrun1, hpost1, hcore1, hrun⟩ := FetchPage_hit_run s p f now hinv hfind hnow
  have hflag : nd.is_evictable_ = false := by
    cases h : nd.is_evictable_ with
    | false => rfl
    | true =>
      have := (hinv.evictable_iff f nd hnd).mp h
      omega
  obtain ⟨nd1, hs1, hc1⟩ : ∃ nd1, r1.node_store_ f = some nd1 ∧
      nd1.core = (nd.enterCurrentTimeStamp now).core := by
    cases h : r1.node_store_ f with
    | none => rw [h] at hcore1; simp at hcore1
    | some nd1 =>
      rw [h] at hcore1
      simp only [Option.map_some', Option.some.injEq] at hcore1
      exact ⟨nd1, rfl, hcore1⟩
  have hflag1 : nd1.is_evictable_ = false := by
    rw [(core_fields hc1).2.2.2]
    exact hflag
  have hf1 : f < r1.total_num_frames := by rw [hpost1.total_eq, hinv.total]; exact hfv
  have hrun2 := SetEvictable_same r1 f false nd1 hpost1.wf hf1 hs1 hflag1
  rw [hrun2] at hrun
  obtain ⟨h1, h2⟩ := FetchPage_hit_inv s f now r1 r1 nd hinv hfv hnd hpost1 hcore1 hrun2
  exact ⟨r1, hrun, h1, h2⟩

theorem UnpinPage_fail (s : BufferPoolManager) (p : Int) (b : Bool)
    (h : ptFind s.page_table_ p = none ∨
      ∃ f, ptFind s.page_table_ p = some f ∧ (s.pages_ f).pin_count_ = 0) :
    s.UnpinPage p b = .ok (s, false) := by
  rcases h with h | ⟨f, h1, h2⟩
  · simp [BufferPoolManager.UnpinPage, h]
  · simp [BufferPoolManager.UnpinPage, h1, h2]

theorem upd_upd {α : Type} (m : Nat → α) (i : Nat) (v w : α) :
    upd (upd m i v) i w = upd m i w := by
  funext j
  simp only [upd]
  split_ifs <;> rfl

theorem UnpinPage_spec (s : BufferPoolManager) (p : Int) (b : Bool) (f : Nat) (hinv : s.Inv)
    (hfind : ptFind s.page_table_ p = some f) (hpin : 0 < (s.pages_ f).pin_count_) :
    ∃ r1, s.UnpinPage p b =
        .ok ({ s with pages_ := upd s.pages_ f
                        { s.pages_ f with pin_count_ := (s.pages_ f).pin_count_ - 1,
                                          is_dirty_ := b },
                      replacer_ := r1 }, true) ∧
      ({ s with pages_ := upd s.pages_ f
                  { s.pages_ f with pin_count_ := (s.pages_ f).pin_count_ - 1,
                                    is_dirty_ := b },
                replacer_ := r1 } : BufferPoolManager).Inv ∧
      (r1.evictable f = true ↔ (s.pages_ f).pin_count_ - 1 = 0) ∧
      r1.tracked f = true ∧
      (∀ g, g ≠ f → (r1.node_store_ g).map LRUKNode.core
        = (s.replacer_.node_store_ g).map LRUKNode.core) := by
  obtain ⟨hfv, htr, _⟩ := hinv.table p f (ptFind_mem hfind)
  have hf : f < s.replacer_.total_num_frames := by rw [hinv.total]; exact hfv
  obtain ⟨nd, hnd⟩ : ∃ nd, s.replacer_.node_store_ f = some nd := by
    cases h : s.replacer_.node_store_ f with
    | none => exact absurd h htr
    | some nd => exact ⟨nd, rfl⟩
  have hflag : nd.is_evictable_ = false := by
    cases h : nd.is_evictable_ with
    | false => rfl
    | true =>
      have := (hinv.evictable_iff f nd hnd).mp h
      omega
  -- the replacer after the call, and what is known about it
  obtain ⟨r1, hr1, hpost, hcoref, hevf⟩ : ∃ r1,
      (if (s.pages_ f).pin_count_ - 1 = 0 then s.replacer_.SetEvictable f true
        else .ok s.replacer_) = .ok r1 ∧ OpPost s.replacer_ r1 f ∧
      (∃ nd1, r1.node_store_ f = some nd1 ∧
        (nd1.is_evictable_ = true ↔ (s.pages_ f).pin_count_ - 1 = 0)) ∧ True := by
    by_cases h0 : (s.pages_ f).pin_count_ - 1 = 0
    · obtain ⟨r1, hrun, hpost, _, hcore⟩ := SetEvictable_true_spec s.replacer_ f nd hinv.wf hf hnd hflag
      refine ⟨r1, by simp only [h0, if_true]; exact hrun, hpost, ?_, trivial⟩
      cases h : r1.node_store_ f with
      | none => rw [h] at hcore; simp at hcore
      | some nd1 =>
        rw [h] at hcore
        simp only [Option.map_some', Option.some.injEq] at hcore
        refine ⟨nd1, rfl, ?_⟩
        rw [(core_fields hcore).2.2.2]
        simp [h0]
    · refine ⟨s.replacer_, by simp only [h0, if_false], OpPost.unchanged _ f hinv.wf,
        ⟨nd, hnd, ?_⟩, trivial⟩
      rw [hflag]
      simp [h0]
  obtain ⟨nd1, hs1, hflag1⟩ := hcoref
  have hne : ¬ (s.pages_ f).pin_count_ ≤ 0 := by omega
  refine ⟨r1, ?_, ?_, ?_, ?_, hpost.others⟩
  · simp only [BufferPoolManager.UnpinPage, hfind, hne, if_false, BufferPoolManager.setPage,
      upd_same, hr1, upd_upd]
  · refine ⟨hpost.wf, hpost.total_eq.trans hinv.total, hinv.free_nodup, ?_, ?_, ?_⟩
    · intro g hg
      obtain ⟨h1, h2, h3, h4⟩ := hinv.free g hg
      have hgf : g ≠ f := by
        intro e
        subst e
        rw [hnd] at h2
        cases h2
      refine ⟨h1, core_none (hpost.others g hgf).symm h2, ?_, ?_⟩
      · simp only [upd, hgf, if_false]; exact h3
      · simp only [upd, hgf, if_false]; exact h4
    · intro g ng hg
      simp only at hg
      by_cases hgf : g = f
      · subst hgf
        rw [hs1] at hg
        cases hg
        simp only [upd_same]
        exact hflag1
      · obtain ⟨n0, hs0, hc0⟩ := core_some (hpost.others g hgf) hg
        rw [(core_fields hc0).2.2.2]
        simp only [upd, hgf, if_false]
        exact hinv.evictable_iff g n0 hs0
    · intro q g hq
      obtain ⟨h1, h2, h3⟩ := hinv.table q g hq
      refine ⟨h1, ?_, ?_⟩
      · simp only
        by_cases hgf : g = f
        · subst hgf
          rw [hs1]
          simp
        · intro hn
          exact h2 (core_none (hpost.others g hgf) hn)
      · simp only [upd]
        by_cases hgf : g = f
        · subst hgf; simp [h3]
        · simp [hgf, h3]
  · rw [evictable_eq r1 f nd1 hs1]
    exact hflag1
  · simp [LRUKReplacer.tracked, hs1]

theorem DeletePage_absent (s : BufferPoolManager) (p : Int)
    (h : p = INVALID_PAGE_ID ∨ ptFind s.page_table_ p = none) :
    s.DeletePage p = .ok (s, false) := by
  unfold BufferPoolManager.DeletePage
  rcases h with h | h
  · simp [h]
  · by_cases hp : p = INVALID_PAGE_ID
    · simp [hp]
    · simp [hp, h]

theorem DeletePage_pinned (s : BufferPoolManager) (p : Int) (f : Nat)
    (hfind : ptFind s.page_table_ p = some f) (hpin : 0 < (s.pages_ f).pin_count_) :
    s.DeletePage p = .ok (s, false) := by
  unfold BufferPoolManager.DeletePage
  by_cases hp : p = INVALID_PAGE_ID
  · simp [hp]
  · simp [hp, hfind, hpin]

theorem DeletePage_run (s : BufferPoolManager) (p : Int) (f : Nat)
    (hp : p ≠ INVALID_PAGE_ID) (hfind : ptFind s.page_table_ p = some f)
    (hpin : (s.pages_ f).pin_count_ = 0) :
    s.DeletePage p =
      (match s.replacer_.Remove f with
        | .error e => Except.error e
        | .ok r1 => .ok (s.deleted f p r1, false)) := by
  unfold BufferPoolManager.DeletePage
  simp only [hp, if_false, hfind, hpin, gt_iff_lt, lt_irrefl, ActOnDirtyBit_eq,
    BufferPoolManager.setPage]
  cases hr : s.replacer_.Remove f with
  | error e => rfl
  | ok r1 =>
    simp only [upd_same, Page.ResetMemoryData, upd_upd, BufferPoolManager.deleted]

theorem deleted_Inv (s : BufferPoolManager) (p : Int) (f : Nat) (r1 : LRUKReplacer)
    (hinv : s.Inv) (hfind : ptFind s.page_table_ p = some f)
    (hrun : s.replacer_.Remove f = .ok r1) : (s.deleted f p r1).Inv := by
  obtain ⟨hfv, htr, hpid⟩ := hinv.table p f (ptFind_mem hfind)
  have hf : f < s.replacer_.total_num_frames := by rw [hinv.total]; exact hfv
  obtain ⟨_, hpost, _, hnone⟩ := Remove_ok s.replacer_ r1 f hinv.wf hf hrun
  have hnotfree : f ∉ s.free_list_ := fun h => htr (hinv.free f h).2.1
  refine ⟨hpost.wf, hpost.total_eq.trans hinv.total, ?_, ?_, ?_, ?_⟩
  · simp only [BufferPoolManager.deleted]
    rw [List.nodup_append]
    refine ⟨hinv.free_nodup, List.nodup_singleton f, ?_⟩
    intro a ha hb
    simp only [List.mem_singleton] at hb
    subst hb
    exact hnotfree ha
  · intro g hg
    simp only [BufferPoolManager.deleted, List.mem_append, List.mem_singleton] at hg
    simp only [BufferPoolManager.deleted, upd]
    by_cases hgf : g = f
    · subst hgf
      simp [hfv, hnone]
    · rcases hg with hg | hg
      · obtain ⟨h1, h2, h3, h4⟩ := hinv.free g hg
        simp only [hgf, if_false]
        exact ⟨h1, core_none (hpost.others g hgf).symm h2, h3, h4⟩
      · exact absurd hg hgf
  · intro g ng hg
    simp only [BufferPoolManager.deleted] at hg
    have hgf : g ≠ f := by
      intro e
      subst e
      rw [hnone] at hg
      cases hg
    obtain ⟨n0, hs0, hc0⟩ := core_some (hpost.others g hgf) hg
    rw [(core_fields hc0).2.2.2]
    simp only [BufferPoolManager.deleted, upd, hgf, if_false]
    exact hinv.evictable_iff g n0 hs0
  · intro q g hq
    simp only [BufferPoolManager.deleted] at hq
    obtain ⟨hmem, hne⟩ := mem_ptErase.mp hq
    obtain ⟨h1, h2, h3⟩ := hinv.table q g hmem
    have hgf : g ≠ f := by
      intro e
      subst e
      rw [hpid] at h3
      exact hne h3.symm
    simp only [BufferPoolManager.deleted, upd, hgf, if_false]
    refine ⟨h1, ?_, h3⟩
    intro hn
    exact h2 (core_none (hpost.others g hgf) hn)

/-! ## Every reachable manager state satisfies the invariant -/

theorem NewPage_inv (s s1 : BufferPoolManager) (now : Nat) (res : Option (Int × Nat))
    (hinv : s.Inv) (hnow : now ≠ 0) (hrun : s.NewPage now = .ok (s1, res)) : s1.Inv := by
  rcases pick_total s hinv with ⟨f, s0, hp⟩ | ⟨hfl, _, hev⟩
  · rw [NewPage_of_picked s s0 f now hinv hp hnow] at hrun
    cases hrun
    exact installed_Inv s0 f _ _ _ _ now (hp.preInstall hinv) hnow
  · rw [NewPage_none s now hfl hev] at hrun
    cases hrun
    exact hinv

theorem FetchPage_inv (s s1 : BufferPoolManager) (p : Int) (now : Nat) (res : Option Nat)
    (hinv : s.Inv) (hnow : now ≠ 0) (hrun : s.FetchPage p now = .ok (s1, res)) : s1.Inv := by
  cases hfind : ptFind s.page_table_ p with
  | some f =>
    obtain ⟨hfv, _, _⟩ := hinv.table p f (ptFind_mem hfind)
    obtain ⟨r1, nd, hnd, _, hpost1, hcore1, heq⟩ := FetchPage_hit_run s p f now hinv hfind hnow
    rw [heq] at hrun
    cases hr2 : r1.SetEvictable f false with
    | error e => rw [hr2] at hrun; cases hrun
    | ok r2 =>
      rw [hr2] at hrun
      cases hrun
      exact (FetchPage_hit_inv s f now r1 r2 nd hinv hfv hnd hpost1 hcore1 hr2).1
  | none =>
    rcases pick_total s hinv with ⟨f, s0, hp⟩ | ⟨hfl, _, hev⟩
    · rw [FetchPage_of_picked s s0 f p now hinv hfind hp hnow] at hrun
      cases hrun
      exact installed_Inv s0 f _ _ _ _ now (hp.preInstall hinv) hnow
    · rw [FetchPage_none s p now hfind hfl hev] at hrun
      cases hrun
      exact hinv

theorem UnpinPage_inv (s s1 : BufferPoolManager) (p : Int) (b res : Bool)
    (hinv : s.Inv) (hrun : s.UnpinPage p b = .ok (s1, res)) : s1.Inv := by
  cases hfind : ptFind s.page_table_ p with
  | none =>
    rw [UnpinPage_fail s p b (Or.inl hfind)] at hrun
    cases hrun
    exact hinv
  | some f =>
    by_cases hpin : (s.pages_ f).pin_count_ = 0
    · rw [UnpinPage_fail s p b (Or.inr ⟨f, hfind, hpin⟩)] at hrun
      cases hrun
      exact hinv
    · obtain ⟨r1, heq, hinv1, _⟩ := UnpinPage_spec s p b f hinv hfind (by omega)
      rw [heq] at hrun
      cases hrun
      exact hinv1

theorem DeletePage_inv (s s1 : BufferPoolManager) (p : Int) (res : Bool)
    (hinv : s.Inv) (hrun : s.DeletePage p = .ok (s1, res)) : s1.Inv := by
  by_cases hp : p = INVALID_PAGE_ID
  · rw [DeletePage_absent s p (Or.inl hp)] at hrun
    cases hrun
    exact hinv
  · cases hfind : ptFind s.page_table_ p with
    | none =>
      rw [DeletePage_absent s p (Or.inr hfind)] at hrun
      cases hrun
      exact hinv
    | some f =>
      by_cases hpin : (s.pages_ f).pin_count_ = 0
      · rw [DeletePage_run s p f hp hfind hpin] at hrun
        cases hr : s.replacer_.Remove f with
        | error e => rw [hr] at hrun; cases hrun
        | ok r1 =>
          rw [hr] at hrun
          cases hrun
          exact deleted_Inv s p f r1 hinv hfind hr
      · rw [DeletePage_pinned s p f hfind (by omega)] at hrun
        cases hrun
        exact hinv

theorem BPMReach.inv {s : BufferPoolManager} (h : BPMReach s) : s.Inv := by
  induction h with
  | init n d k ps hk => exact Inv_new n d k ps hk
  | newPage now s1 res _ hnow hrun ih => exact NewPage_inv _ s1 now res ih hnow hrun
  | fetchPage p now s1 res _ hnow hrun ih => exact FetchPage_inv _ s1 p now res ih hnow hrun
  | unpinPage p b s1 res _ hrun ih => exact UnpinPage_inv _ s1 p b res ih hrun
  | flushPage p s1 res _ hrun ih => exact (FlushPage_dirtyOnly _ s1 p res hrun).keepsInv ih
  | flushAllPages s1 _ hrun ih => exact (flushAllLoop_dirtyOnly _ _ s1 hrun).keepsInv ih
  | deletePage p s1 res _ hrun ih => exact DeletePage_inv _ s1 p res ih hrun

/-! ## C2 - C5: choosing a frame and installing a page -/

theorem installed_disk_new (s0 : BufferPoolManager) (f : Nat) :
    ((s0.pages_ f).page_id_ ≠ INVALID_PAGE_ID ∧ (s0.pages_ f).is_dirty_ = true →
      (s0.writeBack f).log
          = s0.disk_.log ++ [DiskEvent.write (s0.pages_ f).page_id_ (s0.pages_ f).data_] ∧
        (s0.writeBack f).contents (s0.pages_ f).page_id_ = (s0.pages_ f).data_) ∧
    (¬ ((s0.pages_ f).page_id_ ≠ INVALID_PAGE_ID ∧ (s0.pages_ f).is_dirty_ = true) →
      s0.writeBack f = s0.disk_) := by
  constructor
  · intro h
    simp only [BufferPoolManager.writeBack, h, and_self, if_true, Disk.WritePage, ne_eq,
      not_false_eq_true]
  · intro h
    simp only [BufferPoolManager.writeBack, h, if_false]

/-- C2. In a reachable state, when `NewPage` or `FetchPage` on a non-resident
page id chooses frame `f` (front of the free list, else the replacer's victim):
if `f` holds a page `q` (its page id is not `INVALID_PAGE_ID`) and is dirty, the
device receives exactly one write, of `q` with the frame's contents before the
call, issued before the read-in (for `FetchPage`) and before the frame is
overwritten, and the device afterwards holds those contents for `q`; if `f` is
clean or free, no write is issued (`NewPage` leaves the device untouched,
`FetchPage` only reads); in all cases the installed page is not dirty. -/
theorem dirty_victim_written_back_once (s s0 : BufferPoolManager) (f now : Nat) (p : Int)
    (hreach : BPMReach s) (hnow : now ≠ 0) (hpick : Picked s f s0) :
    (∃ s1, s.NewPage now = .ok (s1, some (s.next_page_id_, f)) ∧
      (s1.pages_ f).is_dirty_ = false ∧
      ((s.pages_ f).page_id_ ≠ INVALID_PAGE_ID ∧ (s.pages_ f).is_dirty_ = true →
        s1.disk_.log
            = s.disk_.log ++ [DiskEvent.write (s.pages_ f).page_id_ (s.pages_ f).data_] ∧
          s1.disk_.contents (s.pages_ f).page_id_ = (s.pages_ f).data_) ∧
      (¬ ((s.pages_ f).page_id_ ≠ INVALID_PAGE_ID ∧ (s.pages_ f).is_dirty_ = true) →
        s1.disk_ = s.disk_)) ∧
    (ptFind s.page_table_ p = none →
      ∃ s1, s.FetchPage p now = .ok (s1, some f) ∧
        (s1.pages_ f).is_dirty_ = false ∧
        ((s.pages_ f).page_id_ ≠ INVALID_PAGE_ID ∧ (s.pages_ f).is_dirty_ = true →
          s1.disk_.log
              = s.disk_.log ++ [DiskEvent.write (s.pages_ f).page_id_ (s.pages_ f).data_,
                  DiskEvent.read p] ∧
            s1.disk_.contents (s.pages_ f).page_id_ = (s.pages_ f).data_) ∧
        (¬ ((s.pages_ f).page_id_ ≠ INVALID_PAGE_ID ∧ (s.pages_ f).is_dirty_ = true) →
          s1.disk_.log = s.disk_.log ++ [DiskEvent.read p] ∧
            s1.disk_.contents = s.disk_.contents)) := by
  have hinv := hreach.inv
  obtain ⟨e1, _, e3, _, _⟩ := hpick.keeps
  obtain ⟨hw1, hw2⟩ := installed_disk_new s0 f
  rw [e1, e3] at hw1 hw2
  constructor
  · refine ⟨_, NewPage_of_picked s s0 f now hinv hpick hnow, ?_, ?_, ?_⟩
    · simp [BufferPoolManager.installed]
    · intro h
      exact hw1 h
    · intro h
      exact hw2 h
  · intro hmiss
    refine ⟨_, FetchPage_of_picked s s0 f p now hinv hmiss hpick hnow, ?_, ?_, ?_⟩
    · simp [BufferPoolManager.installed]
    · intro h
      obtain ⟨h1, h2⟩ := hw1 h
      simp only [BufferPoolManager.installed, Disk.ReadPage]
      rw [h1]
      exact ⟨by simp, h2⟩
    · intro h
      simp only [BufferPoolManager.installed, Disk.ReadPage]
      rw [hw2 h]
      exact ⟨rfl, rfl⟩

/-- C3. In every state reachable from a freshly constructed manager by
`NewPage`, `FetchPage`, `UnpinPage`, `FlushPage`, `FlushAllPages` and
`DeletePage`, no frame with a positive pin count is evictable in the replacer;
consequently the frame that `NewPage` / `FetchPage` choose (front of the free
list, else the replacer's victim) has pin count zero, and the "Pin count is not
0" assertion of the frame-install helpers does not fire. -/
theorem pinned_frame_never_evictable (s : BufferPoolManager) (hreach : BPMReach s) :
    (∀ f, 0 < (s.pages_ f).pin_count_ → s.replacer_.evictable f = false) ∧
    (∀ f s0, Picked s f s0 → (s.pages_ f).pin_count_ = 0) ∧
    (∀ now, now ≠ 0 → faultOf (s.NewPage now) = none) ∧
    (∀ p now, now ≠ 0 → faultOf (s.FetchPage p now) ≠ some Fault.pinCountNotZero) := by
  have hinv := hreach.inv
  refine ⟨?_, ?_, ?_, ?_⟩
  · intro f hpin
    cases hs : s.replacer_.node_store_ f with
    | none => simp [LRUKReplacer.evictable, hs]
    | some nd =>
      rw [evictable_eq _ f nd hs]
      cases h : nd.is_evictable_ with
      | false => rfl
      | true =>
        have := (hinv.evictable_iff f nd hs).mp h
        omega
  · intro f s0 hp
    have := (hp.preInstall hinv).unpinned
    rw [hp.keeps.1] at this
    exact this
  · intro now hnow
    rcases pick_total s hinv with ⟨f, s0, hp⟩ | ⟨hfl, _, hev⟩
    · rw [NewPage_of_picked s s0 f now hinv hp hnow]
      rfl
    · rw [NewPage_none s now hfl hev]
      rfl
  · intro p now hnow
    cases hfind : ptFind s.page_table_ p with
    | some f =>
      obtain ⟨hfv, _, _⟩ := hinv.table p f (ptFind_mem hfind)
      obtain ⟨r1, nd, hnd, _, hpost1, hcore1, heq⟩ := FetchPage_hit_run s p f now hinv hfind hnow
      rw [heq]
      have hf1 : f < r1.total_num_frames := by rw [hpost1.total_eq, hinv.total]; exact hfv
      cases hs1 : r1.node_store_ f with
      | none =>
        rw [SetEvictable_untracked r1 f false hpost1.wf hf1 hs1]
        simp [faultOf]
      | some nd1 =>
        cases hfl : nd1.is_evictable_ with
        | false =>
          rw [SetEvictable_same r1 f false nd1 hpost1.wf hf1 hs1 hfl]
          simp [faultOf]
        | true =>
          obtain ⟨hidx, _⟩ := hpost1.wf.evictable_slot hs1 hfl
          by_cases hcase : nd1.index_in_heap_arr_ < r1.min_heap_obj_.heap_size_ - 1 ∨
              r1.min_heap_obj_.heap_size_ = 1
          · obtain ⟨r2, hrun2, _⟩ := SetEvictable_false_spec r1 f nd1 hpost1.wf hf1 hs1 hfl hcase
            rw [hrun2]
            simp [faultOf]
          · rw [SetEvictable_false_fault r1 f nd1 hpost1.wf hf1 hs1 hfl (by omega) (by omega)]
            simp [faultOf]
    | none =>
      rcases pick_total s hinv with ⟨f, s0, hp⟩ | ⟨hfl, _, hev⟩
      · rw [FetchPage_of_picked s s0 f p now hinv hfind hp hnow]
        simp [faultOf]
      · rw [FetchPage_none s p now hfind hfl hev]
        simp [faultOf]

theorem scenarioFetched_reach : BPMReach scenarioFetched :=
  BPMReach.unpinPage 0 false _ true
    (BPMReach.fetchPage 0 1 _ (some 0) (BPMReach.init 1 exampleDisk 2 2 (by decide))
      (by decide) rfl) rfl

theorem scenarioFull_reach : BPMReach scenarioFull :=
  BPMReach.newPage 3 _ (some (2, 2))
    (BPMReach.newPage 2 _ (some (1, 1))
      (BPMReach.newPage 1 _ (some (0, 0)) (BPMReach.init 3 exampleDisk 2 2 (by decide))
        (by decide) rfl) (by decide) rfl) (by decide) rfl

theorem scenarioTwoEvictable_reach : BPMReach scenarioTwoEvictable :=
  BPMReach.unpinPage 1 false _ true
    (BPMReach.unpinPage 0 false _ true scenarioFull_reach rfl) rfl

theorem scenarioDirty_reach : BPMReach scenarioDirty :=
  BPMReach.unpinPage 0 true _ true
    (BPMReach.fetchPage 0 2 _ (some 0)
      (BPMReach.newPage 1 _ (some (0, 0)) (BPMReach.init 3 exampleDisk 2 2 (by decide))
        (by decide) rfl) (by decide) rfl) rfl

theorem scenarioDirtyVictim_reach : BPMReach scenarioDirtyVictim :=
  BPMReach.unpinPage 0 true _ true
    (BPMReach.newPage 1 _ (some (0, 0)) (BPMReach.init 1 exampleDisk 2 2 (by decide))
      (by decide) rfl) rfl

theorem exampleReplacer_reach : ReplacerReach exampleReplacer exampleLog 3 :=
  ReplacerReach.setEvictable 1 true _
    (ReplacerReach.setEvictable 0 true _
      (ReplacerReach.recordAccess 0 3 _
        (ReplacerReach.recordAccess 1 2 _
          (ReplacerReach.recordAccess 0 1 _ (ReplacerReach.init 3 2 (by decide))
            (by decide) (by decide) (by decide) rfl)
          (by decide) (by decide) (by decide) rfl)
        (by decide) (by decide) (by decide) rfl)
      (by decide) rfl)
    (by decide) rfl

theorem evict_returns_max_backward_k_distance_witness :
    ReplacerReach exampleReplacer exampleLog 3 ∧
      ∃ r1 v, exampleReplacer.Evict = .ok (r1, v) ∧
        (v = none ↔ ∀ f, exampleReplacer.evictable f = false) ∧
        ∀ w, v = some w →
          exampleReplacer.evictable w = true ∧
          ((∃ g, exampleReplacer.evictable g = true ∧
              (exampleLog g).length < exampleReplacer.k_) →
            (exampleLog w).length < exampleReplacer.k_) ∧
          ((∀ g, exampleReplacer.evictable g = true →
              exampleReplacer.k_ ≤ (exampleLog g).length) →
            ∀ g, exampleReplacer.evictable g = true →
              (exampleLog w).getD (exampleReplacer.k_ - 1) 0
                ≤ (exampleLog g).getD (exampleReplacer.k_ - 1) 0) :=
  ⟨exampleReplacer_reach,
    evict_returns_max_backward_k_distance exampleReplacer exampleLog 3 exampleReplacer_reach⟩

theorem dirty_victim_written_back_once_witness :
    BPMReach scenarioDirtyVictim ∧ (2 : Nat) ≠ 0 ∧
      Picked scenarioDirtyVictim 0
        { scenarioDirtyVictim with
          replacer_ := replacerAfterEvict scenarioDirtyVictim.replacer_ } ∧
      (∃ s1, scenarioDirtyVictim.NewPage 2 = .ok (s1, some (1, 0)) ∧
        s1.disk_.log = [DiskEvent.write 0 [0, 0]]) ∧
      (∃ s1, scenarioDirtyVictim.FetchPage 5 2 = .ok (s1, some 0) ∧
        s1.disk_.log = [DiskEvent.write 0 [0, 0], DiskEvent.read 5]) := by
  have hp : Picked scenarioDirtyVictim 0
      { scenarioDirtyVictim with
        replacer_ := replacerAfterEvict scenarioDirtyVictim.replacer_ } :=
    Or.inr ⟨rfl, _, rfl, rfl⟩
  obtain ⟨⟨s1, h1, _, h2, _⟩, hfetch⟩ :=
    dirty_victim_written_back_once scenarioDirtyVictim _ 0 2 5 scenarioDirtyVictim_reach
      (by decide) hp
  obtain ⟨s2, h3, _, h4, _⟩ := hfetch rfl
  exact ⟨scenarioDirtyVictim_reach, by decide, hp, ⟨s1, h1, (h2 (by decide)).1⟩,
    ⟨s2, h3, (h4 (by decide)).1⟩⟩

theorem pinned_frame_never_evictable_witness :
    BPMReach scenarioTwoEvictable ∧
      (∀ f, 0 < (scenarioTwoEvictable.pages_ f).pin_count_ →
        scenarioTwoEvictable.replacer_.evictable f = false) ∧
      (∀ f s0, Picked scenarioTwoEvictable f s0 →
        (scenarioTwoEvictable.pages_ f).pin_count_ = 0) ∧
      (∀ now, now ≠ 0 → faultOf (scenarioTwoEvictable.NewPage now) = none) ∧
      (∀ p now, now ≠ 0 →
        faultOf (scenarioTwoEvictable.FetchPage p now) ≠ some Fault.pinCountNotZero) :=
  ⟨scenarioTwoEvictable_reach,
    pinned_frame_never_evictable scenarioTwoEvictable scenarioTwoEvictable_reach⟩

/-- C4 (as amended). Whenever `NewPage` succeeds in a reachable state, the frame
it returns is the front frame of the free list if the free list is non-empty and
otherwise the replacer's victim; the id written to the out parameter is the
value of the page-id counter before the call and the counter has grown by one;
the frame has that page id, pin count 1, dirty flag false and all-zero data; the
page table maps the new id to the frame and, unless the frame's previous page id
equals the new id, no longer contains the previous page id; and the frame is
tracked by the replacer as non-evictable. -/
theorem newPage_installs_fresh_page (s s1 : BufferPoolManager) (now f : Nat) (pid : Int)
    (hreach : BPMReach s) (hnow : now ≠ 0)
    (hrun : s.NewPage now = .ok (s1, some (pid, f))) :
    (∃ s0, Picked s f s0) ∧
    pid = s.next_page_id_ ∧ s1.next_page_id_ = s.next_page_id_ + 1 ∧
    s1.pages_ f = { data_ := List.replicate (s.pages_ f).data_.length 0, page_id_ := pid,
                    pin_count_ := 1, is_dirty_ := false } ∧
    ptFind s1.page_table_ pid = some f ∧
    ((s.pages_ f).page_id_ ≠ pid → ptFind s1.page_table_ (s.pages_ f).page_id_ = none) ∧
    s1.replacer_.tracked f = true ∧ s1.replacer_.evictable f = false := by
  have hinv := hreach.inv
  rcases pick_total s hinv with ⟨g, s0, hp⟩ | ⟨hfl, _, hev⟩
  · rw [NewPage_of_picked s s0 g now hinv hp hnow] at hrun
    obtain ⟨e1, e2, _, _, _⟩ := hp.keeps
    have h1 := Except.ok.inj hrun
    simp only [Prod.mk.injEq, Option.some.injEq] at h1
    obtain ⟨hs1, hpid, hgf⟩ := h1
    subst hgf
    subst hpid
    subst hs1
    refine ⟨⟨s0, hp⟩, rfl, rfl, ?_, ?_, ?_, ?_, ?_⟩
    · simp [BufferPoolManager.installed, e1]
    · simp [BufferPoolManager.installed, ptFind_ptAssign]
    · intro hne
      simp only [BufferPoolManager.installed, ptFind_ptAssign, ptFind_ptErase, e1, e2]
      simp [hne]
    · simp [BufferPoolManager.installed, LRUKReplacer.tracked, tracking_store]
    · simp [BufferPoolManager.installed, LRUKReplacer.evictable, tracking_store,
        LRUKNode.new, LRUKNode.enterCurrentTimeStamp]
  · rw [NewPage_none s now hfl hev] at hrun
    have h1 := Except.ok.inj hrun
    simp at h1

theorem newPage_installs_fresh_page_witness :
    BPMReach scenarioTwoEvictable ∧ (4 : Nat) ≠ 0 ∧
      scenarioTwoEvictable.NewPage 4
        = .ok (stateOf (scenarioTwoEvictable.NewPage 4) scenarioTwoEvictable, some (3, 0)) ∧
      (stateOf (scenarioTwoEvictable.NewPage 4) scenarioTwoEvictable).pages_ 0
        = { data_ := [0, 0], page_id_ := 3, pin_count_ := 1, is_dirty_ := false } ∧
      ptFind (stateOf (scenarioTwoEvictable.NewPage 4) scenarioTwoEvictable).page_table_ 0
        = none := by
  have h := newPage_installs_fresh_page scenarioTwoEvictable _ 4 0 3
    scenarioTwoEvictable_reach (by decide) rfl
  exact ⟨scenarioTwoEvictable_reach, by decide, rfl, h.2.2.2.1, h.2.2.2.2.2.1 (by decide)⟩

/-- Counterexample to C4 as stated: in a pool of one frame, after
`FetchPage(0)` and `UnpinPage(0, false)` the only frame holds page 0; `NewPage`
then evicts it and allocates the id 0, so the page table still contains the
frame's previous page id afterwards. -/
theorem newPage_previous_id_still_present :
    BPMReach scenarioFetched ∧
      (scenarioFetched.pages_ 0).page_id_ = 0 ∧
      valueOf (scenarioFetched.NewPage 2) = some (some (0, 0)) ∧
      ptFind (stateOf (scenarioFetched.NewPage 2) scenarioFetched).page_table_
        (scenarioFetched.pages_ 0).page_id_ = some 0 :=
  ⟨scenarioFetched_reach, by decide, by decide, by decide⟩

/-- C5. In a reachable state, for every page id `p` that is not in the page
table, when a frame is available (the free list is non-empty or some frame is
evictable) `FetchPage(p)` returns a frame `f`, the one chosen from the free list
or evicted; its data are the device's contents for `p` at the time of the read
(after the write-back of the victim, the read being the last device operation),
its page id is `p`, its pin count 1, its dirty flag false; the page table maps
`p` to `f`; the old page-table entry of the frame's previous page is gone; the
frame is tracked and non-evictable in the replacer; and the page-id counter is
unchanged. -/
theorem fetchPage_miss_reads_page (s : BufferPoolManager) (p : Int) (now : Nat)
    (hreach : BPMReach s) (hnow : now ≠ 0) (hmiss : ptFind s.page_table_ p = none)
    (havail : s.free_list_ ≠ [] ∨ ∃ g, s.replacer_.evictable g = true) :
    ∃ s1 f, s.FetchPage p now = .ok (s1, some f) ∧ (∃ s0, Picked s f s0) ∧
      s1.disk_ = ((s.writeBack f).ReadPage p).1 ∧
      (s1.pages_ f).data_ = (s.writeBack f).contents p ∧
      (s1.pages_ f).data_ = s1.disk_.contents p ∧
      (s1.pages_ f).page_id_ = p ∧ (s1.pages_ f).pin_count_ = 1 ∧
      (s1.pages_ f).is_dirty_ = false ∧
      ptFind s1.page_table_ p = some f ∧
      (ptFind s.page_table_ (s.pages_ f).page_id_ ≠ none →
        ptFind s1.page_table_ (s.pages_ f).page_id_ = none) ∧
      s1.replacer_.tracked f = true ∧ s1.replacer_.evictable f = false ∧
      s1.next_page_id_ = s.next_page_id_ := by
  have hinv := hreach.inv
  rcases pick_total s hinv with ⟨f, s0, hp⟩ | ⟨hfl, h0, _⟩
  · obtain ⟨e1, e2, e3, _, _⟩ := hp.keeps
    have hwb : s0.writeBack f = s.writeBack f := by
      simp only [BufferPoolManager.writeBack, e1, e3]
    refine ⟨_, f, FetchPage_of_picked s s0 f p now hinv hmiss hp hnow, ⟨s0, hp⟩,
      ?_, ?_, ?_, ?_, ?_, ?_, ?_, ?_, ?_, ?_, ?_⟩
    · simp only [BufferPoolManager.installed, hwb]
    · simp [BufferPoolManager.installed, hwb]
    · simp [BufferPoolManager.installed, hwb, Disk.ReadPage]
    · simp [BufferPoolManager.installed]
    · simp [BufferPoolManager.installed]
    · simp [BufferPoolManager.installed]
    · simp [BufferPoolManager.installed, ptFind_ptAssign]
    · intro hq
      have hne : (s.pages_ f).page_id_ ≠ p := by
        intro e
        rw [e] at hq
        exact hq hmiss
      simp only [BufferPoolManager.installed, ptFind_ptAssign, ptFind_ptErase, e1, e2]
      simp [hne]
    · simp [BufferPoolManager.installed, LRUKReplacer.tracked, tracking_store]
    · simp [BufferPoolManager.installed, LRUKReplacer.evictable, tracking_store,
        LRUKNode.new, LRUKNode.enterCurrentTimeStamp]
    · simp [BufferPoolManager.installed]
  · exfalso
    rcases havail with h | ⟨g, hg⟩
    · exact h hfl
    · cases hs : s.replacer_.node_store_ g with
      | none => simp [LRUKReplacer.evictable, hs] at hg
      | some nd =>
        rw [evictable_eq _ g nd hs] at hg
        obtain ⟨hidx, _⟩ := hinv.wf.evictable_slot hs hg
        have := hinv.wf.rsize
        omega

theorem fetchPage_miss_reads_page_witness :
    BPMReach scenarioDirtyVictim ∧ (2 : Nat) ≠ 0 ∧
      ptFind scenarioDirtyVictim.page_table_ 5 = none ∧
      (scenarioDirtyVictim.free_list_ ≠ [] ∨
        ∃ g, scenarioDirtyVictim.replacer_.evictable g = true) ∧
      ∃ s1 f, scenarioDirtyVictim.FetchPage 5 2 = .ok (s1, some f) ∧
        (s1.pages_ f).data_ = s1.disk_.contents 5 ∧ (s1.pages_ f).page_id_ = 5 ∧
        (s1.pages_ f).pin_count_ = 1 ∧ (s1.pages_ f).is_dirty_ = false := by
  have havail : scenarioDirtyVictim.free_list_ ≠ [] ∨
      ∃ g, scenarioDirtyVictim.replacer_.evictable g = true := Or.inr ⟨0, by decide⟩
  obtain ⟨s1, f, h1, _, _, _, h2, h3, h4, h5, _⟩ :=
    fetchPage_miss_reads_page scenarioDirtyVictim 5 2 scenarioDirtyVictim_reach (by decide)
      (by decide) havail
  exact ⟨scenarioDirtyVictim_reach, by decide, by decide, havail, s1, f, h1, h2, h3, h4, h5⟩

/-! ## C6 - C10 -/

/-- C6 (the code aborts). In the reachable state `scenarioTwoEvictable` page 1
is resident in frame 1, unpinned, and frame 0 is evictable as well; frame 1
occupies the last slot of the replacer's heap, so `FetchPage(1)` reaches
`SetEvictable(1, false)`, whose `removeEle` hands the slot it has just nulled to
the comparator: the call dereferences a null pointer instead of returning the
frame. -/
theorem fetchPage_hit_on_evictable_frame_aborts :
    BPMReach scenarioTwoEvictable ∧
      ptFind scenarioTwoEvictable.page_table_ 1 = some 1 ∧
      scenarioTwoEvictable.replacer_.evictable 0 = true ∧
      scenarioTwoEvictable.replacer_.evictable 1 = true ∧
      faultOf (scenarioTwoEvictable.FetchPage 1 4) = some Fault.nullDeref :=
  ⟨scenarioTwoEvictable_reach, by decide, by decide, by decide, by decide⟩

/-- C7 (as amended). For every resident page `p` with a positive pin count and
every flag `b`, `UnpinPage(p, b)` returns `true` and leaves the frame's dirty
flag equal to `b`: the flag is assigned, not merged with the old one. -/
theorem unpinPage_assigns_dirty_flag (s : BufferPoolManager) (p : Int) (f : Nat) (b : Bool)
    (hreach : BPMReach s) (hfind : ptFind s.page_table_ p = some f)
    (hpin : 0 < (s.pages_ f).pin_count_) :
    ∃ s1, s.UnpinPage p b = .ok (s1, true) ∧ (s1.pages_ f).is_dirty_ = b := by
  obtain ⟨r1, hrun, _⟩ := UnpinPage_spec s p b f hreach.inv hfind hpin
  exact ⟨_, hrun, by simp⟩

theorem unpinPage_assigns_dirty_flag_witness :
    BPMReach scenarioDirty ∧ ptFind scenarioDirty.page_table_ 0 = some 0 ∧
      0 < (scenarioDirty.pages_ 0).pin_count_ ∧
      ∃ s1, scenarioDirty.UnpinPage 0 false = .ok (s1, true) ∧
        (s1.pages_ 0).is_dirty_ = false :=
  ⟨scenarioDirty_reach, by decide, by decide,
    unpinPage_assigns_dirty_flag scenarioDirty 0 0 false scenarioDirty_reach (by decide)
      (by decide)⟩

/-- Counterexample to C7 as stated: in `scenarioDirty` page 0 is resident,
pinned and dirty; `UnpinPage(0, false)` returns `true` and the frame is clean
afterwards, although (old dirty flag OR `false`) is `true`. -/
theorem unpinPage_false_clears_dirty_flag :
    BPMReach scenarioDirty ∧ ptFind scenarioDirty.page_table_ 0 = some 0 ∧
      0 < (scenarioDirty.pages_ 0).pin_count_ ∧
      (scenarioDirty.pages_ 0).is_dirty_ = true ∧
      valueOf (scenarioDirty.UnpinPage 0 false) = some true ∧
      ((stateOf (scenarioDirty.UnpinPage 0 false) scenarioDirty).pages_ 0).is_dirty_
        ≠ ((scenarioDirty.pages_ 0).is_dirty_ || false) :=
  ⟨scenarioDirty_reach, by decide, by decide, by decide, by decide, by decide⟩

theorem fetchMany_pinned (p : Int) (f : Nat) :
    ∀ (ts : List Nat) (s : BufferPoolManager), s.Inv → ptFind s.page_table_ p = some f →
      0 < (s.pages_ f).pin_count_ → (∀ t ∈ ts, t ≠ 0) →
      ∃ s2, fetchMany p ts s = some s2 ∧ s2.Inv ∧ ptFind s2.page_table_ p = some f ∧
        (s2.pages_ f).pin_count_ = (s.pages_ f).pin_count_ + ts.length := by
  intro ts
  induction ts with
  | nil =>
    intro s hinv hfind _ _
    exact ⟨s, rfl, hinv, hfind, by simp⟩
  | cons t rest ih =>
    intro s hinv hfind hpin hts
    obtain ⟨r2, hrun, hinv1, _⟩ :=
      FetchPage_hit_pinned s p f t hinv hfind hpin (hts t (List.mem_cons_self _ _))
    obtain ⟨s2, h1, h2, h3, h4⟩ := ih _ hinv1 hfind (by simp)
      (fun x hx => hts x (List.mem_cons_of_mem _ hx))
    refine ⟨s2, ?_, h2, h3, ?_⟩
    · simp only [fetchMany, hrun]
      exact h1
    · rw [h4]
      simp only [upd_same, List.length_cons]
      omega

theorem unpinMany_spec (p : Int) (b : Bool) (f : Nat) :
    ∀ (k : Nat) (s : BufferPoolManager), s.Inv → ptFind s.page_table_ p = some f →
      k ≤ (s.pages_ f).pin_count_ →
      ∃ u, unpinMany p b k s = some u ∧ u.Inv ∧ ptFind u.page_table_ p = some f ∧
        (u.pages_ f).pin_count_ = (s.pages_ f).pin_count_ - k := by
  intro k
  induction k with
  | zero =>
    intro s hinv hfind _
    exact ⟨s, rfl, hinv, hfind, by simp⟩
  | succ k ih =>
    intro s hinv hfind hk
    obtain ⟨r1, hrun, hinv1, _⟩ := UnpinPage_spec s p b f hinv hfind (by omega)
    obtain ⟨u, h1, h2, h3, h4⟩ := ih _ hinv1 hfind (by simp only [upd_same]; omega)
    refine ⟨u, ?_, h2, h3, ?_⟩
    · simp only [unpinMany, hrun]
      exact h1
    · rw [h4]
      simp only [upd_same]
      omega

/-- C8. Pins and unpins balance: in a reachable state, after `NewPage` creates
page `p` in frame `f` and `n - 1` further `FetchPage(p)` calls (one per clock
reading in `ts`, so `n = ts.length + 1`), all of which return the frame, the pin
count of `f` is `n`; each of the next `n` calls `UnpinPage(p, false)` returns
`true` and decreases the pin count by exactly one, the frame being evictable
afterwards exactly when the count has reached zero; and the call after those
returns `false`. -/
theorem pins_and_unpins_balance (s s1 : BufferPoolManager) (now : Nat) (ts : List Nat)
    (p : Int) (f : Nat) (hreach : BPMReach s) (hnow : now ≠ 0) (hts : ∀ t ∈ ts, t ≠ 0)
    (hnew : s.NewPage now = .ok (s1, some (p, f))) :
    ∃ s2, fetchMany p ts s1 = some s2 ∧ (s2.pages_ f).pin_count_ = ts.length + 1 ∧
      (∀ k, k < ts.length + 1 →
        ∃ u u1, unpinMany p false k s2 = some u ∧
          (u.pages_ f).pin_count_ = ts.length + 1 - k ∧
          u.UnpinPage p false = .ok (u1, true) ∧
          (u1.pages_ f).pin_count_ = (u.pages_ f).pin_count_ - 1 ∧
          (u1.replacer_.evictable f = true ↔ (u1.pages_ f).pin_count_ = 0)) ∧
      ∃ u, unpinMany p false (ts.length + 1) s2 = some u ∧
        u.UnpinPage p false = .ok (u, false) := by
  have hinv := hreach.inv
  have hinv1 : s1.Inv := NewPage_inv s s1 now _ hinv hnow hnew
  -- the state right after `NewPage`
  have hfacts : ptFind s1.page_table_ p = some f ∧ (s1.pages_ f).pin_count_ = 1 := by
    rcases pick_total s hinv with ⟨g, s0, hp⟩ | ⟨hfl, _, hev⟩
    · rw [NewPage_of_picked s s0 g now hinv hp hnow] at hnew
      have h1 := Except.ok.inj hnew
      simp only [Prod.mk.injEq, Option.some.injEq] at h1
      obtain ⟨hs1, hpid, hgf⟩ := h1
      subst hgf
      subst hpid
      subst hs1
      exact ⟨by simp [BufferPoolManager.installed, ptFind_ptAssign],
        by simp [BufferPoolManager.installed]⟩
    · rw [NewPage_none s now hfl hev] at hnew
      have h1 := Except.ok.inj hnew
      simp at h1
  obtain ⟨hfind1, hpin1⟩ := hfacts
  obtain ⟨s2, hf2, hinv2, hfind2, hpin2⟩ :=
    fetchMany_pinned p f ts s1 hinv1 hfind1 (by omega) hts
  have hpin2' : (s2.pages_ f).pin_count_ = ts.length + 1 := by omega
  refine ⟨s2, hf2, hpin2', ?_, ?_⟩
  · intro k hk
    obtain ⟨u, hu1, hu2, hu3, hu4⟩ := unpinMany_spec p false f k s2 hinv2 hfind2 (by omega)
    obtain ⟨r1, hrun, _, hev, _⟩ := UnpinPage_spec u p false f hu2 hu3 (by omega)
    refine ⟨u, _, hu1, by omega, hrun, by simp, ?_⟩
    simp only [upd_same]
    exact hev
  · obtain ⟨u, hu1, hu2, hu3, hu4⟩ :=
      unpinMany_spec p false f (ts.length + 1) s2 hinv2 hfind2 (by omega)
    exact ⟨u, hu1, UnpinPage_fail u p false (Or.inr ⟨f, hu3, by omega⟩)⟩

theorem pins_and_unpins_balance_witness :
    BPMReach scenarioTwoEvictable ∧ (4 : Nat) ≠ 0 ∧ (∀ t ∈ [5, 6], t ≠ 0) ∧
      scenarioTwoEvictable.NewPage 4
        = .ok (stateOf (scenarioTwoEvictable.NewPage 4) scenarioTwoEvictable, some (3, 0)) ∧
      ∃ s2, fetchMany 3 [5, 6] (stateOf (scenarioTwoEvictable.NewPage 4) scenarioTwoEvictable)
          = some s2 ∧ (s2.pages_ 0).pin_count_ = 3 ∧
        ∃ u, unpinMany 3 false 3 s2 = some u ∧ u.UnpinPage 3 false = .ok (u, false) := by
  have hts : ∀ t ∈ [5, 6], t ≠ 0 := by decide
  obtain ⟨s2, h1, h2, _, h3⟩ :=
    pins_and_unpins_balance scenarioTwoEvictable _ 4 [5, 6] 3 0 scenarioTwoEvictable_reach
      (by decide) hts rfl
  exact ⟨scenarioTwoEvictable_reach, by decide, hts, rfl, s2, h1, h2, h3⟩

/-- C9 (as amended). `DeletePage(p)` returns `false` and changes nothing when `p`
is `INVALID_PAGE_ID` or not resident, and returns `false` and changes nothing
when `p` is resident with a non-zero pin count. -/
theorem deletePage_returns_false_without_deleting (s : BufferPoolManager) (p : Int) :
    (p = INVALID_PAGE_ID ∨ ptFind s.page_table_ p = none → s.DeletePage p = .ok (s, false)) ∧
    (∀ f, ptFind s.page_table_ p = some f → 0 < (s.pages_ f).pin_count_ →
      s.DeletePage p = .ok (s, false)) :=
  ⟨DeletePage_absent s p, fun f h1 h2 => DeletePage_pinned s p f h1 h2⟩

theorem deletePage_returns_false_without_deleting_witness :
    ptFind scenarioFull.page_table_ 7 = none ∧
      scenarioFull.DeletePage 7 = .ok (scenarioFull, false) ∧
      ptFind scenarioFull.page_table_ 0 = some 0 ∧ 0 < (scenarioFull.pages_ 0).pin_count_ ∧
      scenarioFull.DeletePage 0 = .ok (scenarioFull, false) :=
  ⟨by decide,
    (deletePage_returns_false_without_deleting scenarioFull 7).1 (Or.inr (by decide)),
    by decide, by decide,
    (deletePage_returns_false_without_deleting scenarioFull 0).2 0 (by decide) (by decide)⟩

/-- Counterexample to C9 as stated: on a freshly constructed manager page 0 is
not resident, and `DeletePage(0)` returns `false`, not `true`. -/
theorem deletePage_of_absent_page_returns_false :
    ptFind (BufferPoolManager.new 3 exampleDisk 2 2).page_table_ 0 = none ∧
      valueOf ((BufferPoolManager.new 3 exampleDisk 2 2).DeletePage 0) = some false :=
  ⟨by decide, by decide⟩

/-- C10 (the code aborts). In the reachable state `scenarioTwoEvictable` page 1
is resident in frame 1 with pin count zero while frame 0 is evictable too; frame
1 occupies the last slot of the replacer's heap, so `DeletePage(1)` reaches
`Remove(1)`, whose `removeEle` hands the slot it has just nulled to the
comparator: the call dereferences a null pointer instead of reclaiming the
frame. -/
theorem deletePage_with_other_evictable_frame_aborts :
    BPMReach scenarioTwoEvictable ∧
      ptFind scenarioTwoEvictable.page_table_ 1 = some 1 ∧
      (scenarioTwoEvictable.pages_ 1).pin_count_ = 0 ∧
      scenarioTwoEvictable.replacer_.evictable 0 = true ∧
      faultOf (scenarioTwoEvictable.DeletePage 1) = some Fault.nullDeref :=
  ⟨scenarioTwoEvictable_reach, by decide, by decide, by decide, by decide⟩


/-! ## C11 - C20 -/

/-- C11. In a reachable state `FlushPage(p)` returns `false` and changes nothing
when `p` is `INVALID_PAGE_ID` or not in the page table; for every other page `p`,
resident in frame `f`, dirty or clean, it returns `true`, the device receives
exactly one more operation, the write of `p` with the frame's current contents,
the frame's dirty flag is false afterwards, and the frame's data, page id and pin
count, every other frame, the page table, the free list, the replacer and the
page-id counter are unchanged. -/
theorem flushPage_writes_resident_page (s : BufferPoolManager) (p : Int)
    (hreach : BPMReach s) :
    (p = INVALID_PAGE_ID ∨ ptFind s.page_table_ p = none → s.FlushPage p = .ok (s, false)) ∧
    (∀ f, p ≠ INVALID_PAGE_ID → ptFind s.page_table_ p = some f →
      ∃ s1, s.FlushPage p = .ok (s1, true) ∧
        s1.disk_.log = s.disk_.log ++ [DiskEvent.write p (s.pages_ f).data_] ∧
        s1.disk_.contents p = (s.pages_ f).data_ ∧
        (∀ q, q ≠ p → s1.disk_.contents q = s.disk_.contents q) ∧
        s1.pages_ f = { s.pages_ f with is_dirty_ := false } ∧
        (∀ g, g ≠ f → s1.pages_ g = s.pages_ g) ∧
        s1.page_table_ = s.page_table_ ∧ s1.free_list_ = s.free_list_ ∧
        s1.replacer_ = s.replacer_ ∧ s1.next_page_id_ = s.next_page_id_ ∧
        s1.pool_size_ = s.pool_size_) := by
  constructor
  · intro h
    unfold BufferPoolManager.FlushPage
    by_cases hp : p = INVALID_PAGE_ID
    · simp [hp]
    · rcases h with h | h
      · exact absurd h hp
      · simp [hp, h]
  · intro f hp hfind
    obtain ⟨_, _, hid⟩ := hreach.inv.table p f (ptFind_mem hfind)
    have hne : (s.pages_ f).page_id_ ≠ INVALID_PAGE_ID := by rw [hid]; exact hp
    have hrun : s.FlushPage p = .ok
        ({ s with disk_ := s.disk_.WritePage p (s.pages_ f).data_,
                  pages_ := upd s.pages_ f { s.pages_ f with is_dirty_ := false } }, true) := by
      simp [BufferPoolManager.FlushPage, hp, hfind, ActOnDirtyBit_eq, BufferPoolManager.setPage,
        BufferPoolManager.writeBack, hid, upd_upd]
    refine ⟨_, hrun, ?_, ?_, ?_, ?_, ?_, rfl, rfl, rfl, rfl, rfl⟩
    · simp [Disk.WritePage]
    · simp [Disk.WritePage]
    · intro q hq
      simp [Disk.WritePage, hq]
    · simp
    · intro g hg
      simp [upd, hg]

theorem flushPage_writes_resident_page_witness :
    BPMReach scenarioFull ∧ (0 : Int) ≠ INVALID_PAGE_ID ∧
      ptFind scenarioFull.page_table_ 0 = some 0 ∧
      (scenarioFull.pages_ 0).is_dirty_ = false ∧
      ∃ s1, scenarioFull.FlushPage 0 = .ok (s1, true) ∧
        s1.disk_.log = scenarioFull.disk_.log ++ [DiskEvent.write 0 [0, 0]] ∧
        (s1.pages_ 0).is_dirty_ = false := by
  obtain ⟨s1, h1, h2, _, _, h3, _⟩ :=
    (flushPage_writes_resident_page scenarioFull 0 scenarioFull_reach).2 0 (by decide)
      (by decide)
  exact ⟨scenarioFull_reach, by decide, by decide, by decide, s1, h1, h2, by rw [h3]⟩


theorem size_zero_of_none_evictable (r : LRUKReplacer) (hwf : r.WF)
    (h : ∀ g, r.evictable g = false) : r.replacer_size_ = 0 := by
  by_contra h0
  have hpos : 0 < r.min_heap_obj_.heap_size_ := by
    have := hwf.rsize
    omega
  obtain ⟨f, nd, ha, hs, _⟩ := hwf.slots 0 hpos
  have hflag : nd.is_evictable_ = true := (hwf.flags f nd hs).mpr ⟨0, hpos, ha⟩
  have := h f
  rw [evictable_eq r f nd hs, hflag] at this
  cases this

/-- C13. Recoverable failures are atomic. In a reachable state each of the
following calls returns its failure value together with the very state in which
it was called (frames, page table, free list, replacer, page-id counter and
device all identical): (a) `NewPage`, and `FetchPage` of a page that is not in
the page table, when the free list is empty and no frame is evictable; (b)
`UnpinPage` of a page that is absent or whose pin count is zero; (c) `DeletePage`
of a page whose pin count is not zero; (d) `FlushPage` of an absent or invalid
page id. -/
theorem recoverable_failures_change_nothing (s : BufferPoolManager) (hreach : BPMReach s) :
    (s.free_list_ = [] → (∀ g, s.replacer_.evictable g = false) →
      (∀ now, s.NewPage now = .ok (s, none)) ∧
      (∀ p now, ptFind s.page_table_ p = none → s.FetchPage p now = .ok (s, none))) ∧
    (∀ p b, (ptFind s.page_table_ p = none ∨
        ∃ f, ptFind s.page_table_ p = some f ∧ (s.pages_ f).pin_count_ = 0) →
      s.UnpinPage p b = .ok (s, false)) ∧
    (∀ p f, ptFind s.page_table_ p = some f → 0 < (s.pages_ f).pin_count_ →
      s.DeletePage p = .ok (s, false)) ∧
    (∀ p, (p = INVALID_PAGE_ID ∨ ptFind s.page_table_ p = none) →
      s.FlushPage p = .ok (s, false)) := by
  refine ⟨?_, ?_, ?_, ?_⟩
  · intro hfl hnone
    have hev := Evict_empty s.replacer_ hreach.inv.wf
      (size_zero_of_none_evictable s.replacer_ hreach.inv.wf hnone)
    exact ⟨fun now => NewPage_none s now hfl hev,
      fun p now hmiss => FetchPage_none s p now hmiss hfl hev⟩
  · intro p b h
    exact UnpinPage_fail s p b h
  · intro p f h1 h2
    exact DeletePage_pinned s p f h1 h2
  · intro p h
    unfold BufferPoolManager.FlushPage
    by_cases hp : p = INVALID_PAGE_ID
    · simp [hp]
    · rcases h with h | h
      · exact absurd h hp
      · simp [hp, h]

theorem recoverable_failures_change_nothing_witness :
    BPMReach scenarioFull ∧ scenarioFull.free_list_ = [] ∧
      (∀ g, scenarioFull.replacer_.evictable g = false) ∧
      scenarioFull.NewPage 4 = .ok (scenarioFull, none) ∧
      scenarioFull.FetchPage 9 4 = .ok (scenarioFull, none) ∧
      scenarioFull.UnpinPage 9 true = .ok (scenarioFull, false) ∧
      scenarioFull.DeletePage 1 = .ok (scenarioFull, false) ∧
      scenarioFull.FlushPage 9 = .ok (scenarioFull, false) := by
  have hnone : ∀ g, scenarioFull.replacer_.evictable g = false := by
    intro g
    have hinv := scenarioFull_reach.inv
    cases hs : scenarioFull.replacer_.node_store_ g with
    | none => simp [LRUKReplacer.evictable, hs]
    | some nd =>
      rw [evictable_eq _ g nd hs]
      have hg : g < 3 := (hinv.wf.nodes g nd hs).2.1
      have hiff := hinv.evictable_iff g nd hs
      cases hflag : nd.is_evictable_ with
      | false => rfl
      | true =>
        have hpin := hiff.mp hflag
        exfalso
        interval_cases g
        · exact absurd hpin (by decide)
        · exact absurd hpin (by decide)
        · exact absurd hpin (by decide)
  obtain ⟨h1, h2, h3, h4⟩ := recoverable_failures_change_nothing scenarioFull scenarioFull_reach
  exact ⟨scenarioFull_reach, rfl, hnone, (h1 rfl hnone).1 4, (h1 rfl hnone).2 9 4 (by decide),
    h2 9 true (Or.inl (by decide)), h3 1 1 (by decide) (by decide), h4 9 (Or.inr (by decide))⟩


/-! ### The page table is a one-to-one map -/

theorem NewPage_tableStep (s s1 : BufferPoolManager) (now : Nat) (res : Option (Int × Nat))
    (hinv : s.Inv) (hnow : now ≠ 0) (hrun : s.NewPage now = .ok (s1, res)) :
    TableStep s s1 := by
  rcases pick_total s hinv with ⟨f, s0, hp⟩ | ⟨hfl, _, hev⟩
  · rw [NewPage_of_picked s s0 f now hinv hp hnow] at hrun
    cases hrun
    obtain ⟨e1, e2, _⟩ := hp.keeps
    exact Or.inr (Or.inr ⟨f, s.next_page_id_, by
      simp only [BufferPoolManager.installed, e1, e2]⟩)
  · rw [NewPage_none s now hfl hev] at hrun
    cases hrun
    exact Or.inl rfl

theorem FetchPage_tableStep (s s1 : BufferPoolManager) (p : Int) (now : Nat)
    (res : Option Nat) (hinv : s.Inv) (hnow : now ≠ 0)
    (hrun : s.FetchPage p now = .ok (s1, res)) : TableStep s s1 := by
  cases hfind : ptFind s.page_table_ p with
  | some f =>
    obtain ⟨r1, nd, _, _, _, _, heq⟩ := FetchPage_hit_run s p f now hinv hfind hnow
    rw [heq] at hrun
    cases hr2 : r1.SetEvictable f false with
    | error e => rw [hr2] at hrun; cases hrun
    | ok r2 =>
      rw [hr2] at hrun
      cases hrun
      exact Or.inl rfl
  | none =>
    rcases pick_total s hinv with ⟨f, s0, hp⟩ | ⟨hfl, _, hev⟩
    · rw [FetchPage_of_picked s s0 f p now hinv hfind hp hnow] at hrun
      cases hrun
      obtain ⟨e1, e2, _⟩ := hp.keeps
      exact Or.inr (Or.inr ⟨f, p, by simp only [BufferPoolManager.installed, e1, e2]⟩)
    · rw [FetchPage_none s p now hfind hfl hev] at hrun
      cases hrun
      exact Or.inl rfl

theorem UnpinPage_tableStep (s s1 : BufferPoolManager) (p : Int) (b res : Bool)
    (hinv : s.Inv) (hrun : s.UnpinPage p b = .ok (s1, res)) : TableStep s s1 := by
  cases hfind : ptFind s.page_table_ p with
  | none =>
    rw [UnpinPage_fail s p b (Or.inl hfind)] at hrun
    cases hrun
    exact Or.inl rfl
  | some f =>
    by_cases hpin : (s.pages_ f).pin_count_ = 0
    · rw [UnpinPage_fail s p b (Or.inr ⟨f, hfind, hpin⟩)] at hrun
      cases hrun
      exact Or.inl rfl
    · obtain ⟨r1, heq, _⟩ := UnpinPage_spec s p b f hinv hfind (by omega)
      rw [heq] at hrun
      cases hrun
      exact Or.inl rfl

theorem DeletePage_tableStep (s s1 : BufferPoolManager) (p : Int) (res : Bool)
    (hrun : s.DeletePage p = .ok (s1, res)) : TableStep s s1 := by
  by_cases hp : p = INVALID_PAGE_ID
  · rw [DeletePage_absent s p (Or.inl hp)] at hrun
    cases hrun
    exact Or.inl rfl
  · cases hfind : ptFind s.page_table_ p with
    | none =>
      rw [DeletePage_absent s p (Or.inr hfind)] at hrun
      cases hrun
      exact Or.inl rfl
    | some f =>
      by_cases hpin : (s.pages_ f).pin_count_ = 0
      · rw [DeletePage_run s p f hp hfind hpin] at hrun
        cases hr : s.replacer_.Remove f with
        | error e => rw [hr] at hrun; cases hrun
        | ok r1 =>
          rw [hr] at hrun
          cases hrun
          exact Or.inr (Or.inl ⟨p, rfl⟩)
      · rw [DeletePage_pinned s p f hfind (by omega)] at hrun
        cases hrun
        exact Or.inl rfl

theorem ptErase_nodup (pt : List (Int × Nat)) (p : Int)
    (h : (pt.map Prod.fst).Nodup ∧ (pt.map Prod.snd).Nodup) :
    ((ptErase pt p).map Prod.fst).Nodup ∧ ((ptErase pt p).map Prod.snd).Nodup :=
  ⟨h.1.sublist ((List.filter_sublist pt).map Prod.fst),
    h.2.sublist ((List.filter_sublist pt).map Prod.snd)⟩

theorem TableStep.nodup {s s1 : BufferPoolManager} (hstep : TableStep s s1) (hinv : s.Inv)
    (h : (s.page_table_.map Prod.fst).Nodup ∧ (s.page_table_.map Prod.snd).Nodup) :
    (s1.page_table_.map Prod.fst).Nodup ∧ (s1.page_table_.map Prod.snd).Nodup := by
  rcases hstep with e | ⟨p, e⟩ | ⟨f, p, e⟩
  · rw [e]; exact h
  · rw [e]; exact ptErase_nodup _ p h
  · rw [e]
    have h2 := ptErase_nodup _ p (ptErase_nodup _ (s.pages_ f).page_id_ h)
    simp only [ptAssign, List.map_cons, List.nodup_cons]
    refine ⟨⟨?_, h2.1⟩, ?_, h2.2⟩
    · intro hmem
      obtain ⟨e1, he1, he2⟩ := List.mem_map.mp hmem
      obtain ⟨q, g⟩ := e1
      simp only at he2
      subst he2
      exact (mem_ptErase.mp he1).2 rfl
    · intro hmem
      obtain ⟨e1, he1, he2⟩ := List.mem_map.mp hmem
      obtain ⟨q, g⟩ := e1
      simp only at he2
      subst he2
      obtain ⟨hm1, _⟩ := mem_ptErase.mp he1
      obtain ⟨hm2, hne⟩ := mem_ptErase.mp hm1
      exact hne (hinv.table q g hm2).2.2.symm

theorem BPMReach.table_nodup {s : BufferPoolManager} (h : BPMReach s) :
    (s.page_table_.map Prod.fst).Nodup ∧ (s.page_table_.map Prod.snd).Nodup := by
  induction h with
  | init n d k ps hk => simp [BufferPoolManager.new]
  | newPage now s1 res h hnow hrun ih =>
    exact (NewPage_tableStep _ s1 now res h.inv hnow hrun).nodup h.inv ih
  | fetchPage p now s1 res h hnow hrun ih =>
    exact (FetchPage_tableStep _ s1 p now res h.inv hnow hrun).nodup h.inv ih
  | unpinPage p b s1 res h hrun ih =>
    exact (UnpinPage_tableStep _ s1 p b res h.inv hrun).nodup h.inv ih
  | flushPage p s1 res h hrun ih =>
    have e := (FlushPage_dirtyOnly _ s1 p res hrun).2.2.2.1
    rw [e]; exact ih
  | flushAllPages s1 h hrun ih =>
    have e := (flushAllLoop_dirtyOnly _ _ s1 hrun).2.2.2.1
    rw [e]; exact ih
  | deletePage p s1 res h hrun ih =>
    exact (DeletePage_tableStep _ s1 p res hrun).nodup h.inv ih

/-- C14. In every state reachable from a freshly constructed manager by public
operations with arbitrary arguments: for every entry `(p, f)` of the page table
the metadata of frame `f` reports the page id `p`; no two entries map to the
same frame (two entries for the same frame carry the same page id, and the list
of frames of the entries has no duplicates); and the page table is a map (no
page id occurs twice, so its entries are exactly what `find` returns). -/
theorem page_table_matches_frames (s : BufferPoolManager) (hreach : BPMReach s) :
    (∀ p f, (p, f) ∈ s.page_table_ → (s.pages_ f).page_id_ = p) ∧
    (∀ p q f, (p, f) ∈ s.page_table_ → (q, f) ∈ s.page_table_ → p = q) ∧
    (s.page_table_.map Prod.snd).Nodup ∧ (s.page_table_.map Prod.fst).Nodup ∧
    (∀ p f, ptFind s.page_table_ p = some f → (s.pages_ f).page_id_ = p) ∧
    (∀ p q f, ptFind s.page_table_ p = some f → ptFind s.page_table_ q = some f → p = q) := by
  have hinv := hreach.inv
  have hnd := hreach.table_nodup
  refine ⟨fun p f h => (hinv.table p f h).2.2, ?_, hnd.2, hnd.1,
    fun p f h => (hinv.table p f (ptFind_mem h)).2.2, ?_⟩
  · intro p q f h1 h2
    rw [← (hinv.table p f h1).2.2, ← (hinv.table q f h2).2.2]
  · intro p q f h1 h2
    rw [← (hinv.table p f (ptFind_mem h1)).2.2, ← (hinv.table q f (ptFind_mem h2)).2.2]

theorem page_table_matches_frames_witness :
    BPMReach scenarioTwoEvictable ∧
      scenarioTwoEvictable.page_table_ = [(2, 2), (1, 1), (0, 0)] ∧
      (∀ p f, (p, f) ∈ scenarioTwoEvictable.page_table_ →
        (scenarioTwoEvictable.pages_ f).page_id_ = p) ∧
      (scenarioTwoEvictable.page_table_.map Prod.snd).Nodup :=
  ⟨scenarioTwoEvictable_reach, by decide,
    (page_table_matches_frames scenarioTwoEvictable scenarioTwoEvictable_reach).1,
    (page_table_matches_frames scenarioTwoEvictable scenarioTwoEvictable_reach).2.2.1⟩


theorem scenarioInvalidFetched_reach : BPMReach scenarioInvalidFetched :=
  BPMReach.fetchPage INVALID_PAGE_ID 1 _ (some 0)
    (BPMReach.init 1 exampleDisk 2 2 (by decide)) (by decide) rfl

theorem scenarioInvalidUnpinned_reach : BPMReach scenarioInvalidUnpinned :=
  BPMReach.unpinPage INVALID_PAGE_ID false _ true scenarioInvalidFetched_reach rfl

theorem replacerUnequalCounts_reach : ReplacerReach replacerUnequalCounts logUnequalCounts 3 :=
  ReplacerReach.setEvictable 1 true _
    (ReplacerReach.setEvictable 0 true _
      (ReplacerReach.recordAccess 1 3 _
        (ReplacerReach.recordAccess 0 2 _
          (ReplacerReach.recordAccess 0 1 _ (ReplacerReach.init 2 3 (by decide))
            (by decide) (by decide) (by decide) rfl)
          (by decide) (by decide) (by decide) rfl)
        (by decide) (by decide) (by decide) rfl)
      (by decide) rfl)
    (by decide) rfl

/-- C15 (the code breaks the invariant). On a freshly constructed manager
`FetchPage(INVALID_PAGE_ID)` misses, takes frame 0 from the free list and
returns it; in the state it leaves, which is reachable, `INVALID_PAGE_ID` is a
key of the page table (mapped to frame 0, which is pinned).  `FlushPage` and
`DeletePage` reject `INVALID_PAGE_ID` by an explicit test, which `FetchPage`
lacks. -/
theorem fetchPage_of_invalid_id_enters_page_table :
    BPMReach scenarioInvalidFetched ∧
      valueOf ((BufferPoolManager.new 1 exampleDisk 2 2).FetchPage INVALID_PAGE_ID 1)
        = some (some 0) ∧
      scenarioInvalidFetched.page_table_ = [(INVALID_PAGE_ID, 0)] ∧
      ptFind scenarioInvalidFetched.page_table_ INVALID_PAGE_ID = some 0 ∧
      scenarioInvalidFetched.pages_ 0
        = { data_ := [7, 7], page_id_ := INVALID_PAGE_ID, pin_count_ := 1,
            is_dirty_ := false } ∧
      valueOf (scenarioInvalidFetched.FlushPage INVALID_PAGE_ID) = some false ∧
      valueOf (scenarioInvalidFetched.DeletePage INVALID_PAGE_ID) = some false :=
  ⟨scenarioInvalidFetched_reach, by decide, by decide, by decide, by decide, by decide,
    by decide⟩

/-- C17 (the code contradicts the documentation of `Evict`). With `k = 3`, frame
0 accessed at times 1 and 2 and frame 1 accessed at time 3, both evictable and
both with fewer than `k` recorded accesses, `Evict` returns frame 1, although
the oldest recorded access of frame 0 (time 1) is earlier than that of frame 1
(time 3): the comparator ranks the frame with fewer recorded accesses first. -/
theorem evict_prefers_fewer_accesses_to_older_access :
    ReplacerReach replacerUnequalCounts logUnequalCounts 3 ∧
      replacerUnequalCounts.k_ = 3 ∧ replacerUnequalCounts.total_num_frames = 2 ∧
      replacerUnequalCounts.evictable 0 = true ∧ replacerUnequalCounts.evictable 1 = true ∧
      logUnequalCounts 0 = [2, 1] ∧ logUnequalCounts 1 = [3] ∧
      replacerUnequalCounts.historyOf 0 = some [2, 1, 0] ∧
      replacerUnequalCounts.historyOf 1 = some [3, 0, 0] ∧
      replacerUnequalCounts.Evict = .ok (replacerAfterEvict replacerUnequalCounts, some 1) ∧
      (logUnequalCounts 0).getLast? = some 1 ∧ (logUnequalCounts 1).getLast? = some 3 :=
  ⟨replacerUnequalCounts_reach, by decide, by decide, by decide, by decide, by decide,
    by decide, by decide, by decide, rfl, by decide, by decide⟩


/-! ### Evict forgets the frame -/

theorem core_observations {a b : Option LRUKNode}
    (h : a.map LRUKNode.core = b.map LRUKNode.core) :
    a.map (fun n => n.history_) = b.map (fun n => n.history_) ∧
      a.map (fun n => n.is_evictable_) = b.map (fun n => n.is_evictable_) ∧
      a.isSome = b.isSome := by
  cases a with
  | none =>
    cases b with
    | none => exact ⟨rfl, rfl, rfl⟩
    | some y => simp at h
  | some x =>
    cases b with
    | none => simp at h
    | some y =>
      simp only [Option.map_some', Option.some.injEq] at h
      obtain ⟨h1, _, _, h4⟩ := core_fields h
      simp [h1, h4]

theorem others_observations {r r1 : LRUKReplacer} {g : Nat}
    (h : (r1.node_store_ g).map LRUKNode.core = (r.node_store_ g).map LRUKNode.core) :
    r1.historyOf g = r.historyOf g ∧ r1.evictable g = r.evictable g ∧
      r1.tracked g = r.tracked g := by
  obtain ⟨h1, h2, h3⟩ := core_observations h
  refine ⟨h1, ?_, h3⟩
  unfold LRUKReplacer.evictable
  cases ha : r1.node_store_ g with
  | none =>
    cases hb : r.node_store_ g with
    | none => rfl
    | some y => rw [ha, hb] at h3; cases h3
  | some x =>
    cases hb : r.node_store_ g with
    | none => rw [ha, hb] at h3; cases h3
    | some y =>
      rw [ha, hb] at h2
      simpa using h2

theorem RecordAccess_fresh (r : LRUKReplacer) (f t : Nat) (hwf : r.WF)
    (hf : f < r.total_num_frames) (hst : r.tracked f = false) :
    ∃ r2, r.RecordAccess f t = .ok r2 ∧
      r2.historyOf f = some (t :: List.replicate (r.k_ - 1) 0) ∧
      r2.tracked f = true ∧ r2.evictable f = false ∧ r2.Size = r.Size ∧
      (∀ g, g ≠ f → r2.historyOf g = r.historyOf g ∧ r2.evictable g = r.evictable g ∧
        r2.tracked g = r.tracked g) := by
  have hnone : r.node_store_ f = none := by
    cases h : r.node_store_ f with
    | none => rfl
    | some nd => simp [LRUKReplacer.tracked, h] at hst
  refine ⟨r.tracking f t, RecordAccess_untracked r f t hwf hf hnone, ?_, ?_, ?_, rfl, ?_⟩
  · have hk := hwf.kpos
    simp only [LRUKReplacer.historyOf, tracking_store, if_true, Option.map_some',
      LRUKNode.enterCurrentTimeStamp, LRUKNode.new, Option.some.injEq, List.cons.injEq, true_and]
    obtain ⟨k, hk1⟩ : ∃ k, r.k_ = k + 1 := ⟨r.k_ - 1, by omega⟩
    rw [hk1, List.replicate_succ', List.dropLast_concat]
    simp
  · simp [LRUKReplacer.tracked, tracking_store]
  · simp [LRUKReplacer.evictable, tracking_store, LRUKNode.new, LRUKNode.enterCurrentTimeStamp]
  · intro g hg
    simp [LRUKReplacer.historyOf, LRUKReplacer.evictable, LRUKReplacer.tracked, tracking_store,
      hg]

/-- C19. In a reachable replacer state, when `Evict` returns frame `f` the
replacer forgets `f`: `Size()` has decreased by exactly one, `f` is no longer
tracked (it has no history), and the history, the evictable flag and the tracked
status of every other frame are unchanged.  A `RecordAccess(f)` at time `t`,
right afterwards or in any later reachable state in which `f` is still
untracked, returns and starts a fresh node for `f`: non-evictable, with a
history that holds the single access `t` followed by `k - 1` zeros (so for
`k ≥ 2` the node has fewer than `k` accesses, that is, backward K-distance
+infinity); `Size()` and the other frames are unchanged by it. -/
theorem evict_forgets_frame (r r1 : LRUKReplacer) (log : Nat → List Nat) (last f : Nat)
    (hreach : ReplacerReach r log last) (hrun : r.Evict = .ok (r1, some f)) :
    r1.Size + 1 = r.Size ∧ r1.tracked f = false ∧ r1.historyOf f = none ∧
    f < r1.total_num_frames ∧
    (∀ g, g ≠ f → r1.historyOf g = r.historyOf g ∧ r1.evictable g = r.evictable g ∧
      r1.tracked g = r.tracked g) ∧
    ∀ (r2 : LRUKReplacer) (log2 : Nat → List Nat) (last2 t : Nat),
      r2 = r1 ∨ (ReplacerReach r2 log2 last2 ∧ r2.tracked f = false ∧
        f < r2.total_num_frames) →
      ∃ r3, r2.RecordAccess f t = .ok r3 ∧
        r3.historyOf f = some (t :: List.replicate (r2.k_ - 1) 0) ∧
        (2 ≤ r2.k_ → 0 ∈ (r3.historyOf f).getD []) ∧
        r3.tracked f = true ∧ r3.evictable f = false ∧ r3.Size = r2.Size ∧
        (∀ g, g ≠ f → r3.historyOf g = r2.historyOf g ∧ r3.evictable g = r2.evictable g ∧
          r3.tracked g = r2.tracked g) := by
  have hwf := (reach_inv hreach).1
  have hpos : 0 < r.replacer_size_ := by
    by_contra h0
    rw [Evict_empty r hwf (by omega)] at hrun
    cases hrun
  obtain ⟨f2, nd, r2, _, hs, _, hrun2, hpost, hsz, hnone, _⟩ := Evict_spec r hwf hpos
  rw [hrun2] at hrun
  have e := Except.ok.inj hrun
  simp only [Prod.mk.injEq, Option.some.injEq] at e
  obtain ⟨e1, e2⟩ := e
  subst e1
  subst e2
  have hf : f2 < r2.total_num_frames := by
    rw [hpost.total_eq]
    exact (hwf.nodes f2 nd hs).2.1
  have htr : r2.tracked f2 = false := by simp [LRUKReplacer.tracked, hnone]
  refine ⟨hsz, htr, by simp [LRUKReplacer.historyOf, hnone], hf,
    fun g hg => others_observations (hpost.others g hg), ?_⟩
  intro r3 log2 last2 t h3
  have hfacts : r3.WF ∧ r3.tracked f2 = false ∧ f2 < r3.total_num_frames := by
    rcases h3 with h3 | ⟨h3, h4, h5⟩
    · subst h3
      exact ⟨hpost.wf, htr, hf⟩
    · exact ⟨(reach_inv h3).1, h4, h5⟩
  obtain ⟨hwf3, htr3, hf3⟩ := hfacts
  obtain ⟨r4, a1, a2, a3, a4, a5, a6⟩ := RecordAccess_fresh r3 f2 t hwf3 hf3 htr3
  refine ⟨r4, a1, a2, ?_, a3, a4, a5, a6⟩
  intro hk
  rw [a2]
  obtain ⟨k, hk1⟩ : ∃ k, r3.k_ = k + 2 := ⟨r3.k_ - 2, by omega⟩
  simp [hk1, List.replicate_succ]

theorem evict_forgets_frame_witness :
    ReplacerReach exampleReplacer exampleLog 3 ∧
      exampleReplacer.Evict = .ok (replacerAfterEvict exampleReplacer, some 1) ∧
      (replacerAfterEvict exampleReplacer).Size + 1 = exampleReplacer.Size ∧
      (replacerAfterEvict exampleReplacer).tracked 1 = false ∧
      ∃ r3, (replacerAfterEvict exampleReplacer).RecordAccess 1 4 = .ok r3 ∧
        r3.historyOf 1 = some [4, 0] ∧ r3.evictable 1 = false := by
  obtain ⟨h1, h2, _, _, _, h3⟩ :=
    evict_forgets_frame exampleReplacer _ exampleLog 3 1 exampleReplacer_reach rfl
  obtain ⟨r3, a1, a2, _, _, a4, _⟩ := h3 _ exampleLog 3 4 (Or.inl rfl)
  exact ⟨exampleReplacer_reach, rfl, h1, h2, r3, a1, a2, a4⟩


/-- C20 (the code aborts). In the reachable replacer state `exampleReplacer`
(three frames, `k = 2`) frames 0 and 1 are tracked and evictable and frame 0
occupies the last of the two heap slots; `SetEvictable(0, false)` reaches
`removeEle`, which hands the slot it has just nulled to the comparator: the call
dereferences a null pointer instead of decreasing `Size()` and taking the frame
out of the heap. -/
theorem setEvictable_false_on_last_heap_slot_aborts :
    ReplacerReach exampleReplacer exampleLog 3 ∧
      exampleReplacer.tracked 0 = true ∧ exampleReplacer.evictable 0 = true ∧
      exampleReplacer.evictable 1 = true ∧ exampleReplacer.Size = 2 ∧
      exampleReplacer.min_heap_obj_.arr_ele_ 1 = some 0 ∧
      faultOf (exampleReplacer.SetEvictable 0 false) = some Fault.nullDeref :=
  ⟨exampleReplacer_reach, by decide, by decide, by decide, by decide, by decide, by decide⟩


/-! ### Filling the pool with `NewPage` -/

theorem fresh_history (k f t : Nat) (hk : 0 < k) :
    ((LRUKNode.new k f).enterCurrentTimeStamp t).history_ = t :: List.replicate (k - 1) 0 := by
  obtain ⟨j, hj⟩ : ∃ j, k = j + 1 := ⟨k - 1, by omega⟩
  subst hj
  simp only [LRUKNode.enterCurrentTimeStamp, LRUKNode.new, List.replicate_succ',
    List.dropLast_concat]
  simp

theorem rank_single (nd : LRUKNode) (t z : Nat) (ht : t ≠ 0)
    (hh : nd.history_ = t :: List.replicate z 0) :
    nd.rank = toLex (1, toLex (t, nd.fid_)) := by
  have hz : (List.replicate z 0).filter (fun x => decide (x ≠ 0)) = [] := by
    rw [List.filter_eq_nil_iff]
    intro a ha
    simp [List.eq_of_mem_replicate ha]
  unfold LRUKNode.rank
  rw [hh, List.filter_cons]
  simp [ht, hz]

theorem Filled_new (n : Nat) (disk : Disk) (k page_size : Nat) (hk : 0 < k) :
    Filled n 0 [] [] (BufferPoolManager.new n disk k page_size) :=
  { inv := Inv_new n disk k page_size hk
    pool := rfl
    free := by simp [BufferPoolManager.new, List.range_eq_range']
    next := rfl
    len := rfl
    frames := fun j hj => absurd hj (Nat.not_lt_zero j)
    keys := fun p hp => absurd rfl hp
    hist := fun j hj => absurd hj (Nat.not_lt_zero j) }

theorem Filled.newPage {n i : Nat} {ts : List Nat} {s : BufferPoolManager}
    (h : Filled n i ts [] s) (hi : i < n) (t : Nat) (ht : t ≠ 0) :
    ∃ s1, s.NewPage t = .ok (s1, some ((i : Int), i)) ∧ Filled n (i + 1) (ts ++ [t]) [] s1 ∧
      s1.disk_ = s.disk_ := by
  have hfl : s.free_list_ = i :: List.range' (i + 1) (n - (i + 1)) := by
    rw [h.free]
    obtain ⟨d, hd⟩ : ∃ d, n - i = d + 1 := ⟨n - i - 1, by omega⟩
    rw [hd, List.range'_succ]
    congr 2
    omega
  have hp : Picked s i { s with free_list_ := List.range' (i + 1) (n - (i + 1)) } :=
    Or.inl ⟨_, hfl, rfl⟩
  obtain ⟨_, hnone, _, hinvalid⟩ := h.inv.free i (by rw [hfl]; exact List.mem_cons_self _ _)
  have hwb : ({ s with free_list_ := List.range' (i + 1) (n - (i + 1)) } :
      BufferPoolManager).writeBack i = s.disk_ := by
    simp [BufferPoolManager.writeBack, hinvalid]
  obtain ⟨s1, hs1⟩ : ∃ s1, s1 =
      ({ s with free_list_ := List.range' (i + 1) (n - (i + 1)) } :
        BufferPoolManager).installed i s.next_page_id_
        (List.replicate (s.pages_ i).data_.length 0)
        (({ s with free_list_ := List.range' (i + 1) (n - (i + 1)) } :
          BufferPoolManager).writeBack i) (s.next_page_id_ + 1) t := ⟨_, rfl⟩
  have hrun : s.NewPage t = .ok (s1, some (s.next_page_id_, i)) := by
    rw [hs1]
    exact NewPage_of_picked s _ i t h.inv hp ht
  have hrun2 : s.NewPage t = .ok (s1, some ((i : Int), i)) := by rw [hrun, h.next]
  have hinv1 : s1.Inv := NewPage_inv s _ t _ h.inv ht hrun
  refine ⟨s1, hrun2, ?_, ?_⟩
  · refine
      { inv := hinv1
        pool := by rw [hs1]; exact h.pool
        free := by rw [hs1]; rfl
        next := by rw [hs1]; simp [BufferPoolManager.installed, h.next]
        len := by simp [h.len]
        frames := ?_
        keys := ?_
        hist := ?_ }
    · intro j hj
      rw [hs1]
      by_cases hji : j = i
      · subst hji
        simp [BufferPoolManager.installed, ptFind_ptAssign, h.next]
      · have hlt : j < i := by omega
        obtain ⟨a1, a2, a3, a4⟩ := h.frames j hlt
        have hne : (j : Int) ≠ (i : Int) := by omega
        have hne2 : (j : Int) ≠ INVALID_PAGE_ID := by
          simp only [INVALID_PAGE_ID]; omega
        simp only [BufferPoolManager.installed, upd, hji, if_false, ptFind_ptAssign,
          ptFind_ptErase, hne, hinvalid, hne2, h.next]
        exact ⟨a1, a2, a3, a4⟩
    · intro p hp
      rw [hs1] at hp
      simp only [BufferPoolManager.installed, ptFind_ptAssign, ptFind_ptErase, h.next] at hp
      by_cases hpi : p = (i : Int)
      · subst hpi
        constructor <;> push_cast <;> omega
      · simp only [hpi, if_false] at hp
        by_cases hp2 : p = (s.pages_ i).page_id_
        · simp [hp2] at hp
        · simp only [hp2, if_false] at hp
          obtain ⟨b1, b2⟩ := h.keys p hp
          constructor
          · exact b1
          · push_cast; omega
    · intro j hj
      have hk := h.inv.wf.kpos
      rw [hs1]
      by_cases hji : j = i
      · subst hji
        refine ⟨(LRUKNode.new s.replacer_.k_ j).enterCurrentTimeStamp t,
          by simp [BufferPoolManager.installed, tracking_store], ?_⟩
        rw [fresh_history _ _ _ hk]
        simp [BufferPoolManager.installed, LRUKReplacer.tracking, List.getD_eq_getElem?_getD,
          h.len]
      · have hlt : j < i := by omega
        obtain ⟨nd, c1, c2⟩ := h.hist j hlt
        refine ⟨nd, by simp [BufferPoolManager.installed, tracking_store, hji, c1], ?_⟩
        rw [c2]
        have hlen : j < ts.length := by rw [h.len]; exact hlt
        simp [BufferPoolManager.installed, LRUKReplacer.tracking, List.getD_eq_getElem?_getD,
          List.getElem?_append_left hlen]
  · rw [hs1]
    simp only [BufferPoolManager.installed, hwb]


theorem newPages_filled (n : Nat) :
    ∀ (us ts : List Nat) (i : Nat) (s : BufferPoolManager), Filled n i ts [] s →
      i + us.length ≤ n → (∀ t ∈ us, t ≠ 0) →
      ∃ s1, newPages us s
          = some (s1, (List.range' i us.length).map (fun (j : Nat) => ((j : Int), j))) ∧
        Filled n (i + us.length) (ts ++ us) [] s1 ∧ s1.disk_ = s.disk_ := by
  intro us
  induction us with
  | nil =>
    intro ts i s h _ _
    exact ⟨s, rfl, by simpa using h, rfl⟩
  | cons t rest ih =>
    intro ts i s h hlen hnz
    simp only [List.length_cons] at hlen
    obtain ⟨s1, hrun, h1, hd1⟩ := h.newPage (by omega) t (hnz t (List.mem_cons_self _ _))
    obtain ⟨s2, hrun2, h2, hd2⟩ := ih (ts ++ [t]) (i + 1) s1 h1 (by omega)
      (fun x hx => hnz x (List.mem_cons_of_mem _ hx))
    refine ⟨s2, ?_, ?_, hd2.trans hd1⟩
    · simp only [newPages, hrun, hrun2, List.length_cons, List.range'_succ, List.map_cons]
    · have e1 : i + (t :: rest).length = i + 1 + rest.length := by
        simp only [List.length_cons]; omega
      have e2 : ts ++ t :: rest = ts ++ [t] ++ rest := by simp
      rw [e1, e2]
      exact h2

theorem evictable_size_pos (r : LRUKReplacer) (hwf : r.WF) (g : Nat)
    (h : r.evictable g = true) : 0 < r.replacer_size_ := by
  cases hs : r.node_store_ g with
  | none => simp [LRUKReplacer.evictable, hs] at h
  | some nd =>
    rw [evictable_eq r g nd hs] at h
    obtain ⟨hidx, _⟩ := hwf.evictable_slot hs h
    have := hwf.rsize
    omega

theorem Picked.evictable {s s0 : BufferPoolManager} {f : Nat} (hinv : s.Inv)
    (hfl : s.free_list_ = []) (hp : Picked s f s0) : s.replacer_.evictable f = true := by
  rcases hp with ⟨rest, hfl2, _⟩ | ⟨_, r1, hev, _⟩
  · rw [hfl] at hfl2
    cases hfl2
  · have hpos : 0 < s.replacer_.replacer_size_ := by
      by_contra h0
      rw [Evict_empty s.replacer_ hinv.wf (by omega)] at hev
      cases hev
    obtain ⟨f2, nd, r2, _, hs, hflag, hrun, _⟩ := Evict_spec s.replacer_ hinv.wf hpos
    rw [hrun] at hev
    have e := Except.ok.inj hev
    simp only [Prod.mk.injEq, Option.some.injEq] at e
    rw [← e.2, evictable_eq _ f2 nd hs]
    exact hflag

theorem Filled.table_keys {n : Nat} {ts U : List Nat} {s : BufferPoolManager}
    (h : Filled n n ts U s) (p : Int) :
    ptFind s.page_table_ p = none ↔ ¬ (0 ≤ p ∧ p < (n : Int)) := by
  constructor
  · intro hp hrange
    obtain ⟨j, hj⟩ : ∃ j : Nat, p = (j : Int) := ⟨p.toNat, by omega⟩
    subst hj
    have hlt : j < n := by omega
    rw [(h.frames j hlt).2.2.2] at hp
    cases hp
  · intro hrange
    by_contra hp
    exact hrange (h.keys p hp)

theorem Filled.none_evictable {n : Nat} {ts : List Nat} {s : BufferPoolManager}
    (h : Filled n n ts [] s) (g : Nat) : s.replacer_.evictable g = false := by
  cases hs : s.replacer_.node_store_ g with
  | none => simp [LRUKReplacer.evictable, hs]
  | some nd =>
    rw [evictable_eq _ g nd hs]
    cases hflag : nd.is_evictable_ with
    | false => rfl
    | true =>
      have hpin := (h.inv.evictable_iff g nd hs).mp hflag
      have hg : g < n := by
        rw [← h.pool, ← h.inv.total]
        exact (h.inv.wf.nodes g nd hs).2.1
      have := (h.frames g hg).2.2.1
      simp at this
      omega


/-- C12. For every pool size `n` and every `k ≥ 1`, starting from a freshly
constructed manager, `n` consecutive `NewPage` calls (at non-zero clock readings)
with no unpins all return a frame: the ids `0 .. n-1`, placed in the frames
`0 .. n-1` in that order.  In the state they leave, the next `NewPage` returns
no frame and neither does `FetchPage` of any page id that is not resident (the
resident ids being exactly `0 .. n-1`), both leaving the state as it is; and
after `UnpinPage` has brought any one of the `n` pages to pin count zero, a
retried `NewPage` returns a frame (that page's frame, with the id `n`). -/
theorem pool_saturates_after_n_new_pages (n k page_size : Nat) (disk : Disk) (ts : List Nat)
    (hk : 1 ≤ k) (hlen : ts.length = n) (hts : ∀ t ∈ ts, t ≠ 0) :
    ∃ s1, newPages ts (BufferPoolManager.new n disk k page_size)
        = some (s1, (List.range n).map (fun (j : Nat) => ((j : Int), j))) ∧
      (∀ now, s1.NewPage now = .ok (s1, none)) ∧
      (∀ p, ptFind s1.page_table_ p = none ↔ ¬ (0 ≤ p ∧ p < (n : Int))) ∧
      (∀ p now, ptFind s1.page_table_ p = none → s1.FetchPage p now = .ok (s1, none)) ∧
      (∀ (j : Nat) (b : Bool) (now : Nat), j < n → now ≠ 0 →
        ∃ s2 s3, s1.UnpinPage (j : Int) b = .ok (s2, true) ∧ (s2.pages_ j).pin_count_ = 0 ∧
          s2.NewPage now = .ok (s3, some ((n : Int), j))) := by
  obtain ⟨s1, hrun, hfill, _⟩ :=
    newPages_filled n ts [] 0 _ (Filled_new n disk k page_size hk) (by omega) hts
  simp only [Nat.zero_add, hlen, List.nil_append] at hrun hfill
  have hfl : s1.free_list_ = [] := by rw [hfill.free]; simp
  have hev : s1.replacer_.Evict = .ok (s1.replacer_, none) :=
    Evict_empty _ hfill.inv.wf
      (size_zero_of_none_evictable _ hfill.inv.wf (fun g => hfill.none_evictable g))
  refine ⟨s1, ?_, fun now => NewPage_none s1 now hfl hev, fun p => hfill.table_keys p,
    fun p now hp => FetchPage_none s1 p now hp hfl hev, ?_⟩
  · rw [hrun, List.range_eq_range']
  · intro j b now hj hnow
    obtain ⟨_, _, hpin, hfind⟩ := hfill.frames j hj
    simp only [List.not_mem_nil, if_false] at hpin
    obtain ⟨r1, hrun2, hinv2, hevj, _, _⟩ :=
      UnpinPage_spec s1 (j : Int) b j hfill.inv hfind (by omega)
    have hnew : ∀ s2 : BufferPoolManager, s2.Inv → s2.free_list_ = [] →
        s2.next_page_id_ = (n : Int) → s2.replacer_ = r1 → s2.pool_size_ = n →
        (∀ f, f ≠ j → s2.pages_ f = s1.pages_ f) →
        ∃ s3, s2.NewPage now = .ok (s3, some ((n : Int), j)) := by
      intro s2 hI hfl2 hnext2 hr2 hpool2 hpages2
      rcases pick_total _ hI with ⟨f, s0, hp⟩ | ⟨_, h0, _⟩
      · have hfe := hp.evictable hI hfl2
        have hfj : f = j := by
          by_contra hne
          cases hs : s2.replacer_.node_store_ f with
          | none => simp [LRUKReplacer.evictable, hs] at hfe
          | some nd =>
            have hfe2 : nd.is_evictable_ = true := by
              rw [← evictable_eq _ f nd hs]; exact hfe
            have hpinf := (hI.evictable_iff f nd hs).mp hfe2
            have hfn : f < n := by
              have := (hI.wf.nodes f nd hs).2.1
              have e1 := hI.total
              omega
            have := (hfill.frames f hfn).2.2.1
            rw [hpages2 f hne] at hpinf
            simp only [List.not_mem_nil, if_false] at this
            omega
        subst hfj
        have := NewPage_of_picked _ s0 f now hI hp hnow
        rw [hnext2] at this
        exact ⟨_, this⟩
      · exfalso
        have := evictable_size_pos r1 (hr2 ▸ hI.wf) j (hevj.mpr (by omega))
        rw [hr2] at h0
        omega
    obtain ⟨s3, hs3⟩ := hnew _ hinv2 hfl hfill.next rfl hfill.pool
      (fun f hf => by simp [upd, hf])
    exact ⟨_, s3, hrun2, by simp [hpin], hs3⟩

theorem pool_saturates_after_n_new_pages_witness :
    (1 : Nat) ≤ 2 ∧ [1, 2, 3].length = 3 ∧ (∀ t ∈ [1, 2, 3], t ≠ 0) ∧
      ∃ s1, newPages [1, 2, 3] (BufferPoolManager.new 3 exampleDisk 2 2)
          = some (s1, [(0, 0), (1, 1), (2, 2)]) ∧
        s1.NewPage 4 = .ok (s1, none) ∧ s1.FetchPage 7 4 = .ok (s1, none) ∧
        ∃ s2 s3, s1.UnpinPage 1 true = .ok (s2, true) ∧
          s2.NewPage 4 = .ok (s3, some (3, 1)) := by
  have hts : ∀ t ∈ [1, 2, 3], t ≠ 0 := by decide
  obtain ⟨s1, h1, h2, h3, h4, h5⟩ :=
    pool_saturates_after_n_new_pages 3 2 2 exampleDisk [1, 2, 3] (by decide) rfl hts
  obtain ⟨s2, s3, a1, _, a3⟩ := h5 1 true 4 (by decide) (by decide)
  exact ⟨by decide, rfl, hts, s1, h1, h2 4, h4 7 4 ((h3 7).mpr (by decide)), s2, s3, a1, a3⟩


/-! ### Fill and evict -/

theorem UnpinPage_keeps_history (s : BufferPoolManager) (p : Int) (b : Bool) (f : Nat)
    (hinv : s.Inv) (hfind : ptFind s.page_table_ p = some f)
    (hpin : 0 < (s.pages_ f).pin_count_) :
    ∃ r1, s.UnpinPage p b =
        .ok ({ s with pages_ := upd s.pages_ f
                        { s.pages_ f with pin_count_ := (s.pages_ f).pin_count_ - 1,
                                          is_dirty_ := b },
                      replacer_ := r1 }, true) ∧
      r1.k_ = s.replacer_.k_ ∧ ∀ g, r1.historyOf g = s.replacer_.historyOf g := by
  obtain ⟨hfv, _, _⟩ := hinv.table p f (ptFind_mem hfind)
  have hf : f < s.replacer_.total_num_frames := by rw [hinv.total]; exact hfv
  obtain ⟨r1, hr1, hk, hhist⟩ : ∃ r1,
      (if (s.pages_ f).pin_count_ - 1 = 0 then s.replacer_.SetEvictable f true
        else .ok s.replacer_) = .ok r1 ∧ r1.k_ = s.replacer_.k_ ∧
      ∀ g, r1.historyOf g = s.replacer_.historyOf g := by
    by_cases h0 : (s.pages_ f).pin_count_ - 1 = 0
    · obtain ⟨r1, hrun, hpost, hcore, _⟩ := SetEvictable_true_total s.replacer_ f hinv.wf hf
      refine ⟨r1, by simp only [h0, if_true]; exact hrun, hpost.k_eq, ?_⟩
      intro g
      by_cases hg : g = f
      · subst hg
        unfold LRUKReplacer.historyOf
        cases ha : r1.node_store_ g with
        | none =>
          cases hb : s.replacer_.node_store_ g with
          | none => rfl
          | some y => rw [ha, hb] at hcore; simp at hcore
        | some x =>
          cases hb : s.replacer_.node_store_ g with
          | none => rw [ha, hb] at hcore; simp at hcore
          | some y =>
            rw [ha, hb] at hcore
            simp only [Option.map_some', Option.some.injEq, LRUKNode.core, Prod.mk.injEq]
              at hcore
            simp [hcore.1]
      · exact (others_observations (hpost.others g hg)).1
    · exact ⟨s.replacer_, by simp only [h0, if_false], rfl, fun _ => rfl⟩
  have hne : ¬ (s.pages_ f).pin_count_ ≤ 0 := by omega
  refine ⟨r1, ?_, hk, hhist⟩
  simp only [BufferPoolManager.UnpinPage, hfind, hne, if_false, BufferPoolManager.setPage,
    upd_same, hr1, upd_upd]

theorem Filled.unpin {n : Nat} {ts U : List Nat} {s : BufferPoolManager}
    (h : Filled n n ts U s) (j : Nat) (hj : j < n) (hjU : j ∉ U) :
    ∃ s1, s.UnpinPage (j : Int) false = .ok (s1, true) ∧ Filled n n ts (j :: U) s1 ∧
      s1.disk_ = s.disk_ ∧ s1.page_table_ = s.page_table_ := by
  obtain ⟨a1, a2, a3, a4⟩ := h.frames j hj
  simp only [hjU, if_false] at a3
  obtain ⟨r1, hrun, hk, hhist⟩ :=
    UnpinPage_keeps_history s (j : Int) false j h.inv a4 (by omega)
  refine ⟨_, hrun, ?_, rfl, rfl⟩
  refine
    { inv := UnpinPage_inv s _ (j : Int) false true h.inv hrun
      pool := h.pool
      free := h.free
      next := h.next
      len := h.len
      frames := ?_
      keys := h.keys
      hist := ?_ }
  · intro g hg
    obtain ⟨b1, b2, b3, b4⟩ := h.frames g hg
    by_cases hgj : g = j
    · subst hgj
      simp [a1, a3, a4]
    · simp only [upd, hgj, if_false, List.mem_cons, false_or]
      exact ⟨b1, b2, b3, b4⟩
  · intro g hg
    obtain ⟨nd, c1, c2⟩ := h.hist g hg
    have hg2 := hhist g
    unfold LRUKReplacer.historyOf at hg2
    rw [c1] at hg2
    cases hx : r1.node_store_ g with
    | none => rw [hx] at hg2; simp at hg2
    | some nd1 =>
      rw [hx] at hg2
      simp only [Option.map_some', Option.some.injEq] at hg2
      refine ⟨nd1, rfl, ?_⟩
      rw [hg2, c2]
      simp only [hk]

theorem unpinEach_filled (n : Nat) (ts : List Nat) :
    ∀ (S U : List Nat) (s : BufferPoolManager), Filled n n ts U s → S.Nodup →
      (∀ j ∈ S, j < n ∧ j ∉ U) →
      ∃ s1, unpinEach false (S.map (fun (j : Nat) => (j : Int))) s = some s1 ∧
        Filled n n ts (S.reverse ++ U) s1 ∧ s1.disk_ = s.disk_ ∧
        s1.page_table_ = s.page_table_ := by
  intro S
  induction S with
  | nil =>
    intro U s h _ _
    exact ⟨s, rfl, by simpa using h, rfl, rfl⟩
  | cons j rest ih =>
    intro U s h hnd hS
    obtain ⟨hjn, hjU⟩ := hS j (List.mem_cons_self _ _)
    obtain ⟨hjrest, hnd2⟩ := List.nodup_cons.mp hnd
    obtain ⟨s1, hrun, h1, hd1, ht1⟩ := h.unpin j hjn hjU
    obtain ⟨s2, hrun2, h2, hd2, ht2⟩ := ih (j :: U) s1 h1 hnd2 (by
      intro x hx
      obtain ⟨b1, b2⟩ := hS x (List.mem_cons_of_mem _ hx)
      refine ⟨b1, ?_⟩
      simp only [List.mem_cons, not_or]
      exact ⟨fun e => hjrest (e ▸ hx), b2⟩)
    refine ⟨s2, ?_, ?_, hd2.trans hd1, ht2.trans ht1⟩
    · simp only [List.map_cons, unpinEach, hrun]
      exact hrun2
    · have e : (j :: rest).reverse ++ U = rest.reverse ++ j :: U := by simp
      rw [e]
      exact h2


theorem Filled.newPage_evicts {n : Nat} {ts U : List Nat} {s : BufferPoolManager}
    (h : Filled n n ts U s) (hts : ∀ x ∈ ts, x ≠ 0)
    (hsorted : ts.Pairwise (fun a b => a ≤ b)) (m : Nat) (hm : m ∈ U) (hmn : m < n)
    (hmin : ∀ j ∈ U, m ≤ j) (t : Nat) (ht : t ≠ 0) :
    ∃ s1, s.NewPage t = .ok (s1, some ((n : Int), m)) ∧ s1.disk_ = s.disk_ ∧
      s1.page_table_ = ptAssign (ptErase s.page_table_ (m : Int)) (n : Int) m := by
  have hinv := h.inv
  have hfl : s.free_list_ = [] := by rw [h.free]; simp
  -- frame `m` is evictable
  obtain ⟨m1, m2, m3, _⟩ := h.frames m hmn
  simp only [hm, if_true] at m3
  obtain ⟨ndm, hsm, hhm⟩ := h.hist m hmn
  have hevm : ndm.is_evictable_ = true := (hinv.evictable_iff m ndm hsm).mpr m3
  have hpos : 0 < s.replacer_.replacer_size_ :=
    evictable_size_pos _ hinv.wf m (by rw [evictable_eq _ m ndm hsm]; exact hevm)
  obtain ⟨f, nd, r1, _, hs, hflag, hrun, _, _, _, hminr⟩ := Evict_spec s.replacer_ hinv.wf hpos
  -- the victim `f` is one of the unpinned frames
  have hfn : f < n := by
    rw [← h.pool, ← hinv.total]
    exact (hinv.wf.nodes f nd hs).2.1
  have hpinf := (hinv.evictable_iff f nd hs).mp hflag
  have hfU : f ∈ U := by
    by_contra hne
    have := (h.frames f hfn).2.2.1
    simp only [hne, if_false] at this
    omega
  obtain ⟨ndf, hsf, hhf⟩ := h.hist f hfn
  rw [hs] at hsf
  cases hsf
  have hmf : m ≤ f := hmin f hfU
  -- compare the ranks
  have hlenm : m < ts.length := by rw [h.len]; exact hmn
  have hlenf : f < ts.length := by rw [h.len]; exact hfn
  have htm : ts.getD m 0 ≠ 0 := by
    rw [List.getD_eq_getElem _ _ hlenm]
    exact hts _ (List.getElem_mem _)
  have htf : ts.getD f 0 ≠ 0 := by
    rw [List.getD_eq_getElem _ _ hlenf]
    exact hts _ (List.getElem_mem _)
  have hle := hminr m ndm hsm hevm
  rw [rank_single ndm _ _ htm hhm, rank_single nd _ _ htf hhf, (hinv.wf.nodes m ndm hsm).1,
    (hinv.wf.nodes f nd hs).1, Prod.Lex.le_iff] at hle
  simp only [lt_irrefl, false_or, true_and] at hle
  rw [Prod.Lex.le_iff] at hle
  simp only at hle
  have hmono : ts.getD m 0 ≤ ts.getD f 0 := by
    rcases Nat.eq_or_lt_of_le hmf with e | hlt
    · rw [e]
    · rw [List.getD_eq_getElem _ _ hlenm, List.getD_eq_getElem _ _ hlenf]
      exact List.pairwise_iff_getElem.mp hsorted m f hlenm hlenf hlt
  have hfm : f = m := by
    rcases hle with h1 | ⟨_, h2⟩
    · omega
    · omega
  subst hfm
  -- the call
  have hp : Picked s f { s with replacer_ := r1 } := Or.inr ⟨hfl, r1, hrun, rfl⟩
  obtain ⟨s1, hs1⟩ : ∃ s1, s1 =
      ({ s with replacer_ := r1 } : BufferPoolManager).installed f s.next_page_id_
        (List.replicate (s.pages_ f).data_.length 0)
        (({ s with replacer_ := r1 } : BufferPoolManager).writeBack f)
        (s.next_page_id_ + 1) t := ⟨_, rfl⟩
  have hnew : s.NewPage t = .ok (s1, some (s.next_page_id_, f)) := by
    rw [hs1]
    exact NewPage_of_picked s _ f t hinv hp ht
  refine ⟨s1, by rw [hnew, h.next], ?_, ?_⟩
  · rw [hs1]
    simp [BufferPoolManager.installed, BufferPoolManager.writeBack, m2]
  · rw [hs1]
    simp only [BufferPoolManager.installed, m1, h.next]

/-- C18. Fill and evict: for every pool size `n` and every `k ≥ 1`, after `n`
`NewPage` calls on a fresh manager at non-zero, non-decreasing clock readings
(which return the ids `0 .. n-1` in the frames `0 .. n-1`) and
`UnpinPage(_, false)` of the pages of any non-empty set `S` of them, in any
order (all of which return `true`), the next `NewPage` returns the id `n` in the
frame of the smallest page id `m` of `S`; it leaves the device untouched (no
write), and the page table afterwards is the old one without page `m` and with
the new id `n` mapped to frame `m`. -/
theorem fill_and_evict_reuses_oldest_unpinned_frame (n k page_size : Nat) (disk : Disk)
    (ts S : List Nat) (m t : Nat) (hk : 1 ≤ k) (hlen : ts.length = n)
    (hts : ∀ x ∈ ts, x ≠ 0) (hsorted : ts.Pairwise (fun a b => a ≤ b)) (hS : S.Nodup)
    (hSn : ∀ j ∈ S, j < n) (hm : m ∈ S) (hmin : ∀ j ∈ S, m ≤ j) (ht : t ≠ 0) :
    ∃ s1 s2 s3,
      newPages ts (BufferPoolManager.new n disk k page_size)
        = some (s1, (List.range n).map (fun (j : Nat) => ((j : Int), j))) ∧
      unpinEach false (S.map (fun (j : Nat) => (j : Int))) s1 = some s2 ∧
      s2.NewPage t = .ok (s3, some ((n : Int), m)) ∧
      s3.disk_ = s2.disk_ ∧ s3.disk_.log = disk.log ∧
      s3.page_table_ = ptAssign (ptErase s2.page_table_ (m : Int)) (n : Int) m ∧
      (∀ p, ptFind s3.page_table_ p
        = if p = (n : Int) then some m else if p = (m : Int) then none
          else ptFind s2.page_table_ p) ∧
      (∀ p, ptFind s2.page_table_ p ≠ none ↔ (0 ≤ p ∧ p < (n : Int))) := by
  obtain ⟨s1, hrun1, hfill1, hd1⟩ :=
    newPages_filled n ts [] 0 _ (Filled_new n disk k page_size hk) (by omega) hts
  simp only [Nat.zero_add, hlen, List.nil_append] at hrun1 hfill1
  obtain ⟨s2, hrun2, hfill2, hd2, _⟩ :=
    unpinEach_filled n ts S [] s1 hfill1 hS (fun j hj => ⟨hSn j hj, List.not_mem_nil j⟩)
  obtain ⟨s3, hrun3, hd3, htab⟩ :=
    hfill2.newPage_evicts hts hsorted m (by simp [hm]) (hSn m hm)
      (fun j hj => hmin j (by simpa using hj)) t ht
  refine ⟨s1, s2, s3, ?_, hrun2, hrun3, hd3, ?_, htab, ?_, ?_⟩
  · rw [hrun1, List.range_eq_range']
  · rw [hd3, hd2, hd1]
    rfl
  · intro p
    rw [htab, ptFind_ptAssign, ptFind_ptErase]
  · intro p
    have := hfill2.table_keys p
    constructor
    · intro hp
      by_contra hcon
      exact hp (this.mpr hcon)
    · intro hp hnone
      exact (this.mp hnone) hp

theorem fill_and_evict_reuses_oldest_unpinned_frame_witness :
    (1 : Nat) ≤ 2 ∧ [1, 1, 2].length = 3 ∧ (∀ x ∈ [1, 1, 2], x ≠ 0) ∧
      [1, 1, 2].Pairwise (fun a b => a ≤ b) ∧ [2, 1].Nodup ∧ (∀ j ∈ [2, 1], j < 3) ∧
      1 ∈ [2, 1] ∧ (∀ j ∈ [2, 1], 1 ≤ j) ∧ (5 : Nat) ≠ 0 ∧
      ∃ s1 s2 s3,
        newPages [1, 1, 2] (BufferPoolManager.new 3 exampleDisk 2 2)
          = some (s1, [(0, 0), (1, 1), (2, 2)]) ∧
        unpinEach false [2, 1] s1 = some s2 ∧
        s2.NewPage 5 = .ok (s3, some (3, 1)) ∧ s3.disk_.log = [] ∧
        s3.page_table_ = ptAssign (ptErase s2.page_table_ 1) 3 1 := by
  have h1 : ∀ x ∈ [1, 1, 2], x ≠ 0 := by decide
  have h2 : [1, 1, 2].Pairwise (fun a b => a ≤ b) := by decide
  have h3 : ∀ j ∈ [2, 1], j < 3 := by decide
  have h4 : ∀ j ∈ [2, 1], 1 ≤ j := by decide
  obtain ⟨s1, s2, s3, a1, a2, a3, _, a5, a6, _⟩ :=
    fill_and_evict_reuses_oldest_unpinned_frame 3 2 2 exampleDisk [1, 1, 2] [2, 1] 1 5
      (by decide) rfl h1 h2 (by decide) h3 (by decide) h4 (by decide)
  exact ⟨by decide, rfl, h1, h2, by decide, h3, by decide, h4, by decide, s1, s2, s3, a1, a2, a3,
    a5, a6⟩


/-! ### The replacer's size counts the unpinned resident frames -/

theorem tracked_of_core {a b : Option LRUKNode}
    (h : a.map LRUKNode.core = b.map LRUKNode.core) : a.isSome = b.isSome :=
  (core_observations h).2.2

theorem Picked.coverOthers {s s0 : BufferPoolManager} {f : Nat} (hinv : s.Inv) (hcov : s.Cover)
    (hp : Picked s f s0) (g : Nat) (hg : g < s.pool_size_) (hgf : g ≠ f) :
    g ∈ s0.free_list_ ∨ s0.replacer_.tracked g = true := by
  rcases hp with ⟨rest, hfl, rfl⟩ | ⟨hfl, r1, hev, rfl⟩
  · rcases hcov g hg with h | h
    · rw [hfl] at h
      rcases List.mem_cons.mp h with e | e
      · exact absurd e hgf
      · exact Or.inl e
    · exact Or.inr h
  · rcases hcov g hg with h | h
    · rw [hfl] at h
      cases h
    · have hpos : 0 < s.replacer_.replacer_size_ := by
        by_contra h0
        rw [Evict_empty s.replacer_ hinv.wf (by omega)] at hev
        cases hev
      obtain ⟨f2, nd, r2, _, _, _, hrun, hpost, _⟩ := Evict_spec s.replacer_ hinv.wf hpos
      rw [hrun] at hev
      have e := Except.ok.inj hev
      simp only [Prod.mk.injEq, Option.some.injEq] at e
      obtain ⟨e1, e2⟩ := e
      subst e1
      subst e2
      right
      have := tracked_of_core (hpost.others g hgf)
      simp only [LRUKReplacer.tracked] at h ⊢
      rw [this]
      exact h

theorem installed_cover {s s0 : BufferPoolManager} {f : Nat} (hinv : s.Inv) (hcov : s.Cover)
    (hp : Picked s f s0) (page_id : Int) (data : List Nat) (disk : Disk) (next : Int)
    (now : Nat) : (s0.installed f page_id data disk next now).Cover := by
  intro g hg
  have hpool : s0.pool_size_ = s.pool_size_ := hp.keeps.2.2.2.2
  by_cases hgf : g = f
  · right
    simp [BufferPoolManager.installed, LRUKReplacer.tracked, tracking_store, hgf]
  · have hg2 : g < s.pool_size_ := by
      rw [← hpool]
      exact hg
    rcases hp.coverOthers hinv hcov g hg2 hgf with h | h
    · exact Or.inl h
    · right
      simp only [BufferPoolManager.installed, LRUKReplacer.tracked, tracking_store, hgf,
        if_false]
      exact h

theorem NewPage_cover (s s1 : BufferPoolManager) (now : Nat) (res : Option (Int × Nat))
    (hinv : s.Inv) (hcov : s.Cover) (hnow : now ≠ 0) (hrun : s.NewPage now = .ok (s1, res)) :
    s1.Cover := by
  rcases pick_total s hinv with ⟨f, s0, hp⟩ | ⟨hfl, _, hev⟩
  · rw [NewPage_of_picked s s0 f now hinv hp hnow] at hrun
    cases hrun
    exact installed_cover hinv hcov hp _ _ _ _ now
  · rw [NewPage_none s now hfl hev] at hrun
    cases hrun
    exact hcov

theorem FetchPage_cover (s s1 : BufferPoolManager) (p : Int) (now : Nat) (res : Option Nat)
    (hinv : s.Inv) (hcov : s.Cover) (hnow : now ≠ 0)
    (hrun : s.FetchPage p now = .ok (s1, res)) : s1.Cover := by
  cases hfind : ptFind s.page_table_ p with
  | some f =>
    obtain ⟨hfv, _, _⟩ := hinv.table p f (ptFind_mem hfind)
    obtain ⟨r1, nd, hnd, _, hpost1, hcore1, heq⟩ := FetchPage_hit_run s p f now hinv hfind hnow
    rw [heq] at hrun
    cases hr2 : r1.SetEvictable f false with
    | error e => rw [hr2] at hrun; cases hrun
    | ok r2 =>
      rw [hr2] at hrun
      cases hrun
      have hf1 : f < r1.total_num_frames := by rw [hpost1.total_eq, hinv.total]; exact hfv
      obtain ⟨hpost2, hcore2, _⟩ := SetEvictable_false_ok r1 r2 f hpost1.wf hf1 hr2
      intro g hg
      rcases hcov g hg with h | h
      · exact Or.inl h
      · right
        simp only [LRUKReplacer.tracked] at h ⊢
        by_cases hgf : g = f
        · subst hgf
          cases h1 : r1.node_store_ g with
          | none => rw [h1] at hcore1; simp at hcore1
          | some x =>
            rw [h1] at hcore2
            cases h2 : r2.node_store_ g with
            | none => rw [h2] at hcore2; simp at hcore2
            | some y => rfl
        · rw [tracked_of_core (hpost2.others g hgf), tracked_of_core (hpost1.others g hgf)]
          exact h
  | none =>
    rcases pick_total s hinv with ⟨f, s0, hp⟩ | ⟨hfl, _, hev⟩
    · rw [FetchPage_of_picked s s0 f p now hinv hfind hp hnow] at hrun
      cases hrun
      exact installed_cover hinv hcov hp _ _ _ _ now
    · rw [FetchPage_none s p now hfind hfl hev] at hrun
      cases hrun
      exact hcov

theorem UnpinPage_cover (s s1 : BufferPoolManager) (p : Int) (b res : Bool)
    (hinv : s.Inv) (hcov : s.Cover) (hrun : s.UnpinPage p b = .ok (s1, res)) : s1.Cover := by
  cases hfind : ptFind s.page_table_ p with
  | none =>
    rw [UnpinPage_fail s p b (Or.inl hfind)] at hrun
    cases hrun
    exact hcov
  | some f =>
    by_cases hpin : (s.pages_ f).pin_count_ = 0
    · rw [UnpinPage_fail s p b (Or.inr ⟨f, hfind, hpin⟩)] at hrun
      cases hrun
      exact hcov
    · obtain ⟨r1, heq, _, hhist⟩ := UnpinPage_keeps_history s p b f hinv hfind (by omega)
      rw [heq] at hrun
      cases hrun
      intro g hg
      rcases hcov g hg with h | h
      · exact Or.inl h
      · right
        have := hhist g
        simp only [LRUKReplacer.historyOf, LRUKReplacer.tracked] at this h ⊢
        cases h1 : r1.node_store_ g with
        | none =>
          rw [h1] at this
          cases h2 : s.replacer_.node_store_ g with
          | none => rw [h2] at h; cases h
          | some y => rw [h2] at this; simp at this
        | some x => rfl

theorem DeletePage_cover (s s1 : BufferPoolManager) (p : Int) (res : Bool)
    (hinv : s.Inv) (hcov : s.Cover) (hrun : s.DeletePage p = .ok (s1, res)) : s1.Cover := by
  by_cases hp : p = INVALID_PAGE_ID
  · rw [DeletePage_absent s p (Or.inl hp)] at hrun
    cases hrun
    exact hcov
  · cases hfind : ptFind s.page_table_ p with
    | none =>
      rw [DeletePage_absent s p (Or.inr hfind)] at hrun
      cases hrun
      exact hcov
    | some f =>
      by_cases hpin : (s.pages_ f).pin_count_ = 0
      · rw [DeletePage_run s p f hp hfind hpin] at hrun
        cases hr : s.replacer_.Remove f with
        | error e => rw [hr] at hrun; cases hrun
        | ok r1 =>
          rw [hr] at hrun
          cases hrun
          obtain ⟨hfv, _, _⟩ := hinv.table p f (ptFind_mem hfind)
          have hf : f < s.replacer_.total_num_frames := by rw [hinv.total]; exact hfv
          obtain ⟨_, hpost, _, _⟩ := Remove_ok s.replacer_ r1 f hinv.wf hf hr
          intro g hg
          by_cases hgf : g = f
          · left
            simp [BufferPoolManager.deleted, hgf]
          · rcases hcov g hg with h | h
            · left
              simp [BufferPoolManager.deleted, h]
            · right
              simp only [BufferPoolManager.deleted, LRUKReplacer.tracked] at h ⊢
              rw [tracked_of_core (hpost.others g hgf)]
              exact h
      · rw [DeletePage_pinned s p f hfind (by omega)] at hrun
        cases hrun
        exact hcov

theorem DirtyOnly.keepsCover {s s1 : BufferPoolManager} (h : DirtyOnly s s1) (hcov : s.Cover) :
    s1.Cover := by
  obtain ⟨a1, a2, a3, _⟩ := h
  intro g hg
  rw [a2, a3]
  rw [a1] at hg
  exact hcov g hg

theorem BPMReach.cover {s : BufferPoolManager} (h : BPMReach s) : s.Cover := by
  induction h with
  | init n d k ps hk =>
    intro f hf
    left
    simp only [BufferPoolManager.new] at hf ⊢
    exact List.mem_range.mpr hf
  | newPage now s1 res h hnow hrun ih => exact NewPage_cover _ s1 now res h.inv ih hnow hrun
  | fetchPage p now s1 res h hnow hrun ih =>
    exact FetchPage_cover _ s1 p now res h.inv ih hnow hrun
  | unpinPage p b s1 res h hrun ih => exact UnpinPage_cover _ s1 p b res h.inv ih hrun
  | flushPage p s1 res h hrun ih => exact (FlushPage_dirtyOnly _ s1 p res hrun).keepsCover ih
  | flushAllPages s1 h hrun ih => exact (flushAllLoop_dirtyOnly _ _ s1 hrun).keepsCover ih
  | deletePage p s1 res h hrun ih => exact DeletePage_cover _ s1 p res h.inv ih hrun

theorem evictable_iff_unpinned_resident {s : BufferPoolManager} (hinv : s.Inv)
    (hcov : s.Cover) (f : Nat) :
    s.replacer_.evictable f = true ↔
      f < s.pool_size_ ∧ f ∉ s.free_list_ ∧ (s.pages_ f).pin_count_ = 0 := by
  constructor
  · intro h
    cases hs : s.replacer_.node_store_ f with
    | none => simp [LRUKReplacer.evictable, hs] at h
    | some nd =>
      rw [evictable_eq _ f nd hs] at h
      refine ⟨?_, ?_, (hinv.evictable_iff f nd hs).mp h⟩
      · rw [← hinv.total]
        exact (hinv.wf.nodes f nd hs).2.1
      · intro hfree
        have := (hinv.free f hfree).2.1
        rw [hs] at this
        cases this
  · rintro ⟨h1, h2, h3⟩
    rcases hcov f h1 with h | h
    · exact absurd h h2
    · cases hs : s.replacer_.node_store_ f with
      | none => simp [LRUKReplacer.tracked, hs] at h
      | some nd =>
        rw [evictable_eq _ f nd hs]
        exact (hinv.evictable_iff f nd hs).mpr h3

theorem size_eq_card_evictable (r : LRUKReplacer) (hwf : r.WF) :
    r.replacer_size_
      = ((Finset.range r.total_num_frames).filter (fun f => r.evictable f = true)).card := by
  obtain ⟨S, hc, hmem, hsub⟩ := heap_frames_card r _ hwf.slots hwf.nodes
  rw [hwf.rsize, ← hc]
  congr 1
  ext f
  simp only [Finset.mem_filter, Finset.mem_range, hmem]
  constructor
  · intro h
    obtain ⟨nd, hs, hflag, _⟩ := hwf.inHeap_tracked h
    exact ⟨(hwf.nodes f nd hs).2.1, by rw [evictable_eq r f nd hs]; exact hflag⟩
  · rintro ⟨_, h⟩
    cases hs : r.node_store_ f with
    | none => simp [LRUKReplacer.evictable, hs] at h
    | some nd =>
      rw [evictable_eq r f nd hs] at h
      exact (hwf.flags f nd hs).mp h

theorem filter_range_length (n : Nat) (q : Nat → Bool) :
    ((List.range n).filter q).length
      = ((Finset.range n).filter (fun f => q f = true)).card := by
  have e : Finset.range n = (List.range n).toFinset := by
    ext x
    simp
  rw [e, ← List.toFinset_filter, List.toFinset_card_of_nodup ((List.nodup_range n).filter _)]


theorem ptFind_of_mem {pt : List (Int × Nat)} {p : Int} {f : Nat} (h : (p, f) ∈ pt) :
    ptFind pt p ≠ none := by
  induction pt with
  | nil => cases h
  | cons e rest ih =>
    obtain ⟨q, g⟩ := e
    simp only [ptFind]
    by_cases hq : q = p
    · simp [hq]
    · simp only [hq, if_false]
      rcases List.mem_cons.mp h with e1 | e1
      · simp only [Prod.mk.injEq] at e1
        exact absurd e1.1.symm hq
      · exact ih e1

theorem keys_nodup_unique {pt : List (Int × Nat)} (hnd : (pt.map Prod.fst).Nodup) {p : Int}
    {a b : Nat} (ha : (p, a) ∈ pt) (hb : (p, b) ∈ pt) : a = b := by
  induction pt with
  | nil => cases ha
  | cons e rest ih =>
    simp only [List.map_cons, List.nodup_cons] at hnd
    obtain ⟨hnot, hnd2⟩ := hnd
    rcases List.mem_cons.mp ha with e1 | e1
    · rcases List.mem_cons.mp hb with e2 | e2
      · rw [← e1] at e2
        simp only [Prod.mk.injEq] at e2
        exact e2.2.symm
      · exfalso
        apply hnot
        rw [← e1]
        exact List.mem_map.mpr ⟨(p, b), e2, rfl⟩
    · rcases List.mem_cons.mp hb with e2 | e2
      · exfalso
        apply hnot
        rw [← e2]
        exact List.mem_map.mpr ⟨(p, a), e1, rfl⟩
      · exact ih hnd2 e1 e2

theorem installed_issued {s s0 : BufferPoolManager} {f : Nat} (hinv : s.Inv)
    (hnd : (s.page_table_.map Prod.fst).Nodup) (hiss : s.Issued) (hp : Picked s f s0)
    (page_id : Int) (hpid : 0 ≤ page_id) (hfresh : ptFind s.page_table_ page_id = none)
    (next : Int) (hnext : s.next_page_id_ ≤ next) (hlt : page_id < next) (data : List Nat)
    (disk : Disk) (now : Nat) : (s0.installed f page_id data disk next now).Issued := by
  obtain ⟨e1, e2, _, _, e5⟩ := hp.keeps
  have hfv : f < s.pool_size_ := by
    rw [← e5]
    exact (hp.preInstall hinv).valid
  have hnn := hiss.next_nonneg
  refine ⟨?_, ?_, ?_⟩
  · simp only [BufferPoolManager.installed]
    omega
  · intro q g hq
    simp only [BufferPoolManager.installed, e1, e2] at hq ⊢
    rcases mem_ptAssign.mp hq with ⟨a1, _⟩ | ⟨a1, _⟩
    · subst a1
      exact ⟨hpid, hlt⟩
    · obtain ⟨b1, b2⟩ := hiss.keys q g (mem_ptErase.mp a1).1
      exact ⟨b1, by omega⟩
  · intro g hg hgfree
    simp only [BufferPoolManager.installed, e1, e2, e5] at hg hgfree ⊢
    by_cases hgf : g = f
    · subst hgf
      simp only [upd_same]
      exact mem_ptAssign.mpr (Or.inl ⟨rfl, rfl⟩)
    · simp only [upd, hgf, if_false]
      have hgfree2 : g ∉ s.free_list_ := by
        rcases hp with ⟨rest, hfl, rfl⟩ | ⟨_, r1, _, rfl⟩
        · rw [hfl]
          simp only [List.mem_cons, not_or]
          exact ⟨hgf, hgfree⟩
        · exact hgfree
      have hmem := hiss.entry g hg hgfree2
      refine mem_ptAssign.mpr (Or.inr ⟨mem_ptErase.mpr ⟨hmem, ?_⟩, ?_⟩)
      · intro heq
        by_cases hffree : f ∈ s.free_list_
        · have hinvalid := (hinv.free f hffree).2.2.2
          have := (hiss.keys _ g hmem).1
          rw [heq, hinvalid] at this
          simp [INVALID_PAGE_ID] at this
        · have hmemf := hiss.entry f hfv hffree
          rw [heq] at hmem
          exact hgf (keys_nodup_unique hnd hmem hmemf)
      · intro heq
        rw [heq] at hmem
        exact ptFind_of_mem hmem hfresh

theorem NewPage_issued (s s1 : BufferPoolManager) (now : Nat) (res : Option (Int × Nat))
    (hinv : s.Inv) (hnd : (s.page_table_.map Prod.fst).Nodup) (hiss : s.Issued)
    (hnow : now ≠ 0) (hrun : s.NewPage now = .ok (s1, res)) : s1.Issued := by
  rcases pick_total s hinv with ⟨f, s0, hp⟩ | ⟨hfl, _, hev⟩
  · rw [NewPage_of_picked s s0 f now hinv hp hnow] at hrun
    cases hrun
    refine installed_issued hinv hnd hiss hp _ hiss.next_nonneg ?_ _ (by omega) (by omega)
      _ _ now
    cases hfind : ptFind s.page_table_ s.next_page_id_ with
    | none => rfl
    | some g =>
      have := (hiss.keys _ g (ptFind_mem hfind)).2
      omega
  · rw [NewPage_none s now hfl hev] at hrun
    cases hrun
    exact hiss

theorem hit_issued (s : BufferPoolManager) (f : Nat) (pg : Page) (r2 : LRUKReplacer)
    (hiss : s.Issued) (hpg : pg.page_id_ = (s.pages_ f).page_id_) :
    ({ s with pages_ := upd s.pages_ f pg, replacer_ := r2 } : BufferPoolManager).Issued := by
  refine ⟨hiss.next_nonneg, hiss.keys, ?_⟩
  intro g hg hgfree
  have := hiss.entry g hg hgfree
  by_cases hgf : g = f
  · subst hgf
    simp only [upd_same, hpg]
    exact this
  · simp only [upd, hgf, if_false]
    exact this

theorem FetchPage_issued (s s1 : BufferPoolManager) (p : Int) (now : Nat) (res : Option Nat)
    (hinv : s.Inv) (hnd : (s.page_table_.map Prod.fst).Nodup) (hiss : s.Issued)
    (hnow : now ≠ 0) (hid : 0 ≤ p ∧ p < s.next_page_id_)
    (hrun : s.FetchPage p now = .ok (s1, res)) : s1.Issued := by
  cases hfind : ptFind s.page_table_ p with
  | some f =>
    obtain ⟨r1, nd, _, _, _, _, heq⟩ := FetchPage_hit_run s p f now hinv hfind hnow
    rw [heq] at hrun
    cases hr2 : r1.SetEvictable f false with
    | error e => rw [hr2] at hrun; cases hrun
    | ok r2 =>
      rw [hr2] at hrun
      cases hrun
      exact hit_issued s f _ r2 hiss rfl
  | none =>
    rcases pick_total s hinv with ⟨f, s0, hp⟩ | ⟨hfl, _, hev⟩
    · rw [FetchPage_of_picked s s0 f p now hinv hfind hp hnow] at hrun
      cases hrun
      exact installed_issued hinv hnd hiss hp p hid.1 hfind _ (le_refl _) hid.2 _ _ now
    · rw [FetchPage_none s p now hfind hfl hev] at hrun
      cases hrun
      exact hiss

theorem UnpinPage_issued (s s1 : BufferPoolManager) (p : Int) (b res : Bool)
    (hinv : s.Inv) (hiss : s.Issued) (hrun : s.UnpinPage p b = .ok (s1, res)) :
    s1.Issued := by
  cases hfind : ptFind s.page_table_ p with
  | none =>
    rw [UnpinPage_fail s p b (Or.inl hfind)] at hrun
    cases hrun
    exact hiss
  | some f =>
    by_cases hpin : (s.pages_ f).pin_count_ = 0
    · rw [UnpinPage_fail s p b (Or.inr ⟨f, hfind, hpin⟩)] at hrun
      cases hrun
      exact hiss
    · obtain ⟨r1, heq, _⟩ := UnpinPage_spec s p b f hinv hfind (by omega)
      rw [heq] at hrun
      cases hrun
      exact hit_issued s f _ r1 hiss rfl

theorem DeletePage_issued (s s1 : BufferPoolManager) (p : Int) (res : Bool)
    (hnd : (s.page_table_.map Prod.fst).Nodup) (hiss : s.Issued)
    (hrun : s.DeletePage p = .ok (s1, res)) : s1.Issued := by
  by_cases hp : p = INVALID_PAGE_ID
  · rw [DeletePage_absent s p (Or.inl hp)] at hrun
    cases hrun
    exact hiss
  · cases hfind : ptFind s.page_table_ p with
    | none =>
      rw [DeletePage_absent s p (Or.inr hfind)] at hrun
      cases hrun
      exact hiss
    | some f =>
      by_cases hpin : (s.pages_ f).pin_count_ = 0
      · rw [DeletePage_run s p f hp hfind hpin] at hrun
        cases hr : s.replacer_.Remove f with
        | error e => rw [hr] at hrun; cases hrun
        | ok r1 =>
          rw [hr] at hrun
          cases hrun
          refine ⟨hiss.next_nonneg, ?_, ?_⟩
          · intro q g hq
            exact hiss.keys q g (mem_ptErase.mp hq).1
          · intro g hg hgfree
            simp only [BufferPoolManager.deleted, List.mem_append, List.mem_singleton,
              not_or] at hg hgfree ⊢
            obtain ⟨hgfree1, hgf⟩ := hgfree
            simp only [upd, hgf, if_false]
            have hmem := hiss.entry g hg hgfree1
            refine mem_ptErase.mpr ⟨hmem, ?_⟩
            intro heq
            rw [heq] at hmem
            exact hgf (keys_nodup_unique hnd hmem (ptFind_mem hfind))
      · rw [DeletePage_pinned s p f hfind (by omega)] at hrun
        cases hrun
        exact hiss

theorem DirtyOnly.keepsIssued {s s1 : BufferPoolManager} (h : DirtyOnly s s1)
    (hiss : s.Issued) : s1.Issued := by
  obtain ⟨a1, _, a3, a4, a5, a6⟩ := h
  refine ⟨by rw [a5]; exact hiss.next_nonneg, ?_, ?_⟩
  · intro p f hp
    rw [a4] at hp
    rw [a5]
    exact hiss.keys p f hp
  · intro f hf hfree
    rw [a1] at hf
    rw [a3] at hfree
    rw [a4, (a6 f).2.1]
    exact hiss.entry f hf hfree

theorem BPMReachIssued.toReach {s : BufferPoolManager} (h : BPMReachIssued s) : BPMReach s := by
  induction h with
  | init n d k ps hk => exact BPMReach.init n d k ps hk
  | newPage now s1 res _ hnow hrun ih => exact BPMReach.newPage now s1 res ih hnow hrun
  | fetchPage p now s1 res _ hnow _ hrun ih => exact BPMReach.fetchPage p now s1 res ih hnow hrun
  | unpinPage p b s1 res _ hrun ih => exact BPMReach.unpinPage p b s1 res ih hrun
  | flushPage p s1 res _ hrun ih => exact BPMReach.flushPage p s1 res ih hrun
  | flushAllPages s1 _ hrun ih => exact BPMReach.flushAllPages s1 ih hrun
  | deletePage p s1 res _ hrun ih => exact BPMReach.deletePage p s1 res ih hrun

theorem BPMReachIssued.issued {s : BufferPoolManager} (h : BPMReachIssued s) : s.Issued := by
  induction h with
  | init n d k ps hk =>
    refine ⟨le_refl _, ?_, ?_⟩
    · intro p f hp
      simp [BufferPoolManager.new] at hp
    · intro f hf hfree
      simp only [BufferPoolManager.new, List.mem_range] at hf hfree
      exact absurd hf hfree
  | newPage now s1 res h hnow hrun ih =>
    exact NewPage_issued _ s1 now res h.toReach.inv h.toReach.table_nodup.1 ih hnow hrun
  | fetchPage p now s1 res h hnow hid hrun ih =>
    exact FetchPage_issued _ s1 p now res h.toReach.inv h.toReach.table_nodup.1 ih hnow hid hrun
  | unpinPage p b s1 res h hrun ih => exact UnpinPage_issued _ s1 p b res h.toReach.inv ih hrun
  | flushPage p s1 res h hrun ih => exact (FlushPage_dirtyOnly _ s1 p res hrun).keepsIssued ih
  | flushAllPages s1 h hrun ih => exact (flushAllLoop_dirtyOnly _ _ s1 hrun).keepsIssued ih
  | deletePage p s1 res h hrun ih =>
    exact DeletePage_issued _ s1 p res h.toReach.table_nodup.1 ih hrun

/-- C16. In every state reachable from construction by `NewPage`, `FetchPage`,
`UnpinPage`, `FlushPage`, `FlushAllPages` and `DeletePage`, the replacer's
`Size()` equals the number of frames that are resident (not in the free list:
they hold a page that was installed and not deleted since) and have pin count
zero; these are exactly the frames that the replacer flags evictable.  The same
number is obtained by counting the frames whose page id is not
`INVALID_PAGE_ID` and whose pin count is zero when every resident frame carries
such a page id, and by counting the frames of page-table entries whose pin count
is zero when every resident frame has a page-table entry; both conditions hold
in every state reached with `FetchPage` called only on page ids that `NewPage`
has issued. -/
theorem replacer_size_counts_unpinned_resident_frames (s : BufferPoolManager)
    (hreach : BPMReach s) :
    s.replacer_.Size = s.unpinnedResidentFrames ∧
    (∀ f, s.replacer_.evictable f = true ↔
      f < s.pool_size_ ∧ f ∉ s.free_list_ ∧ (s.pages_ f).pin_count_ = 0) ∧
    ((∀ f, f < s.pool_size_ → f ∉ s.free_list_ →
        (s.pages_ f).page_id_ ≠ INVALID_PAGE_ID) →
      s.replacer_.Size = s.unpinnedFramesWithPageId) ∧
    ((∀ f, f < s.pool_size_ → f ∉ s.free_list_ → ∃ p, (p, f) ∈ s.page_table_) →
      s.replacer_.Size = s.unpinnedFramesInPageTable) ∧
    (BPMReachIssued s →
      s.replacer_.Size = s.unpinnedFramesWithPageId ∧
      s.replacer_.Size = s.unpinnedFramesInPageTable) := by
  have hinv := hreach.inv
  have hcov := hreach.cover
  have hchar := evictable_iff_unpinned_resident hinv hcov
  have hsize : s.replacer_.Size = s.unpinnedResidentFrames := by
    unfold LRUKReplacer.Size BufferPoolManager.unpinnedResidentFrames
    rw [size_eq_card_evictable _ hinv.wf, filter_range_length, hinv.total]
    congr 1
    ext f
    simp only [Finset.mem_filter, Finset.mem_range, decide_eq_true_eq]
    constructor
    · rintro ⟨h1, h2⟩
      exact ⟨h1, ((hchar f).mp h2).2⟩
    · rintro ⟨h1, h2⟩
      exact ⟨h1, (hchar f).mpr ⟨h1, h2⟩⟩
  have hbyId : (∀ f, f < s.pool_size_ → f ∉ s.free_list_ →
        (s.pages_ f).page_id_ ≠ INVALID_PAGE_ID) →
      s.replacer_.Size = s.unpinnedFramesWithPageId := by
    intro hid
    rw [hsize]
    unfold BufferPoolManager.unpinnedResidentFrames BufferPoolManager.unpinnedFramesWithPageId
    congr 1
    apply List.filter_congr
    intro f hf
    have hfp : f < s.pool_size_ := List.mem_range.mp hf
    by_cases hfree : f ∈ s.free_list_
    · have := (hinv.free f hfree).2.2.2
      simp [hfree, this]
    · have := hid f hfp hfree
      simp [hfree, this]
  have hbyTable : (∀ f, f < s.pool_size_ → f ∉ s.free_list_ →
        ∃ p, (p, f) ∈ s.page_table_) →
      s.replacer_.Size = s.unpinnedFramesInPageTable := by
    intro hent
    rw [hsize]
    unfold BufferPoolManager.unpinnedResidentFrames BufferPoolManager.unpinnedFramesInPageTable
    congr 1
    apply List.filter_congr
    intro f hf
    have hfp : f < s.pool_size_ := List.mem_range.mp hf
    have hiff : f ∉ s.free_list_ ↔ ∃ e ∈ s.page_table_, e.2 = f := by
      constructor
      · intro hfree
        obtain ⟨p, hp⟩ := hent f hfp hfree
        exact ⟨(p, f), hp, rfl⟩
      · rintro ⟨⟨p, g⟩, he, rfl⟩ hfree
        exact (hinv.table p g he).2.1 (hinv.free g hfree).2.1
    simp only [hiff]
  refine ⟨hsize, hchar, hbyId, hbyTable, ?_⟩
  intro hissued
  have hiss := hissued.issued
  constructor
  · apply hbyId
    intro f hf hfree heq
    have := (hiss.keys _ f (hiss.entry f hf hfree)).1
    rw [heq] at this
    simp [INVALID_PAGE_ID] at this
  · apply hbyTable
    intro f hf hfree
    exact ⟨_, hiss.entry f hf hfree⟩

theorem scenarioTwoEvictable_issued : BPMReachIssued scenarioTwoEvictable :=
  BPMReachIssued.unpinPage 1 false _ true
    (BPMReachIssued.unpinPage 0 false _ true
      (BPMReachIssued.newPage 3 _ (some (2, 2))
        (BPMReachIssued.newPage 2 _ (some (1, 1))
          (BPMReachIssued.newPage 1 _ (some (0, 0))
            (BPMReachIssued.init 3 exampleDisk 2 2 (by decide))
            (by decide) rfl) (by decide) rfl) (by decide) rfl) rfl) rfl

theorem replacer_size_counts_unpinned_resident_frames_witness :
    BPMReach scenarioTwoEvictable ∧ BPMReachIssued scenarioTwoEvictable ∧
      scenarioTwoEvictable.replacer_.Size = 2 ∧
      scenarioTwoEvictable.unpinnedResidentFrames = 2 ∧
      scenarioTwoEvictable.replacer_.Size = scenarioTwoEvictable.unpinnedResidentFrames ∧
      scenarioTwoEvictable.replacer_.Size = scenarioTwoEvictable.unpinnedFramesWithPageId ∧
      scenarioTwoEvictable.replacer_.Size = scenarioTwoEvictable.unpinnedFramesInPageTable :=
  ⟨scenarioTwoEvictable_reach, scenarioTwoEvictable_issued, by decide, by decide,
    (replacer_size_counts_unpinned_resident_frames scenarioTwoEvictable
      scenarioTwoEvictable_reach).1,
    ((replacer_size_counts_unpinned_resident_frames scenarioTwoEvictable
      scenarioTwoEvictable_reach).2.2.2.2 scenarioTwoEvictable_issued).1,
    ((replacer_size_counts_unpinned_resident_frames scenarioTwoEvictable
      scenarioTwoEvictable_reach).2.2.2.2 scenarioTwoEvictable_issued).2⟩

/-- The counts differ when a resident frame carries the page id
`INVALID_PAGE_ID`: after `FetchPage(INVALID_PAGE_ID)` and
`UnpinPage(INVALID_PAGE_ID, false)` on a fresh pool of one frame, `Size()` is 1
and frame 0 is resident and unpinned, with a page-table entry, but its page id
is `INVALID_PAGE_ID`. -/
theorem unpinned_frame_with_invalid_page_id :
    BPMReach scenarioInvalidUnpinned ∧
      valueOf (scenarioInvalidFetched.UnpinPage INVALID_PAGE_ID false) = some true ∧
      scenarioInvalidUnpinned.replacer_.Size = 1 ∧
      scenarioInvalidUnpinned.unpinnedResidentFrames = 1 ∧
      scenarioInvalidUnpinned.unpinnedFramesInPageTable = 1 ∧
      scenarioInvalidUnpinned.free_list_ = [] ∧
      scenarioInvalidUnpinned.page_table_ = [(INVALID_PAGE_ID, 0)] ∧
      (scenarioInvalidUnpinned.pages_ 0).page_id_ = INVALID_PAGE_ID ∧
      (scenarioInvalidUnpinned.pages_ 0).pin_count_ = 0 ∧
      scenarioInvalidUnpinned.unpinnedFramesWithPageId = 0 :=
  ⟨scenarioInvalidUnpinned_reach, by decide, by decide, by decide, by decide, by decide,
    by decide, by decide, by decide, by decide⟩


theorem scenarioReissuedId_reach : BPMReach scenarioReissuedId :=
  BPMReach.newPage 2 _ (some (0, 1))
    (BPMReach.unpinPage 0 false _ true
      (BPMReach.fetchPage 0 1 _ (some 0) (BPMReach.init 2 exampleDisk 2 2 (by decide))
        (by decide) rfl) rfl) (by decide) rfl

/-- The count over the page table differs when a resident frame has lost its
page-table entry: in `scenarioReissuedId` frame 0 is resident and unpinned
(`Size()` is 1) and carries page id 0, but the only page-table entry maps page 0
to frame 1, which is pinned. -/
theorem unpinned_frame_without_page_table_entry :
    BPMReach scenarioReissuedId ∧
      scenarioReissuedId.replacer_.Size = 1 ∧
      scenarioReissuedId.unpinnedResidentFrames = 1 ∧
      scenarioReissuedId.unpinnedFramesWithPageId = 1 ∧
      scenarioReissuedId.page_table_ = [(0, 1)] ∧
      (scenarioReissuedId.pages_ 0).page_id_ = 0 ∧
      (scenarioReissuedId.pages_ 0).pin_count_ = 0 ∧
      (scenarioReissuedId.pages_ 1).pin_count_ = 1 ∧
      scenarioReissuedId.unpinnedFramesInPageTable = 0 :=
  ⟨scenarioReissuedId_reach, by decide, by decide, by decide, by decide, by decide, by decide,
    by decide, by decide⟩


/-! ## C21 - C27 -/

theorem Remove_untracked_aborts (r : LRUKReplacer) (f : Nat) (h : r.tracked f = false) :
    faultOf (r.Remove f) ≠ none := by
  have hnone : r.node_store_ f = none := by
    cases hs : r.node_store_ f with
    | none => rfl
    | some nd => simp [LRUKReplacer.tracked, hs] at h
  unfold LRUKReplacer.Remove
  rw [hnone]
  split_ifs <;> simp [faultOf]

theorem Remove_nonEvictable_aborts (r : LRUKReplacer) (f : Nat) (hwf : r.WF)
    (hf : f < r.total_num_frames) (htr : r.tracked f = true) (hev : r.evictable f = false) :
    r.Remove f
      = .error (if r.Size = 0 then Fault.noRemovable else Fault.removeNonEvictable) := by
  have hvalid : r.validityOfFrame f = true := by
    simp [LRUKReplacer.validityOfFrame]; omega
  cases hs : r.node_store_ f with
  | none => simp [LRUKReplacer.tracked, hs] at htr
  | some nd =>
    rw [evictable_eq r f nd hs] at hev
    by_cases h0 : r.replacer_size_ = 0
    · simp [LRUKReplacer.Remove, hvalid, hwf.rsize.symm, h0, LRUKReplacer.Size]
    · have hpos : r.replacer_size_ > 0 := by omega
      simp [LRUKReplacer.Remove, hvalid, hwf.rsize.symm, h0, hpos, hs, hev, LRUKReplacer.Size]

/-- C21 (the code aborts). `Remove(f)` of a frame that is not tracked never
returns: on a freshly constructed replacer (and whenever `Size()` is 0) it fails
the assertion "No removable frame is present", and when some frame is evictable
it fails the assertion "No frame found"; in every replacer state whatsoever the
call aborts.  The documentation of `Remove` says "If specified frame is not
found, directly return from this function." -/
theorem remove_of_untracked_frame_aborts :
    (LRUKReplacer.new 3 2).tracked 0 = false ∧
      (LRUKReplacer.new 3 2).validityOfFrame 0 = true ∧
      faultOf ((LRUKReplacer.new 3 2).Remove 0) = some Fault.noRemovable ∧
      ReplacerReach exampleReplacer exampleLog 3 ∧
      exampleReplacer.tracked 2 = false ∧ exampleReplacer.validityOfFrame 2 = true ∧
      exampleReplacer.Size = 2 ∧
      faultOf (exampleReplacer.Remove 2) = some Fault.noFrameFound ∧
      ∀ (r : LRUKReplacer) (f : Nat), r.tracked f = false → faultOf (r.Remove f) ≠ none :=
  ⟨by decide, by decide, by decide, exampleReplacer_reach, by decide, by decide, by decide,
    by decide, Remove_untracked_aborts⟩

/-- C22 (the code aborts). In the reachable replacer state `exampleReplacer`
frames 0 and 1 are tracked and evictable and frame 0 occupies the last of the
two heap slots; `Remove(0)` reaches `removeEle`, which hands the slot it has
just nulled to the comparator: the call dereferences a null pointer instead of
dropping the node and decreasing `Size()`.  (The other half of the claim holds:
in every reachable state `Remove` of a tracked non-evictable frame fails an
assertion.) -/
theorem remove_of_frame_in_last_heap_slot_aborts :
    ReplacerReach exampleReplacer exampleLog 3 ∧
      exampleReplacer.tracked 0 = true ∧ exampleReplacer.evictable 0 = true ∧
      exampleReplacer.evictable 1 = true ∧ exampleReplacer.Size = 2 ∧
      exampleReplacer.min_heap_obj_.arr_ele_ 1 = some 0 ∧
      faultOf (exampleReplacer.Remove 0) = some Fault.nullDeref ∧
      ∀ (r : LRUKReplacer) (log : Nat → List Nat) (last f : Nat), ReplacerReach r log last →
        f < r.total_num_frames → r.tracked f = true → r.evictable f = false →
        r.Remove f
          = .error (if r.Size = 0 then Fault.noRemovable else Fault.removeNonEvictable) :=
  ⟨exampleReplacer_reach, by decide, by decide, by decide, by decide, by decide, by decide,
    fun r _ _ f hreach hf htr hev => Remove_nonEvictable_aborts r f (reach_inv hreach).1 hf htr hev⟩

/-- C26 (the code aborts). The heap of the reachable replacer state
`exampleReplacer` is well formed and holds two nodes; `removeEle(1)`, the removal
of the last slot, decrements `heap_size_`, swaps the slot with itself, nulls it
and then calls `heapifyUpAndDown(1)`, whose `heapifyUp` passes the nulled slot
to the comparator: a null pointer is dereferenced.  The same happens for the
last slot of every well-formed heap of at least two nodes. -/
theorem removeEle_of_last_slot_dereferences_null :
    ReplacerReach exampleReplacer exampleLog 3 ∧ exampleReplacer.WF ∧
      exampleReplacer.min_heap_obj_.heap_size_ = 2 ∧
      exampleReplacer.min_heap_obj_.arr_ele_ 0 = some 1 ∧
      exampleReplacer.min_heap_obj_.arr_ele_ 1 = some 0 ∧
      faultOf (exampleReplacer.removeEle 1) = some Fault.nullDeref ∧
      ∀ r : LRUKReplacer, r.WF → 2 ≤ r.min_heap_obj_.heap_size_ →
        r.removeEle (r.min_heap_obj_.heap_size_ - 1) = .error Fault.nullDeref :=
  ⟨exampleReplacer_reach, (reach_inv exampleReplacer_reach).1, by decide, by decide, by decide,
    by decide,
    fun r hwf h2 => removeEle_last_fault r _ rfl hwf.size_le hwf.slots h2⟩


/-- C24. In every replacer state reached from construction by returning calls
of `RecordAccess`, `SetEvictable`, `Remove` and `Evict` with valid frame ids:
the first `heap_size_` slots of the heap array hold exactly the tracked nodes
whose evictable flag is true, each once, the slots above are null; the heap
size equals `Size()`; every node in the heap stores the index of the slot it
occupies; every tracked frame id is below `num_frames`, so the number of tracked
nodes is at most `num_frames`, and so is the heap size, the capacity of the
array being `num_frames`; and whenever `SetEvictable(f, true)` reaches `push`
(on a tracked, non-evictable frame) the heap size is strictly below the
capacity, so `push` writes inside the array, and the call returns. -/
theorem replacer_heap_well_formed (r : LRUKReplacer) (log : Nat → List Nat) (last : Nat)
    (hreach : ReplacerReach r log last) :
    (∀ f, (∃ i, i < r.min_heap_obj_.heap_size_ ∧ r.min_heap_obj_.arr_ele_ i = some f) ↔
      r.evictable f = true) ∧
    (∀ i j f, i < r.min_heap_obj_.heap_size_ → j < r.min_heap_obj_.heap_size_ →
      r.min_heap_obj_.arr_ele_ i = some f → r.min_heap_obj_.arr_ele_ j = some f → i = j) ∧
    (∀ i, r.min_heap_obj_.heap_size_ ≤ i → r.min_heap_obj_.arr_ele_ i = none) ∧
    r.min_heap_obj_.heap_size_ = r.Size ∧
    (∀ i, i < r.min_heap_obj_.heap_size_ →
      ∃ f nd, r.min_heap_obj_.arr_ele_ i = some f ∧ r.node_store_ f = some nd ∧
        nd.index_in_heap_arr_ = i) ∧
    (∀ f nd, r.node_store_ f = some nd → nd.is_evictable_ = true →
      nd.index_in_heap_arr_ < r.min_heap_obj_.heap_size_ ∧
      r.min_heap_obj_.arr_ele_ nd.index_in_heap_arr_ = some f) ∧
    (∀ f, r.tracked f = true → f < r.total_num_frames) ∧
    r.trackedCount ≤ r.total_num_frames ∧
    r.min_heap_obj_.heap_size_ ≤ r.total_num_frames ∧
    r.min_heap_obj_.heap_capacity_ = r.total_num_frames ∧
    (∀ f, f < r.total_num_frames → r.tracked f = true → r.evictable f = false →
      r.min_heap_obj_.heap_size_ < r.min_heap_obj_.heap_capacity_ ∧
      ∃ r1, r.SetEvictable f true = .ok r1 ∧
        r1.min_heap_obj_.heap_size_ = r.min_heap_obj_.heap_size_ + 1) := by
  have hwf := (reach_inv hreach).1
  refine ⟨?_, ?_, hwf.above, hwf.rsize.symm, hwf.slots, ?_, ?_, ?_, ?_, hwf.cap, ?_⟩
  · intro f
    constructor
    · intro h
      obtain ⟨nd, hs, hflag, _⟩ := hwf.inHeap_tracked h
      rw [evictable_eq r f nd hs]
      exact hflag
    · intro h
      cases hs : r.node_store_ f with
      | none => simp [LRUKReplacer.evictable, hs] at h
      | some nd =>
        rw [evictable_eq r f nd hs] at h
        exact (hwf.flags f nd hs).mp h
  · intro i j f hi hj h1 h2
    exact Slots.inj hwf.slots hi hj h1 h2
  · intro f nd hs hflag
    exact hwf.evictable_slot hs hflag
  · intro f htr
    cases hs : r.node_store_ f with
    | none => simp [LRUKReplacer.tracked, hs] at htr
    | some nd => exact (hwf.nodes f nd hs).2.1
  · unfold LRUKReplacer.trackedCount
    exact (List.length_filter_le _ _).trans (by simp)
  · exact heap_size_le r _ hwf.slots hwf.nodes
  · intro f hf htr hev
    cases hs : r.node_store_ f with
    | none => simp [LRUKReplacer.tracked, hs] at htr
    | some nd =>
      rw [evictable_eq r f nd hs] at hev
      have hnot : ¬ r.InHeap r.min_heap_obj_.heap_size_ f := by
        intro h
        have := (hwf.flags f nd hs).mpr h
        rw [hev] at this
        cases this
      have hlt := heap_size_lt r _ f hwf.slots hwf.nodes hf hnot
      obtain ⟨r1, hrun, hpost, hsz, _⟩ := SetEvictable_true_spec r f nd hwf hf hs hev
      refine ⟨by rw [hwf.cap]; exact hlt, r1, hrun, ?_⟩
      have h1 := hpost.wf.rsize
      have h2 := hwf.rsize
      omega

theorem replacer_heap_well_formed_witness :
    ReplacerReach exampleReplacer exampleLog 3 ∧
      exampleReplacer.min_heap_obj_.heap_size_ = 2 ∧ exampleReplacer.Size = 2 ∧
      exampleReplacer.trackedCount = 2 ∧ exampleReplacer.total_num_frames = 3 ∧
      (∀ f, (∃ i, i < exampleReplacer.min_heap_obj_.heap_size_ ∧
          exampleReplacer.min_heap_obj_.arr_ele_ i = some f) ↔
        exampleReplacer.evictable f = true) ∧
      exampleReplacer.min_heap_obj_.heap_size_ ≤ exampleReplacer.total_num_frames :=
  ⟨exampleReplacer_reach, by decide, by decide, by decide, by decide,
    (replacer_heap_well_formed exampleReplacer exampleLog 3 exampleReplacer_reach).1,
    (replacer_heap_well_formed exampleReplacer exampleLog 3
      exampleReplacer_reach).2.2.2.2.2.2.2.2.1⟩


/-! ### The comparator is a strict total order -/

theorem comparatorLoop_walkKey (f1 f2 : Nat) :
    ∀ (xs ys : List Nat), xs.length = ys.length → (∃ t ∈ xs, t ≠ 0) → (∃ t ∈ ys, t ≠ 0) →
      comparatorLoop f1 f2 xs ys = .ok (decide (walkKey xs f1 < walkKey ys f2)) := by
  intro xs
  induction xs with
  | nil =>
    intro ys _ hx _
    obtain ⟨t, ht, _⟩ := hx
    cases ht
  | cons x xs ih =>
    intro ys hlen hx hy
    cases ys with
    | nil => simp at hlen
    | cons y ys =>
      simp only [List.length_cons, Nat.add_right_cancel_iff] at hlen
      by_cases hx0 : x = 0
      · by_cases hy0 : y = 0
        · -- both zero: the walk continues
          subst hx0
          subst hy0
          have hx2 : ∃ t ∈ xs, t ≠ 0 := by
            obtain ⟨t, ht, hne⟩ := hx
            rcases List.mem_cons.mp ht with e | e
            · exact absurd e hne
            · exact ⟨t, e, hne⟩
          have hy2 : ∃ t ∈ ys, t ≠ 0 := by
            obtain ⟨t, ht, hne⟩ := hy
            rcases List.mem_cons.mp ht with e | e
            · exact absurd e hne
            · exact ⟨t, e, hne⟩
          simp only [comparatorLoop, and_self, if_true]
          rw [ih ys hlen hx2 hy2]
          simp [walkKey, List.dropWhile_cons]
        · -- zero against a timestamp
          subst hx0
          have hle : (xs.dropWhile (fun t => t == 0)).length ≤ xs.length :=
            (List.dropWhile_suffix _).length_le
          have hne : ¬ (0 = y) := fun e => hy0 e.symm
          have hpos : 0 < y := Nat.pos_of_ne_zero hy0
          simp only [comparatorLoop, hy0, and_false, if_false, hne, hpos, decide_True]
          congr 1
          symm
          apply decide_eq_true
          simp only [walkKey, List.dropWhile_cons, beq_self_eq_true, if_true, beq_iff_eq, hy0,
            if_false, List.length_cons, Prod.Lex.lt_iff]
          left
          omega
      · by_cases hy0 : y = 0
        · -- a timestamp against zero
          subst hy0
          have hle : (ys.dropWhile (fun t => t == 0)).length ≤ ys.length :=
            (List.dropWhile_suffix _).length_le
          simp only [comparatorLoop, hx0, false_and, if_false, Nat.not_lt_zero, decide_False]
          congr 1
          symm
          apply decide_eq_false
          simp only [walkKey, List.dropWhile_cons, beq_self_eq_true, if_true, beq_iff_eq, hx0,
            if_false, List.length_cons, Prod.Lex.lt_iff, not_or, not_and]
          constructor
          · omega
          · intro h
            omega
        · -- two timestamps
          simp only [comparatorLoop, hx0, false_and, if_false]
          by_cases hxy : x = y
          · subst hxy
            simp only [if_true]
            congr 1
            apply decide_eq_decide.mpr
            simp [walkKey, List.dropWhile_cons, hx0, Prod.Lex.lt_iff, hlen]
          · simp only [hxy, if_false]
            congr 1
            apply decide_eq_decide.mpr
            simp only [walkKey, List.dropWhile_cons, beq_iff_eq, hx0, hy0, if_false,
              List.length_cons, hlen, Prod.Lex.lt_iff, lt_irrefl, false_or, true_and,
              List.headD_cons]
            constructor
            · intro h
              exact Or.inl h
            · rintro (h | ⟨h, _⟩)
              · exact h
              · exact absurd h hxy

theorem comparatorNodes_walkKey {K : Nat} (a b : LRUKNode) (ha : a.Recorded K)
    (hb : b.Recorded K) :
    comparatorNodes a b
      = .ok (decide (walkKey a.history_.reverse a.fid_ < walkKey b.history_.reverse b.fid_)) := by
  unfold comparatorNodes
  apply comparatorLoop_walkKey
  · simp [ha.1, hb.1]
  · obtain ⟨t, ht, hne⟩ := ha.2
    exact ⟨t, List.mem_reverse.mpr ht, hne⟩
  · obtain ⟨t, ht, hne⟩ := hb.2
    exact ⟨t, List.mem_reverse.mpr ht, hne⟩

/-- C27. On nodes whose histories have the same length `K` and hold at least
one non-zero timestamp each, `MinHeap::comparator` always returns, and it is a
strict order: irreflexive, asymmetric and transitive; and for two such nodes
with different frame ids exactly one of `comparator(a, b)`, `comparator(b, a)`
is true, whatever their timestamps are (equal timestamps included, where the
smaller frame id decides). -/
theorem comparator_is_strict_total_order (K : Nat) (a b c : LRUKNode) (ha : a.Recorded K)
    (hb : b.Recorded K) (hc : c.Recorded K) :
    (∃ v, comparatorNodes a b = .ok v) ∧
    comparatorNodes a a = .ok false ∧
    (comparatorNodes a b = .ok true → comparatorNodes b a = .ok false) ∧
    (comparatorNodes a b = .ok true → comparatorNodes b c = .ok true →
      comparatorNodes a c = .ok true) ∧
    (a.fid_ ≠ b.fid_ →
      (comparatorNodes a b = .ok true ∧ comparatorNodes b a = .ok false) ∨
      (comparatorNodes a b = .ok false ∧ comparatorNodes b a = .ok true)) ∧
    (a.history_ = b.history_ →
      comparatorNodes a b = .ok (decide (a.fid_ < b.fid_))) := by
  rw [comparatorNodes_walkKey a b ha hb, comparatorNodes_walkKey a a ha ha,
    comparatorNodes_walkKey b a hb ha, comparatorNodes_walkKey b c hb hc,
    comparatorNodes_walkKey a c ha hc]
  simp only [Except.ok.injEq, decide_eq_true_eq, decide_eq_false_iff_not]
  refine ⟨⟨_, rfl⟩, lt_irrefl _, fun h => lt_asymm h, fun h1 h2 => lt_trans h1 h2, ?_, ?_⟩
  · intro hfid
    have hne : walkKey a.history_.reverse a.fid_ ≠ walkKey b.history_.reverse b.fid_ := by
      intro e
      apply hfid
      have := congrArg (fun k => (ofLex (ofLex k).2).2) e
      simpa [walkKey] using this
    rcases lt_trichotomy (walkKey a.history_.reverse a.fid_)
        (walkKey b.history_.reverse b.fid_) with h | h | h
    · exact Or.inl ⟨h, lt_asymm h⟩
    · exact absurd h hne
    · exact Or.inr ⟨lt_asymm h, h⟩
  · intro hh
    apply decide_eq_decide.mpr
    simp [walkKey, hh, Prod.Lex.lt_iff]

theorem comparator_is_strict_total_order_witness :
    nodeA.Recorded 2 ∧ nodeB.Recorded 2 ∧ nodeC.Recorded 2 ∧
      comparatorNodes nodeA nodeA = .ok false ∧
      comparatorNodes nodeA nodeB = .ok true ∧ comparatorNodes nodeB nodeA = .ok false ∧
      comparatorNodes nodeB nodeC = .ok true ∧ comparatorNodes nodeA nodeC = .ok true := by
  have ha : nodeA.Recorded 2 := ⟨rfl, 3, by decide, by decide⟩
  have hb : nodeB.Recorded 2 := ⟨rfl, 3, by decide, by decide⟩
  have hc : nodeC.Recorded 2 := ⟨rfl, 3, by decide, by decide⟩
  obtain ⟨_, h1, h2, h3, _, _⟩ := comparator_is_strict_total_order 2 nodeA nodeB nodeC ha hb hc
  have hab : comparatorNodes nodeA nodeB = .ok true := rfl
  have hbc : comparatorNodes nodeB nodeC = .ok true := rfl
  exact ⟨ha, hb, hc, h1, hab, h2 hab, hbc, h3 hab hbc⟩


/-! ### The comparator and the walk of the specification -/

theorem comparatorLoop_recordedWalk (f1 f2 : Nat) :
    ∀ (xs ys : List Nat), xs.length = ys.length →
      (∃ t, t ≠ 0 ∧ (t ∈ xs ∨ t ∈ ys)) →
      comparatorLoop f1 f2 xs ys = .ok (recordedWalk f1 f2 xs ys) := by
  intro xs
  induction xs with
  | nil =>
    intro ys hlen hnz
    cases ys with
    | nil =>
      obtain ⟨t, _, h | h⟩ := hnz <;> cases h
    | cons y ys => simp at hlen
  | cons x xs ih =>
    intro ys hlen hnz
    cases ys with
    | nil => simp at hlen
    | cons y ys =>
      simp only [List.length_cons, Nat.add_right_cancel_iff] at hlen
      by_cases h0 : x = 0 ∧ y = 0
      · obtain ⟨hx0, hy0⟩ := h0
        subst hx0
        subst hy0
        have hnz2 : ∃ t, t ≠ 0 ∧ (t ∈ xs ∨ t ∈ ys) := by
          obtain ⟨t, hne, h | h⟩ := hnz
          · rcases List.mem_cons.mp h with e | e
            · exact absurd e hne
            · exact ⟨t, hne, Or.inl e⟩
          · rcases List.mem_cons.mp h with e | e
            · exact absurd e hne
            · exact ⟨t, hne, Or.inr e⟩
        simp only [comparatorLoop, and_self, if_true]
        rw [ih ys hlen hnz2]
        simp [recordedWalk, List.find?_cons]
      · simp only [comparatorLoop, h0, if_false]
        simp only [recordedWalk, List.zip_cons_cons, List.find?_cons, h0, not_false_eq_true,
          decide_True]
        by_cases hxy : x = y
        · simp [hxy]
        · simp [hxy]

theorem recordedWalk_eq_specWalk (f1 f2 : Nat) :
    ∀ (xs ys : List Nat), (∀ p ∈ xs.zip ys, p.1 = p.2 → p.1 = 0) →
      recordedWalk f1 f2 xs ys = specWalk f1 f2 xs ys := by
  intro xs
  induction xs with
  | nil =>
    intro ys _
    simp [recordedWalk, specWalk]
  | cons x xs ih =>
    intro ys h
    cases ys with
    | nil => simp [recordedWalk, specWalk]
    | cons y ys =>
      have ih2 := ih ys (fun p hp => h p (by
        simp only [List.zip_cons_cons]
        exact List.mem_cons_of_mem _ hp))
      have hhead := h (x, y) (by simp)
      simp only [recordedWalk, specWalk, List.zip_cons_cons, List.find?_cons] at ih2 ⊢
      by_cases hxy : x = y
      · have hx0 : x = 0 := hhead hxy
        have hy0 : y = 0 := by rw [← hxy]; exact hx0
        simp only [hx0, hy0, and_self, not_true_eq_false, decide_False, ne_eq]
        subst hx0
        subst hy0
        exact ih2
      · have h0 : ¬ (x = 0 ∧ y = 0) := by
          rintro ⟨a1, a2⟩
          exact hxy (a1.trans a2.symm)
        simp [hxy, h0]

theorem specWalk_same (f1 f2 : Nat) (xs : List Nat) :
    specWalk f1 f2 xs xs = decide (f1 < f2) := by
  have : (xs.zip xs).find? (fun p => decide (p.1 ≠ p.2)) = none := by
    rw [List.find?_eq_none]
    intro p hp
    have := List.of_mem_zip hp
    have e : p.1 = p.2 := by
      rw [List.zip_eq_zipWith] at hp
      induction xs with
      | nil => cases hp
      | cons x xs ih =>
        simp only [List.zipWith_cons_cons, List.mem_cons] at hp
        rcases hp with e | e
        · rw [e]
        · exact ih e (List.of_mem_zip (by rw [List.zip_eq_zipWith]; exact e))
    simp [e]
  simp only [specWalk, this]

/-- C25 (as amended). For every two nodes `a` and `b` with histories of the
same length, at least one of which holds a non-zero timestamp,
`MinHeap::comparator(a, b)` returns, and is true exactly when `a` wins this
walk: go from the oldest history position to the newest; skip a position when
both timestamps are zero; at the first other position the node with the smaller
timestamp wins, and if the two timestamps are equal the node with the smaller
frame id wins.  This is the walk of the specification when the histories are
identical and when no position holds the same non-zero timestamp in both. -/
theorem comparator_decides_at_first_recorded_position (a b : LRUKNode)
    (hlen : a.history_.length = b.history_.length)
    (hnz : ∃ t, t ≠ 0 ∧ (t ∈ a.history_ ∨ t ∈ b.history_)) :
    comparatorNodes a b = .ok (recordedWalkWins a b) ∧
    (a.history_ = b.history_ → comparatorNodes a b = .ok (specWalkWins a b)) ∧
    ((∀ p ∈ a.history_.reverse.zip b.history_.reverse, p.1 = p.2 → p.1 = 0) →
      comparatorNodes a b = .ok (specWalkWins a b)) := by
  have hrun : comparatorNodes a b = .ok (recordedWalkWins a b) := by
    unfold comparatorNodes recordedWalkWins
    apply comparatorLoop_recordedWalk
    · simp [hlen]
    · obtain ⟨t, hne, h | h⟩ := hnz
      · exact ⟨t, hne, Or.inl (List.mem_reverse.mpr h)⟩
      · exact ⟨t, hne, Or.inr (List.mem_reverse.mpr h)⟩
  refine ⟨hrun, ?_, ?_⟩
  · intro hh
    have ha : a.Recorded a.history_.length := by
      refine ⟨rfl, ?_⟩
      obtain ⟨t, hne, h | h⟩ := hnz
      · exact ⟨t, h, hne⟩
      · exact ⟨t, hh ▸ h, hne⟩
    have hb : b.Recorded a.history_.length := ⟨hlen.symm, hh ▸ ha.2⟩
    rw [comparatorNodes_walkKey a b ha hb]
    unfold specWalkWins
    rw [hh, specWalk_same]
    congr 1
    apply decide_eq_decide.mpr
    simp [walkKey, Prod.Lex.lt_iff]
  · intro h
    rw [hrun]
    unfold recordedWalkWins specWalkWins
    rw [recordedWalk_eq_specWalk _ _ _ _ h]

theorem comparator_decides_at_first_recorded_position_witness :
    nodeA.history_.length = nodeC.history_.length ∧
      (∃ t, t ≠ 0 ∧ (t ∈ nodeA.history_ ∨ t ∈ nodeC.history_)) ∧
      comparatorNodes nodeA nodeC = .ok true ∧ recordedWalkWins nodeA nodeC = true ∧
      specWalkWins nodeA nodeC = true := by
  have hnz : ∃ t, t ≠ 0 ∧ (t ∈ nodeA.history_ ∨ t ∈ nodeC.history_) :=
    ⟨3, by decide, Or.inl (by decide)⟩
  have h := (comparator_decides_at_first_recorded_position nodeA nodeC rfl hnz).1
  exact ⟨rfl, hnz, by rw [h]; rfl, by decide, by decide⟩

theorem replacerSameMillisecond_reach :
    ReplacerReach replacerSameMillisecond logSameMillisecond 5 :=
  ReplacerReach.recordAccess 0 5 _
    (ReplacerReach.recordAccess 1 4 _
      (ReplacerReach.recordAccess 1 3 _
        (ReplacerReach.recordAccess 0 3 _ (ReplacerReach.init 2 2 (by decide))
          (by decide) (by decide) (by decide) rfl)
        (by decide) (by decide) (by decide) rfl)
      (by decide) (by decide) (by decide) rfl)
    (by decide) (by decide) (by decide) rfl

/-- Counterexample to C25 as stated: in the reachable replacer state
`replacerSameMillisecond` frame 0 has the history 3, 5 and frame 1 the history
3, 4 (oldest first, `k = 2`).  The walk of C25 continues past the equal oldest
timestamps and lets frame 1 win at the next position (4 < 5); the comparator
stops at the first position and lets frame 0 win by its smaller frame id. -/
theorem comparator_stops_at_equal_timestamps :
    ReplacerReach replacerSameMillisecond logSameMillisecond 5 ∧
      replacerSameMillisecond.historyOf 0 = some [5, 3] ∧
      replacerSameMillisecond.historyOf 1 = some [4, 3] ∧
      replacerSameMillisecond.comparator (some 0) (some 1) = .ok true ∧
      comparatorNodes (replacerSameMillisecond.nodeOf 0) (replacerSameMillisecond.nodeOf 1)
        = .ok true ∧
      specWalkWins (replacerSameMillisecond.nodeOf 0) (replacerSameMillisecond.nodeOf 1)
        = false ∧
      specWalkWins (replacerSameMillisecond.nodeOf 1) (replacerSameMillisecond.nodeOf 0)
        = true :=
  ⟨replacerSameMillisecond_reach, by decide, by decide, rfl, rfl, by decide, by decide⟩


/-! ### The disk worker -/

theorem workerLoop_requests (tail : List (Option DiskRequest)) :
    ∀ (reqs : List DiskRequest) (d : Disk) (done : List (Int × List Nat × Bool)),
      workerLoop (reqs.map some ++ tail) d done
        = workerLoop tail (servedDisk reqs d) (done ++ servedCompletions reqs d) := by
  intro reqs
  induction reqs with
  | nil =>
    intro d done
    simp [servedDisk, servedCompletions]
  | cons r rest ih =>
    intro d done
    simp only [List.map_cons, List.cons_append, workerLoop, List.append_eq]
    rw [ih]
    simp only [servedDisk, List.foldl_cons, servedCompletions, List.append_assoc,
      List.singleton_append]

theorem servedDisk_log :
    ∀ (reqs : List DiskRequest) (d : Disk),
      (servedDisk reqs d).log = d.log ++ reqs.map DiskRequest.event := by
  intro reqs
  induction reqs with
  | nil =>
    intro d
    simp [servedDisk]
  | cons r rest ih =>
    intro d
    have h := ih (DiskScheduler.process d r).1
    simp only [servedDisk, List.foldl_cons, List.map_cons] at h ⊢
    rw [h]
    by_cases hw : r.is_write_ = true
    · simp [DiskScheduler.process, hw, Disk.WritePage, DiskRequest.event]
    · simp [DiskScheduler.process, hw, Disk.ReadPage, DiskRequest.event]

theorem servedCompletions_get :
    ∀ (reqs : List DiskRequest) (d : Disk) (i : Nat) (r : DiskRequest), reqs[i]? = some r →
      (servedCompletions reqs d)[i]?
        = some (r.page_id_,
            if r.is_write_ = true then r.data_
            else (servedDisk (reqs.take i) d).contents r.page_id_,
            true) := by
  intro reqs
  induction reqs with
  | nil =>
    intro d i r h
    simp at h
  | cons q rest ih =>
    intro d i r h
    cases i with
    | zero =>
      simp only [List.getElem?_cons_zero, Option.some.injEq] at h
      subst h
      by_cases hw : q.is_write_ = true
      · simp [servedCompletions, DiskScheduler.process, hw, servedDisk]
      · simp [servedCompletions, DiskScheduler.process, hw, servedDisk, Disk.ReadPage]
    | succ j =>
      simp only [List.getElem?_cons_succ] at h
      have := ih (DiskScheduler.process d q).1 j r h
      simp only [servedCompletions, List.getElem?_cons_succ, this, List.take_succ_cons,
        servedDisk, List.foldl_cons]

theorem servedCompletions_length :
    ∀ (reqs : List DiskRequest) (d : Disk), (servedCompletions reqs d).length = reqs.length := by
  intro reqs
  induction reqs with
  | nil => intro d; rfl
  | cons r rest ih =>
    intro d
    simp [servedCompletions, ih]

/-- C23. The disk worker executes the requests in queue order: for every list
of requests followed in the queue by the shutdown sentinel and by anything
else, the worker leaves its loop, having performed for each request before the
sentinel, in queue order, exactly one device operation (`WritePage` for a write
request, `ReadPage` otherwise, on the request's page id and buffer) and having
set each request's promise to `true` right after its operation; the `i`-th
read sees the device as the first `i` requests left it; nothing queued after
the sentinel is executed.  Without a sentinel the worker serves the requests
in the same way and then waits in `Get`. -/
theorem worker_serves_requests_in_queue_order (reqs : List DiskRequest)
    (rest : List (Option DiskRequest)) (d : Disk) :
    DiskScheduler.StartWorkerThread (reqs.map some ++ none :: rest) d
      = { disk := servedDisk reqs d, completed := servedCompletions reqs d, exited := true } ∧
    DiskScheduler.StartWorkerThread (reqs.map some) d
      = { disk := servedDisk reqs d, completed := servedCompletions reqs d, exited := false } ∧
    (servedDisk reqs d).log = d.log ++ reqs.map DiskRequest.event ∧
    (servedCompletions reqs d).length = reqs.length ∧
    (∀ (i : Nat) (r : DiskRequest), reqs[i]? = some r →
      (servedCompletions reqs d)[i]?
        = some (r.page_id_,
            if r.is_write_ = true then r.data_
            else (servedDisk (reqs.take i) d).contents r.page_id_,
            true)) ∧
    (∀ r, DiskScheduler.process d r
      = if r.is_write_ = true then (d.WritePage r.page_id_ r.data_, r.data_, true)
        else ((d.ReadPage r.page_id_).1, (d.ReadPage r.page_id_).2, true)) := by
  refine ⟨?_, ?_, servedDisk_log reqs d, servedCompletions_length reqs d,
    servedCompletions_get reqs d, fun r => rfl⟩
  · unfold DiskScheduler.StartWorkerThread
    rw [workerLoop_requests]
    simp [workerLoop]
  · unfold DiskScheduler.StartWorkerThread
    have := workerLoop_requests [] reqs d []
    rw [List.append_nil] at this
    rw [this]
    simp [workerLoop]

/-- An instance of C23 on `exampleQueue`: the three requests before the
sentinel are served in order (the read of page 4 returns what the write before
it stored), the request after the sentinel is not. -/
theorem worker_serves_example_queue :
    (DiskScheduler.StartWorkerThread exampleQueue exampleDisk).exited = true ∧
      (DiskScheduler.StartWorkerThread exampleQueue exampleDisk).disk.log
        = [DiskEvent.write 4 [1, 2], DiskEvent.read 4, DiskEvent.read 9] ∧
      (DiskScheduler.StartWorkerThread exampleQueue exampleDisk).completed
        = [(4, [1, 2], true), (4, [1, 2], true), (9, [7, 7], true)] ∧
      (DiskScheduler.StartWorkerThread exampleQueue exampleDisk).disk.contents 9 = [7, 7] :=
  ⟨by decide, by decide, by decide, by decide⟩

end Bustub
